import Mathlib

/-!
The aggregation engine of prom-aggregation-gateway.

A shallow embedding of `cmd/prom-aggregation-gateway/main.go` and the properties
of its merge algorithm, its ingest loop and its store.

Conventions of the embedding

* Go `string` is `String`; Go's `<` on strings is `strLess` (lexicographic on the
  characters, which for UTF-8 text is the byte order Go compares by).
* Go `float64` is `F64`, a model of IEEE-754 binary64 with a single NaN.
* Go `uint64` is `Nat` with an explicit `% 2 ^ 64` after every addition.
* The optional payload pointers of `dto.Metric` are `Option`s; dereferencing a
  missing payload is the outcome `Outcome.panic`.  So are `SampleCount` and
  `SampleSum` of a histogram or summary, which the text decoder leaves nil when the
  exposition has no `_count` or `_sum` line.  The proto2 scalar pointers that the
  decoder always fills (names, label values, the value of a counter, gauge or
  untyped, the bound and the count of a bucket) are plain values.
* Slices are lists; a two-cursor loop is a recursion on the two remaining suffixes.
* The Go standard library and the Prometheus libraries (`sort.Sort`,
  `model.LabelSet.Validate`, `model.LabelSet.Fingerprint`) are the fields of `Lib`.
-/

namespace PromAgg

/-! ## float64 -/

/-- Model of a Go `float64`: `fin neg m e` denotes `(-1)^neg * m * 2^e`.  Values
produced by the operations below are kept in lowest terms (`m` odd, or `m = 0` and
`e = 0`), so that structural equality is equality of bit patterns up to the NaN
payload. -/
inductive F64 where
  | nan
  | inf (neg : Bool)
  | fin (neg : Bool) (m : Nat) (e : Int)
  deriving DecidableEq, Repr

namespace F64

/-- Number of binary digits of `n`, computed with at most `fuel` halvings. -/
def bitLengthAux : Nat → Nat → Nat
  | 0, _ => 0
  | fuel + 1, n => if n = 0 then 0 else bitLengthAux fuel (n / 2) + 1

/-- Number of binary digits of `n` (`0` for `0`).  Every binary64 value is a
multiple of `2^-1074` below `2^1024`, so the exact sum or difference of two of them
has fewer than 2100 binary digits: that is the fuel. -/
def bitLength (n : Nat) : Nat := bitLengthAux 2100 n

/-- Remove the trailing zero bits of `m`, raising the exponent accordingly. -/
def lowestTermsAux : Nat → Nat → Int → Nat × Int
  | 0, m, e => (m, e)
  | fuel + 1, m, e => if m % 2 = 0 then lowestTermsAux fuel (m / 2) (e + 1) else (m, e)

/-- The finite value `(-1)^neg * m * 2^e` in lowest terms. -/
def mk (neg : Bool) (m : Nat) (e : Int) : F64 :=
  if m = 0 then fin neg 0 0
  else fin neg (lowestTermsAux 2100 m e).1 (lowestTermsAux 2100 m e).2

/-- Round the exact value `(-1)^neg * m * 2^e` to the nearest binary64, ties to
even: 53 significant bits, least exponent `-1074`, overflow to infinity from
`2^1024` on. -/
def round (neg : Bool) (m : Nat) (e : Int) : F64 :=
  let ulp : Int := max (e + bitLength m - 53) (-1074)
  if m = 0 then fin neg 0 0
  else if ulp ≤ e then
    if e + bitLength m > 1024 then inf neg else mk neg m e
  else
    let sh := (ulp - e).toNat
    let q := m / 2 ^ sh
    let r := m % 2 ^ sh
    let half := 2 ^ (sh - 1)
    let q1 := if half < r ∨ (r = half ∧ q % 2 = 1) then q + 1 else q
    if ulp + bitLength q1 > 1024 then inf neg else mk neg q1 ulp

/-- Go `a + b` on `float64` (IEEE-754 addition, round to nearest even). -/
def add : F64 → F64 → F64
  | nan, _ => nan
  | _, nan => nan
  | inf s, inf t => if s = t then inf s else nan
  | inf s, fin _ _ _ => inf s
  | fin _ _ _, inf t => inf t
  | fin s a ea, fin t b eb =>
    let e := min ea eb
    let x := a * 2 ^ (ea - e).toNat
    let y := b * 2 ^ (eb - e).toNat
    if s = t then round s (x + y) e
    else if x = y then fin false 0 0
    else if y < x then round s (x - y) e
    else round t (y - x) e

/-- Go `a < b` on `float64`: false whenever an operand is NaN, and `-0 < +0` is
false. -/
def lt : F64 → F64 → Bool
  | nan, _ => false
  | _, nan => false
  | inf s, inf t => s && !t
  | inf s, fin _ _ _ => s
  | fin _ _ _, inf t => !t
  | fin s a ea, fin t b eb =>
    let e := min ea eb
    let x := a * 2 ^ (ea - e).toNat
    let y := b * 2 ^ (eb - e).toNat
    match s, t with
    | false, false => decide (x < y)
    | true, true => decide (y < x)
    | true, false => !(x == 0 && y == 0)
    | false, true => false

/-- Go `a > b` on `float64`. -/
def gt (a b : F64) : Bool := lt b a

/-- The float64 with the value of the natural number `n` (rounded when `n` needs
more than 53 bits). -/
def ofNat (n : Nat) : F64 := round false n 0

end F64

/-- Go `a + b` on `uint64`: addition wraps modulo `2^64`. -/
def u64add (a b : Nat) : Nat := (a + b) % 2 ^ 64

/-- Go `a < b` on strings. -/
def strLess (a b : String) : Bool := decide (a.data < b.data)

/-! ## The data model (`dto` of `prometheus/client_model`) -/

/-- A `dto.LabelPair`. -/
structure LabelPair where
  name : String
  value : String
  deriving DecidableEq, Repr

/-- A `dto.Gauge`. -/
structure Gauge where
  value : F64
  deriving DecidableEq, Repr

/-- A `dto.Counter`. -/
structure Counter where
  value : F64
  deriving DecidableEq, Repr

/-- A `dto.Quantile`. -/
structure Quantile where
  quantile : F64
  value : F64
  deriving DecidableEq, Repr

/-- A `dto.Summary`; `sampleCount` and `sampleSum` are nil pointers until a
`_count` and a `_sum` line set them. -/
structure Summary where
  sampleCount : Option Nat := none
  sampleSum : Option F64 := none
  quantile : List Quantile
  deriving DecidableEq, Repr

/-- A `dto.Untyped`. -/
structure Untyped where
  value : F64
  deriving DecidableEq, Repr

/-- A `dto.Bucket`. -/
structure Bucket where
  cumulativeCount : Nat
  upperBound : F64
  deriving DecidableEq, Repr

/-- A `dto.Histogram`; `sampleCount` and `sampleSum` are nil pointers until a
`_count` and a `_sum` line set them. -/
structure Histogram where
  sampleCount : Option Nat := none
  sampleSum : Option F64 := none
  bucket : List Bucket
  deriving DecidableEq, Repr

/-- A `dto.Metric`: the label pairs and the optional payloads. -/
structure Metric where
  label : List LabelPair
  gauge : Option Gauge := none
  counter : Option Counter := none
  summary : Option Summary := none
  untyped : Option Untyped := none
  histogram : Option Histogram := none
  timestampMs : Option Int := none
  deriving DecidableEq, Repr

/-- The `dto.MetricType` enumeration. -/
inductive MetricType where
  | COUNTER
  | GAUGE
  | SUMMARY
  | UNTYPED
  | HISTOGRAM
  deriving DecidableEq, Repr

/-- A `dto.MetricFamily`. -/
structure MetricFamily where
  name : String
  help : Option String := none
  type : MetricType
  metric : List Metric
  deriving DecidableEq, Repr

/-- A Go map with string keys, kept as an association list in ascending order of
the keys, so that equal maps are equal lists. -/
abbrev StrMap (β : Type) := List (String × β)

/-- Go `m[k]` with the `ok` flag: the value stored under `k`, if any. -/
def StrMap.get {β : Type} (k : String) : StrMap β → Option β
  | [] => none
  | (k1, v1) :: rest => if k1 = k then some v1 else StrMap.get k rest

/-- Go `m[k] = v`. -/
def StrMap.set {β : Type} (k : String) (v : β) : StrMap β → StrMap β
  | [] => [(k, v)]
  | (k1, v1) :: rest =>
    if k = k1 then (k, v) :: rest
    else if strLess k k1 then (k, v) :: (k1, v1) :: rest
    else (k1, v1) :: StrMap.set k v rest

/-- The type `model.LabelSet`: a map from label name to label value. -/
abbrev LabelSet := StrMap String

/-- The field `families` of `aggate`: a map from family name to family. -/
abbrev Store := StrMap MetricFamily

/-- The errors `parseAndMerge` returns. -/
inductive Error where
  | parseError (msg : String)
  | invalidLabels (lset : LabelSet)
  | duplicateLabels (lset : LabelSet)
  | typeMismatch (name : String) (existing incoming : MetricType)
  deriving DecidableEq, Repr

/-- What a call does: it returns a value, returns an error, or panics on a nil
pointer dereference. -/
inductive Outcome (α : Type) where
  | ok (val : α)
  | error (err : Error)
  | panic
  deriving DecidableEq, Repr

/-- Apply `f` to the value of a successful outcome. -/
def Outcome.map {α β : Type} (f : α → β) : Outcome α → Outcome β
  | .ok v => .ok (f v)
  | .error e => .error e
  | .panic => .panic

/-- Continue with `f` on the value of a successful outcome. -/
def Outcome.bind {α β : Type} (o : Outcome α) (f : α → Outcome β) : Outcome β :=
  match o with
  | .ok v => f v
  | .error e => .error e
  | .panic => .panic

/-- The library functions the program calls. -/
structure Lib where
  /-- `sort.Sort` on a slice with the given `Less`. -/
  sort : (α : Type) → (α → α → Bool) → List α → List α
  /-- `model.LabelSet.Validate`: true when the label set is well formed. -/
  validate : LabelSet → Bool
  /-- `model.LabelSet.Fingerprint`. -/
  fingerprint : LabelSet → Nat

/-! ## The program -/

/-- Source `lablesLessThan`.  The cursors `i` and `j` advance together, so the
loop compares the two slices element by element; when one is used up the final
`len(a) < len(b)` compares what is left of them. -/
def lablesLessThan : List LabelPair → List LabelPair → Bool
  | a :: as, b :: bs =>
    if a.name ≠ b.name then strLess a.name b.name
    else if a.value ≠ b.value then strLess a.value b.value
    else lablesLessThan as bs
  | as, bs => decide (as.length < bs.length)

/-- Source `byLabel.Less`. -/
def byLabelLess (x y : Metric) : Bool := lablesLessThan x.label y.label

/-- Source `byName.Less`. -/
def byNameLess (x y : LabelPair) : Bool := strLess x.name y.name

/-- Source `mergeBuckets`, first loop for a fixed `a[i]`: it runs over `b[j..]`
until `a[i]` is emitted, `k` being the loop continued from `a[i+1]`. -/
def mergeBucketsFrom (ai : Bucket) (restA : List Bucket) (k : List Bucket → List Bucket) :
    List Bucket → List Bucket
  | [] => ai :: restA
  | bj :: restB =>
    if F64.lt ai.upperBound bj.upperBound then ai :: k (bj :: restB)
    else if F64.gt ai.upperBound bj.upperBound then bj :: mergeBucketsFrom ai restA k restB
    else { cumulativeCount := u64add ai.cumulativeCount bj.cumulativeCount,
           upperBound := ai.upperBound } :: k restB

/-- Source `mergeBuckets`: the arguments are `a[i..]` and `b[j..]`, the result is
what is appended to `output` from there on.  The loop is split over two functions so
that each recursion is on one list; `mergeBuckets_cons_cons` states its step in one
piece. -/
def mergeBuckets : List Bucket → List Bucket → List Bucket
  | [], b => b
  | ai :: restA, b => mergeBucketsFrom ai restA (mergeBuckets restA) b

/-- Source `mergeMetric`.  The result `ok none` is the `nil` returned for a
summary.  Every `*a.X.Value` dereferences the payload pointer `a.X`; the histogram
case dereferences `SampleCount` and `SampleSum` of both histograms as well. -/
def mergeMetric (ty : MetricType) (a b : Metric) : Outcome (Option Metric) :=
  match ty with
  | .COUNTER =>
    match a.counter, b.counter with
    | some ca, some cb =>
      .ok (some { label := a.label, counter := some { value := F64.add ca.value cb.value } })
    | _, _ => .panic
  | .GAUGE =>
    match a.gauge, b.gauge with
    | some ga, some gb =>
      .ok (some { label := a.label, gauge := some { value := F64.add ga.value gb.value } })
    | _, _ => .panic
  | .HISTOGRAM =>
    match a.histogram, b.histogram with
    | some ha, some hb =>
      match ha.sampleCount, hb.sampleCount, ha.sampleSum, hb.sampleSum with
      | some ca, some cb, some sa, some sb =>
        .ok (some { label := a.label,
                    histogram := some { sampleCount := some (u64add ca cb),
                                        sampleSum := some (F64.add sa sb),
                                        bucket := mergeBuckets ha.bucket hb.bucket } })
      | _, _, _, _ => .panic
    | _, _ => .panic
  | .UNTYPED =>
    match a.untyped, b.untyped with
    | some ua, some ub =>
      .ok (some { label := a.label, untyped := some { value := F64.add ua.value ub.value } })
    | _, _ => .panic
  | .SUMMARY => .ok none

/-- Source `mergeFamily`, first loop for a fixed `a.Metric[i]`: it runs over
`b.Metric[j..]` until `a.Metric[i]` is emitted or merged, `k` being the loop
continued from `a.Metric[i+1]`. -/
def mergeMetricsFrom (ty : MetricType) (ai : Metric) (restA : List Metric)
    (k : List Metric → Outcome (List Metric)) : List Metric → Outcome (List Metric)
  | [] => .ok (ai :: restA)
  | bj :: restB =>
    if lablesLessThan ai.label bj.label then (k (bj :: restB)).map (ai :: ·)
    else if lablesLessThan bj.label ai.label then
      (mergeMetricsFrom ty ai restA k restB).map (bj :: ·)
    else
      match mergeMetric ty ai bj with
      | .ok (some merged) => (k restB).map (merged :: ·)
      | .ok none => k restB
      | .error e => .error e
      | .panic => .panic

/-- Source `mergeFamily`, the three loops: the arguments are `a.Metric[i..]` and
`b.Metric[j..]`, the result is what is appended to `output.Metric` from there on.
The loop is split over two functions so that each recursion is on one list;
`mergeMetrics_cons_cons` states its step in one piece. -/
def mergeMetrics (ty : MetricType) : List Metric → List Metric → Outcome (List Metric)
  | [], b => .ok b
  | ai :: restA, b => mergeMetricsFrom ty ai restA (mergeMetrics ty restA) b

/-- Source `mergeFamily`. -/
def mergeFamily (a b : MetricFamily) : Outcome MetricFamily :=
  if a.type ≠ b.type then .error (.typeMismatch a.name a.type b.type)
  else
    (mergeMetrics a.type a.metric b.metric).map
      (fun out => { name := a.name, help := a.help, type := a.type, metric := out })

/-- Source `newAggate`: the empty store. -/
def newAggate : Store := []

/-- Source `validateFamily`, the loop over `f.Metric`; `fingerprints` holds the
fingerprints seen so far and `familyName` is `f.GetName()`. -/
def validateMetrics (L : Lib) (familyName : String) (fingerprints : List Nat) :
    List Metric → Option Error
  | [] => none
  | m :: rest =>
    let lset : LabelSet :=
      StrMap.set "__name__" familyName
        (m.label.foldl (fun lset p => StrMap.set p.name p.value lset) [])
    if ¬ L.validate lset then some (.invalidLabels lset)
    else
      let fingerprint := L.fingerprint lset
      if fingerprint ∈ fingerprints then some (.duplicateLabels lset)
      else validateMetrics L familyName (fingerprint :: fingerprints) rest

/-- Source `validateFamily`: `none` is the `nil` error. -/
def validateFamily (L : Lib) (f : MetricFamily) : Option Error :=
  validateMetrics L f.name [] f.metric

/-- Source `parseAndMerge`, the body of the loop over `inFamilies` for one entry:
the store after the iteration, or the error or panic that ends the call. -/
def mergeIncoming (L : Lib) (families : Store) (name : String) (family : MetricFamily) :
    Outcome Store :=
  let family : MetricFamily :=
    { family with
      metric := family.metric.map (fun m => { m with label := L.sort LabelPair byNameLess m.label }) }
  match validateFamily L family with
  | some err => .error err
  | none =>
    let family : MetricFamily := { family with metric := L.sort Metric byLabelLess family.metric }
    match StrMap.get name families with
    | none => .ok (StrMap.set name family families)
    | some existingFamily =>
      match mergeFamily existingFamily family with
      | .ok merged => .ok (StrMap.set name merged families)
      | .error err => .error err
      | .panic => .panic

/-- Source `parseAndMerge`, the loop over `inFamilies`, given in the order in which
the `range` visits its entries: the store when the call ends, and how it ends. -/
def mergeAll (L : Lib) : Store → List (String × MetricFamily) → Store × Outcome Unit
  | families, [] => (families, .ok ())
  | families, (name, family) :: rest =>
    match mergeIncoming L families name family with
    | .ok families1 => mergeAll L families1 rest
    | .error err => (families, .error err)
    | .panic => (families, .panic)

/-- Source `parseAndMerge`.  `parsed` is what `parser.TextToMetricFamilies(r)`
returned: an error, or the decoded families in the order in which the `range` over
the map visits them. -/
def parseAndMerge (L : Lib) (families : Store)
    (parsed : Except Error (List (String × MetricFamily))) : Store × Outcome Unit :=
  match parsed with
  | .error err => (families, .error err)
  | .ok inFamilies => mergeAll L families inFamilies

/-! ## A reference instance of the libraries -/

/-- Go `insertionSort` (package `sort`), one insertion: `x` moves left past every
element it is `less` than; the sorted part is given from right to left. -/
def insertLeft {α : Type} (less : α → α → Bool) (x : α) : List α → List α
  | [] => [x]
  | y :: revRest => if less x y then y :: insertLeft less x revRest else x :: y :: revRest

/-- Go `insertionSort` (package `sort`): what `sort.Sort` runs on a short slice. -/
def insertionSort {α : Type} (less : α → α → Bool) (xs : List α) : List α :=
  (xs.foldl (fun sortedRev x => insertLeft less x sortedRev) []).reverse

/-- The legacy rule `model.LabelName.IsValid`: `[a-zA-Z_][a-zA-Z0-9_]*`. -/
def labelNameIsValid (name : String) : Bool :=
  match name.data with
  | [] => false
  | c :: cs => (c.isAlpha || c = '_') && cs.all (fun d => d.isAlphanum || d = '_')

/-- FNV-1a over the bytes of `bs`, as `hashAdd` of `prometheus/common/model`. -/
def hashAdd (h : Nat) (bs : List Nat) : Nat :=
  bs.foldl (fun h b => ((Nat.xor h b) * 1099511628211) % 2 ^ 64) h

/-- The UTF-8 bytes of a string. -/
def utf8Bytes (s : String) : List Nat :=
  s.data.flatMap (fun c => (String.utf8EncodeChar c).map (fun b => b.toNat))

/-- The function `labelSetToFingerprint` of `prometheus/common/model`. -/
def labelSetToFingerprint (lset : LabelSet) : Nat :=
  lset.foldl
    (fun h kv => hashAdd (hashAdd (hashAdd (hashAdd h (utf8Bytes kv.1)) [255]) (utf8Bytes kv.2)) [255])
    14695981039346656037

/-- The libraries as the program is built against them, `sort.Sort` being the
insertion sort it runs on short slices. -/
def refLib : Lib where
  sort := fun _ less xs => insertionSort less xs
  validate := fun lset => lset.all (fun kv => labelNameIsValid kv.1)
  fingerprint := labelSetToFingerprint

/-! ## Predicates used in the statements -/

/-- Every element of the sequence is `less` than the next one. -/
def ascending {α : Type} (less : α → α → Bool) : List α → Bool
  | [] => true
  | [_] => true
  | x :: y :: rest => less x y && ascending less (y :: rest)

/-- The metric sequence is strictly ascending under `lablesLessThan`. -/
def LabelSorted (ms : List Metric) : Prop := ascending byLabelLess ms = true

instance (ms : List Metric) : Decidable (LabelSorted ms) :=
  inferInstanceAs (Decidable (ascending byLabelLess ms = true))

/-- The metric carries the payload that `mergeMetric` reads for the type `ty`: the
payload of that type and, in a histogram, its sample count and its sample sum. -/
def carries (ty : MetricType) (m : Metric) : Bool :=
  match ty with
  | .COUNTER => m.counter.isSome
  | .GAUGE => m.gauge.isSome
  | .SUMMARY => m.summary.isSome
  | .UNTYPED => m.untyped.isSome
  | .HISTOGRAM =>
    match m.histogram with
    | some h => h.sampleCount.isSome && h.sampleSum.isSome
    | none => false

/-- Every metric of the family carries the payload that `mergeMetric` reads for the
declared type. -/
def WellTyped (f : MetricFamily) : Prop := ∀ m ∈ f.metric, carries f.type m = true

instance (f : MetricFamily) : Decidable (WellTyped f) :=
  inferInstanceAs (Decidable (∀ m ∈ f.metric, carries f.type m = true))

/-- The label sequence of `x` is below that of `y` under `lablesLessThan`. -/
abbrev labelLt (x y : Metric) : Prop := lablesLessThan x.label y.label = true

/-- The first metric of `ms` whose label sequence is `l`. -/
def findLabel (l : List LabelPair) (ms : List Metric) : Option Metric :=
  ms.find? (fun m => decide (m.label = l))

/-- What the merge-join leaves under one label sequence, given what the two inputs
hold under it. -/
def combine (ty : MetricType) : Option Metric → Option Metric → Option Metric
  | some a, some b =>
    match mergeMetric ty a b with
    | .ok r => r
    | _ => none
  | some a, none => some a
  | none, some b => some b
  | none, none => none

/-- The sequence of (label set, counter value) pairs of a metric sequence. -/
def counterView (ms : List Metric) : List (List LabelPair × Option F64) :=
  ms.map (fun m => (m.label, m.counter.map (fun c => c.value)))

/-- The counter values of a metric sequence. -/
def counterValues (ms : List Metric) : List F64 :=
  ms.filterMap (fun m => m.counter.map (fun c => c.value))

/-- The bucket sequence is strictly ascending by `upperBound`. -/
def BoundSorted (bs : List Bucket) : Prop :=
  ascending (fun x y => F64.lt x.upperBound y.upperBound) bs = true

instance (bs : List Bucket) : Decidable (BoundSorted bs) :=
  inferInstanceAs (Decidable (ascending (fun x y => F64.lt x.upperBound y.upperBound) bs = true))

/-- Go `a == b` on two `float64` that are not NaN. -/
def F64.same (a b : F64) : Prop := F64.lt a b = false ∧ F64.lt b a = false

instance (a b : F64) : Decidable (F64.same a b) :=
  inferInstanceAs (Decidable (F64.lt a b = false ∧ F64.lt b a = false))

/-- The order the model of `float64` comparison is checked against: the value of a
finite float as a rational, between the two infinities. -/
def F64.key : F64 → WithBot (WithTop ℚ)
  | .nan => ⊥
  | .inf true => ⊥
  | .inf false => ((⊤ : WithTop ℚ) : WithBot (WithTop ℚ))
  | .fin true m e => (((-((m : ℚ) * (2 : ℚ) ^ e) : ℚ) : WithTop ℚ) : WithBot (WithTop ℚ))
  | .fin false m e => ((((m : ℚ) * (2 : ℚ) ^ e : ℚ) : WithTop ℚ) : WithBot (WithTop ℚ))

/-- The place of a bucket in the order of the upper bounds. -/
def Bucket.key (b : Bucket) : WithBot (WithTop ℚ) := F64.key b.upperBound

/-- No bucket of the sequence has a NaN upper bound. -/
def NoNaNBound (bs : List Bucket) : Prop := ∀ x ∈ bs, x.upperBound ≠ F64.nan

instance (bs : List Bucket) : Decidable (NoNaNBound bs) :=
  inferInstanceAs (Decidable (∀ x ∈ bs, x.upperBound ≠ F64.nan))

/-- The order `less` is a strict weak order, what `sort.Sort` expects of `Less`. -/
def StrictWeak {α : Type} (less : α → α → Bool) : Prop :=
  (∀ x, less x x = false) ∧
  (∀ x y z, less x y = true → less y z = true → less x z = true) ∧
  (∀ x y z, less x y = false → less y z = false → less x z = false)

/-- The contract of `sort.Sort`: on a strict weak order the slice ends up as a
permutation of what it was, no element being `less` than one before it. -/
def Lib.Sorts (L : Lib) : Prop :=
  ∀ (α : Type) (less : α → α → Bool) (xs : List α), StrictWeak less →
    (L.sort α less xs).Perm xs ∧ (L.sort α less xs).Pairwise (fun x y => less y x = false)

/-- The pair `x` may stand before `y` in the canonical order: by name, and by value
under the same name. -/
def pairLe (x y : LabelPair) : Bool :=
  strLess x.name y.name || (x.name == y.name && !strLess y.value x.value)

/-- The label pairs are in canonical order: ascending by name and, among pairs of
equal name, ascending by value. -/
def CanonicalOrder (ls : List LabelPair) : Prop := ascending pairLe ls = true

instance (ls : List LabelPair) : Decidable (CanonicalOrder ls) :=
  inferInstanceAs (Decidable (ascending pairLe ls = true))

/-- The label set `validateFamily` builds for the metric `m` of the family named
`familyName`: the label pairs of `m`, then the metric name. -/
def metricLabelSet (familyName : String) (m : Metric) : LabelSet :=
  StrMap.set "__name__" familyName
    (m.label.foldl (fun lset p => StrMap.set p.name p.value lset) [])

/-- The fingerprints `validateFamily` computes for the metrics of `f`, in order. -/
def fingerprints (L : Lib) (f : MetricFamily) : List Nat :=
  f.metric.map (fun m => L.fingerprint (metricLabelSet f.name m))

/-- The family as `parseAndMerge` hands it to `validateFamily`: the label pairs of
every metric sorted by name. -/
def withSortedLabels (L : Lib) (family : MetricFamily) : MetricFamily :=
  { family with
    metric := family.metric.map (fun m => { m with label := L.sort LabelPair byNameLess m.label }) }

/-- Source `aggate.handler`, the loop over the sorted `metricNames`: the values
`a.families[name]` that have been encoded (`none` is a `nil` family), and whether
the loop ran to its end; `encode` tells whether `enc.Encode` returns no error. -/
def encodeNames (encode : Option MetricFamily → Bool) (families : Store) :
    List String → List (Option MetricFamily) × Bool
  | [] => ([], true)
  | name :: rest =>
    if encode (StrMap.get name families) then
      (StrMap.get name families :: (encodeNames encode families rest).1,
        (encodeNames encode families rest).2)
    else ([], false)

/-- Source `aggate.handler`.  `visit` holds the keys of `a.families` in the order in
which the `range` over the map visits them. -/
def handler (L : Lib) (encode : Option MetricFamily → Bool) (families : Store)
    (visit : List String) : List (Option MetricFamily) × Bool :=
  let metricNames := L.sort String strLess visit
  encodeNames encode families metricNames

/-- The package-level state: the store of `a` and `nextResetTimestampSec`.  The
timestamp is the Unix time of a cron run, far from the bounds of `int64`, so it is
an `Int`. -/
structure Gateway where
  families : Store
  nextResetTimestampSec : Int
  deriving DecidableEq, Repr

/-- Source constant `bufferSeconds`. -/
def bufferSeconds : Int := 30

/-- Source `main`, the function given to `cronJob.AddFunc`; `next` is
`cronJob.Entries()[0].Next.Unix()`. -/
def cronCallback (_g : Gateway) (next : Int) : Gateway :=
  { families := [], nextResetTimestampSec := next }

/-- What the push handler answers. -/
inductive Response where
  | badRequest (err : Error)
  | nextReset (timestampSec : Int)
  | panicked
  deriving DecidableEq, Repr

/-- Source `main`, the handler of the push path: the state after the request and
the answer. -/
def pushHandler (L : Lib) (g : Gateway)
    (parsed : Except Error (List (String × MetricFamily))) : Gateway × Response :=
  match parseAndMerge L g.families parsed with
  | (families, .error err) => ({ g with families := families }, .badRequest err)
  | (families, .panic) => ({ g with families := families }, .panicked)
  | (families, .ok _) =>
    ({ g with families := families }, .nextReset (g.nextResetTimestampSec + bufferSeconds))

/-- A sequence of push requests served one after the other, with no tick between
them: the state after the last one and the answers. -/
def pushAll (L : Lib) : Gateway → List (Except Error (List (String × MetricFamily))) →
    Gateway × List Response
  | g, [] => (g, [])
  | g, parsed :: rest =>
    ((pushAll L (pushHandler L g parsed).1 rest).1,
      (pushHandler L g parsed).2 :: (pushAll L (pushHandler L g parsed).1 rest).2)

/-- The states the gateway reaches from its start by push requests and ticks. -/
inductive Reachable (L : Lib) : Gateway → Prop where
  | start (next : Int) : Reachable L { families := newAggate, nextResetTimestampSec := next }
  | push (g : Gateway) (parsed : Except Error (List (String × MetricFamily))) :
      Reachable L g → Reachable L (pushHandler L g parsed).1
  | tick (g : Gateway) (next : Int) : Reachable L g → Reachable L (cronCallback g next)

/-- What the goroutines do to the shared state, one event at a time. -/
inductive Event where
  /-- The call `a.familiesLock.Lock()` at the start of `parseAndMerge`. -/
  | lock
  /-- One iteration of the loop of `parseAndMerge`. -/
  | iterate (name : String) (family : MetricFamily)
  /-- The deferred call `a.familiesLock.Unlock()` of `parseAndMerge`. -/
  | unlock
  /-- The cron callback. -/
  | tick (next : Int)

/-- The shared state and whether `familiesLock` is held for writing. -/
structure Running where
  gateway : Gateway
  lockHeld : Bool
  deriving DecidableEq, Repr

/-- One event on the shared state; `none` when the event cannot happen there.
`Lock` waits while the lock is held, the loop of `parseAndMerge` runs under the
lock, and the cron callback, which calls neither `Lock` nor `Unlock`, runs
whenever it fires. -/
def Running.step (L : Lib) (r : Running) : Event → Option Running
  | .lock => if r.lockHeld then none else some { r with lockHeld := true }
  | .iterate name family =>
    if r.lockHeld then
      match mergeIncoming L r.gateway.families name family with
      | .ok families => some { r with gateway := { r.gateway with families := families } }
      | _ => some r
    else none
  | .unlock => if r.lockHeld then some { r with lockHeld := false } else none
  | .tick next => some { r with gateway := cronCallback r.gateway next }

/-- A sequence of events, one after the other. -/
def Running.run (L : Lib) : Running → List Event → Option Running
  | r, [] => some r
  | r, e :: rest =>
    match r.step L e with
    | some r1 => Running.run L r1 rest
    | none => none

/-- The two stores hold the same family under every name. -/
def SameMap (s t : Store) : Prop := ∀ k, StrMap.get k s = StrMap.get k t

/-- The family as `parseAndMerge` inserts or merges it: the label pairs of every
metric sorted by name, then the metrics sorted by label. -/
def asStored (L : Lib) (family : MetricFamily) : MetricFamily :=
  { withSortedLabels L family with
    metric := L.sort Metric byLabelLess (withSortedLabels L family).metric }

/-- Every family of the store has its metric sequence strictly ascending under
`lablesLessThan`. -/
def SeriesSorted (s : Store) : Prop := ∀ kv ∈ s, LabelSorted kv.2.metric

/-- What one iteration of the loop of `parseAndMerge` writes under the name of its
family, given what the store holds under that name. -/
def incomingValue (L : Lib) (existing : Option MetricFamily) (family : MetricFamily) :
    Outcome MetricFamily :=
  match validateFamily L (withSortedLabels L family) with
  | some err => .error err
  | none =>
    match existing with
    | none => .ok (asStored L family)
    | some existingFamily => mergeFamily existingFamily (asStored L family)

/-- The names of the store are strictly ascending: the form in which `StrMap.set`
keeps a map. -/
def KeysAscending (s : Store) : Prop := ascending strLess (s.map Prod.fst) = true

instance (s : Store) : Decidable (KeysAscending s) :=
  inferInstanceAs (Decidable (ascending strLess (s.map Prod.fst) = true))

/-! ## Concrete inputs -/

/-- The label set `path="/"`. -/
def exLabels : List LabelPair := [{ name := "path", value := "/" }]

/-- The counter family `requests_total` with the one series `path="/"` of value `v`. -/
def exCounter (v : Nat) : MetricFamily :=
  { name := "requests_total", type := .COUNTER,
    metric := [{ label := exLabels, counter := some { value := F64.ofNat v } }] }

/-- A gauge family of the same name `requests_total`. -/
def exGauge : MetricFamily :=
  { name := "requests_total", type := .GAUGE,
    metric := [{ label := exLabels, gauge := some { value := F64.ofNat 1 } }] }

/-- A counter series of the given path and value. -/
def exSeries (path : String) (v : Nat) : Metric :=
  { label := [{ name := "path", value := path }], counter := some { value := F64.ofNat v } }

/-- The counter family `hits` with the series `/a` = 1 and `/b` = 2. -/
def exLeft : MetricFamily :=
  { name := "hits", type := .COUNTER, metric := [exSeries "/a" 1, exSeries "/b" 2] }

/-- The counter family `hits` with the series `/b` = 3 and `/c` = 4. -/
def exRight : MetricFamily :=
  { name := "hits", type := .COUNTER, metric := [exSeries "/b" 3, exSeries "/c" 4] }

/-- The bucket with the given count and the upper bound `bound`. -/
def exBucket (bound count : Nat) : Bucket :=
  { cumulativeCount := count, upperBound := F64.ofNat bound }

/-- The bucket with the given count and the upper bound NaN. -/
def exNaNBucket (count : Nat) : Bucket :=
  { cumulativeCount := count, upperBound := F64.nan }

/-- A histogram series with the given sample count, no bucket and sum `0`. -/
def exHistogram (count : Nat) : Metric :=
  { label := exLabels,
    histogram := some { sampleCount := some count, sampleSum := some (F64.ofNat 0),
                        bucket := [] } }

/-- The histogram series decoded from the one line `h_bucket{le="1"} 2`: a bucket,
and neither sample count nor sample sum. -/
def exBareSeries : Metric :=
  { label := [], histogram := some { bucket := [exBucket 1 2] } }

/-- The histogram family `h` decoded from a `TYPE h histogram` line followed by
the line `h_bucket{le="1"} 2`. -/
def exBare : MetricFamily :=
  { name := "h", type := .HISTOGRAM, metric := [exBareSeries] }

/-- The store after one push of `exBare`. -/
def exBareStore : Store := [("h", exBare)]

/-- The gauge family `up` with one series of value `1` and no label. -/
def exUp : MetricFamily :=
  { name := "up", type := .GAUGE,
    metric := [{ label := [], gauge := some { value := F64.ofNat 1 } }] }

/-- The store after the pushes of `requests_total` = 3 and `requests_total` = 4. -/
def exStore : Store := [("requests_total", exCounter 7)]

/-- A summary series of the given path and sample count. -/
def exSummarySeries (path : String) (count : Nat) : Metric :=
  { label := [{ name := "path", value := path }],
    summary := some { sampleCount := some count, sampleSum := some (F64.ofNat 0),
                      quantile := [] } }

/-- The summary family `latency` with the series `/a` and `/b`. -/
def exSummaryLeft : MetricFamily :=
  { name := "latency", type := .SUMMARY,
    metric := [exSummarySeries "/a" 1, exSummarySeries "/b" 2] }

/-- The summary family `latency` with the series `/b` and `/c`. -/
def exSummaryRight : MetricFamily :=
  { name := "latency", type := .SUMMARY,
    metric := [exSummarySeries "/b" 3, exSummarySeries "/c" 4] }

/-- A counter family that declares the series `path="/"` twice. -/
def exDuplicate : MetricFamily :=
  { name := "requests_total", type := .COUNTER,
    metric := [exSeries "/" 1, exSeries "/" 2] }

/-- A store with the families `up` and `requests_total`. -/
def exStore2 : Store := [("requests_total", exCounter 7), ("up", exUp)]

/-- The counter family `hits` as a producer may push it, the series `/b` before
the series `/a`. -/
def exUnsorted : MetricFamily :=
  { name := "hits", type := .COUNTER, metric := [exSeries "/b" 2, exSeries "/a" 1] }

/-- The gateway at its start, the first reset due at second 300. -/
def exStart : Gateway := { families := newAggate, nextResetTimestampSec := 300 }

/-! ## Properties -/

/-! ### The float64 model -/

/-- The fuel of `bitLength` is enough below `2^fuel`: the result is the number of
binary digits. -/
theorem F64.bitLengthAux_spec :
    ∀ (fuel n : Nat), n < 2 ^ fuel →
      n < 2 ^ F64.bitLengthAux fuel n ∧ (n ≠ 0 → 2 ^ (F64.bitLengthAux fuel n - 1) ≤ n) := by
  intro fuel
  induction fuel with
  | zero =>
    intro n hn
    have h0 : n = 0 := by simpa using hn
    subst h0
    simp [F64.bitLengthAux]
  | succ k ih =>
    intro n hn
    by_cases h0 : n = 0
    · subst h0
      simp [F64.bitLengthAux]
    · have hhalf : n / 2 < 2 ^ k := by
        rw [Nat.div_lt_iff_lt_mul (by norm_num)]
        rw [pow_succ] at hn
        exact hn
      obtain ⟨h1, h2⟩ := ih (n / 2) hhalf
      simp only [F64.bitLengthAux, if_neg h0, Nat.add_sub_cancel]
      refine ⟨?_, fun _ => ?_⟩
      · rw [pow_succ]
        omega
      · by_cases hq : n / 2 = 0
        · rw [hq]
          have : F64.bitLengthAux k 0 = 0 := by cases k <;> simp [F64.bitLengthAux]
          rw [this]
          simp
          omega
        · have h3 := h2 hq
          have hpos : 0 < F64.bitLengthAux k (n / 2) := by
            cases k with
            | zero => simp at hhalf; exact absurd hhalf hq
            | succ j => simp [F64.bitLengthAux, hq]
          have : 2 ^ F64.bitLengthAux k (n / 2) = 2 ^ (F64.bitLengthAux k (n / 2) - 1) * 2 := by
            rw [← pow_succ]
            congr 1
            omega
          rw [this]
          omega

/-! ### The order on label sequences -/

theorem strLess_iff (a b : String) : strLess a b = true ↔ a < b := by
  simp [strLess, String.lt_iff_toList_lt]

theorem lablesLessThan_cons (x y : LabelPair) (xs ys : List LabelPair) :
    lablesLessThan (x :: xs) (y :: ys) = true ↔
      x.name < y.name ∨ (x.name = y.name ∧
        (x.value < y.value ∨ (x.value = y.value ∧ lablesLessThan xs ys = true))) := by
  simp only [lablesLessThan]
  split_ifs with h1 h2
  · rw [strLess_iff]
    constructor
    · intro h; exact Or.inl h
    · rintro (h | ⟨h, _⟩)
      · exact h
      · exact absurd h h1
  · have h1 : x.name = y.name := not_not.mp h1
    rw [strLess_iff]
    constructor
    · intro h; exact Or.inr ⟨h1, Or.inl h⟩
    · rintro (h | ⟨_, h | ⟨h, _⟩⟩)
      · exact absurd h (h1 ▸ lt_irrefl _)
      · exact h
      · exact absurd h h2
  · have h1 : x.name = y.name := not_not.mp h1
    have h2 : x.value = y.value := not_not.mp h2
    constructor
    · intro h; exact Or.inr ⟨h1, Or.inr ⟨h2, h⟩⟩
    · rintro (h | ⟨_, h | ⟨_, h⟩⟩)
      · exact absurd h (h1 ▸ lt_irrefl _)
      · exact absurd h (h2 ▸ lt_irrefl _)
      · exact h

theorem lablesLessThan_nil_right (as : List LabelPair) : lablesLessThan as [] = false := by
  cases as <;> simp [lablesLessThan]

theorem lablesLessThan_irrefl (a : List LabelPair) : lablesLessThan a a = false := by
  induction a with
  | nil => simp [lablesLessThan]
  | cons x xs ih => simp [lablesLessThan, ih]

theorem lablesLessThan_trans {a b c : List LabelPair} :
    lablesLessThan a b = true → lablesLessThan b c = true → lablesLessThan a c = true := by
  induction a generalizing b c with
  | nil =>
    intro _ h2
    cases c with
    | nil => simp [lablesLessThan_nil_right] at h2
    | cons z zs => simp [lablesLessThan]
  | cons x xs ih =>
    cases b with
    | nil => simp [lablesLessThan_nil_right]
    | cons y ys =>
      cases c with
      | nil => simp [lablesLessThan_nil_right]
      | cons z zs =>
        rw [lablesLessThan_cons, lablesLessThan_cons, lablesLessThan_cons]
        rintro (h1 | ⟨e1, h1 | ⟨f1, h1⟩⟩) (h2 | ⟨e2, h2 | ⟨f2, h2⟩⟩)
        · exact Or.inl (lt_trans h1 h2)
        · exact Or.inl (e2 ▸ h1)
        · exact Or.inl (e2 ▸ h1)
        · exact Or.inl (e1 ▸ h2)
        · exact Or.inr ⟨e1.trans e2, Or.inl (lt_trans h1 h2)⟩
        · exact Or.inr ⟨e1.trans e2, Or.inl (f2 ▸ h1)⟩
        · exact Or.inl (e1 ▸ h2)
        · exact Or.inr ⟨e1.trans e2, Or.inl (f1 ▸ h2)⟩
        · exact Or.inr ⟨e1.trans e2, Or.inr ⟨f1.trans f2, ih h1 h2⟩⟩

theorem lablesLessThan_connex {a b : List LabelPair} :
    lablesLessThan a b = false → lablesLessThan b a = false → a = b := by
  induction a generalizing b with
  | nil =>
    cases b with
    | nil => simp
    | cons y ys => simp [lablesLessThan]
  | cons x xs ih =>
    cases b with
    | nil => simp [lablesLessThan]
    | cons y ys =>
      intro h1 h2
      rw [Bool.eq_false_iff, Ne, lablesLessThan_cons] at h1 h2
      push_neg at h1 h2
      obtain ⟨n1, k1⟩ := h1
      obtain ⟨n2, k2⟩ := h2
      have hn : x.name = y.name := le_antisymm (not_lt.mp n2) (not_lt.mp n1)
      obtain ⟨v1, r1⟩ := k1 hn
      obtain ⟨v2, r2⟩ := k2 hn.symm
      have hv : x.value = y.value := le_antisymm (not_lt.mp v2) (not_lt.mp v1)
      have hxy : x = y := by
        cases x; cases y; simp_all
      have := ih (Bool.eq_false_iff.mpr (r1 hv)) (Bool.eq_false_iff.mpr (r2 hv.symm))
      rw [hxy, this]

theorem lablesLessThan_asymm {a b : List LabelPair} (h : lablesLessThan a b = true) :
    lablesLessThan b a = false := by
  cases hb : lablesLessThan b a
  · rfl
  · have := lablesLessThan_trans h hb
    rw [lablesLessThan_irrefl] at this
    exact absurd this (by simp)

theorem lablesLessThan_ne {a b : List LabelPair} (h : lablesLessThan a b = true) : a ≠ b := by
  intro e
  rw [e, lablesLessThan_irrefl] at h
  exact absurd h (by simp)

/-! ### The merge-join of `mergeFamily` -/

theorem two_list_induction {α : Type} {P : List α → List α → Prop}
    (nil_left : ∀ bs, P [] bs) (nil_right : ∀ a as, P (a :: as) [])
    (cons_cons : ∀ a as b bs, P as (b :: bs) → P (a :: as) bs → P as bs →
      P (a :: as) (b :: bs)) :
    ∀ as bs, P as bs := by
  intro as
  induction as with
  | nil => exact nil_left
  | cons a as iha =>
    intro bs
    induction bs with
    | nil => exact nil_right a as
    | cons b bs ihb => exact cons_cons a as b bs (iha (b :: bs)) ihb (iha bs)

theorem Outcome.map_eq_ok {α β : Type} {f : α → β} {o : Outcome α} {y : β} :
    o.map f = .ok y ↔ ∃ x, o = .ok x ∧ f x = y := by
  cases o <;> simp [Outcome.map]

theorem mergeMetrics_nil_left (ty : MetricType) (bs : List Metric) :
    mergeMetrics ty [] bs = .ok bs := rfl

theorem mergeMetrics_nil_right (ty : MetricType) (a : Metric) (as : List Metric) :
    mergeMetrics ty (a :: as) [] = .ok (a :: as) := rfl

theorem mergeMetrics_cons_cons (ty : MetricType) (a : Metric) (as : List Metric)
    (b : Metric) (bs : List Metric) :
    mergeMetrics ty (a :: as) (b :: bs) =
      if lablesLessThan a.label b.label then (mergeMetrics ty as (b :: bs)).map (a :: ·)
      else if lablesLessThan b.label a.label then
        (mergeMetrics ty (a :: as) bs).map (b :: ·)
      else
        match mergeMetric ty a b with
        | .ok (some merged) => (mergeMetrics ty as bs).map (merged :: ·)
        | .ok none => mergeMetrics ty as bs
        | .error e => .error e
        | .panic => .panic := rfl

/-- The three ways in which a step of the merge-join produces its output. -/
theorem mergeMetrics_cons_cons_ok {ty : MetricType} {a : Metric} {as : List Metric}
    {b : Metric} {bs out : List Metric}
    (h : mergeMetrics ty (a :: as) (b :: bs) = .ok out) :
    (lablesLessThan a.label b.label = true ∧
      ∃ rest, mergeMetrics ty as (b :: bs) = .ok rest ∧ out = a :: rest) ∨
    (lablesLessThan a.label b.label = false ∧ lablesLessThan b.label a.label = true ∧
      ∃ rest, mergeMetrics ty (a :: as) bs = .ok rest ∧ out = b :: rest) ∨
    (lablesLessThan a.label b.label = false ∧ lablesLessThan b.label a.label = false ∧
      ∃ rest, mergeMetrics ty as bs = .ok rest ∧
        ((∃ m, mergeMetric ty a b = .ok (some m) ∧ out = m :: rest) ∨
         (mergeMetric ty a b = .ok none ∧ out = rest))) := by
  rw [mergeMetrics_cons_cons] at h
  split_ifs at h with h1 h2
  · obtain ⟨rest, hr, e⟩ := Outcome.map_eq_ok.mp h
    exact Or.inl ⟨h1, rest, hr, e.symm⟩
  · obtain ⟨rest, hr, e⟩ := Outcome.map_eq_ok.mp h
    exact Or.inr (Or.inl ⟨by simpa using h1, h2, rest, hr, e.symm⟩)
  · refine Or.inr (Or.inr ⟨by simpa using h1, by simpa using h2, ?_⟩)
    cases hm : mergeMetric ty a b with
    | ok r =>
      cases r with
      | none =>
        rw [hm] at h
        exact ⟨out, h, Or.inr ⟨rfl, rfl⟩⟩
      | some m =>
        rw [hm] at h
        obtain ⟨rest, hr, e⟩ := Outcome.map_eq_ok.mp h
        exact ⟨rest, hr, Or.inl ⟨m, rfl, e.symm⟩⟩
    | error e => rw [hm] at h; exact absurd h (by simp)
    | panic => rw [hm] at h; exact absurd h (by simp)

theorem mergeMetric_label {ty : MetricType} {a b m : Metric}
    (h : mergeMetric ty a b = .ok (some m)) : m.label = a.label := by
  unfold mergeMetric at h
  cases ty <;> simp only at h
  · cases ha : a.counter <;> cases hb : b.counter <;> rw [ha, hb] at h <;> simp at h
    rw [← h]
  · cases ha : a.gauge <;> cases hb : b.gauge <;> rw [ha, hb] at h <;> simp at h
    rw [← h]
  · simp at h
  · cases ha : a.untyped <;> cases hb : b.untyped <;> rw [ha, hb] at h <;> simp at h
    rw [← h]
  · cases ha : a.histogram with
    | none => rw [ha] at h; cases b.histogram <;> simp at h
    | some x =>
      cases hb : b.histogram with
      | none => rw [ha, hb] at h; simp at h
      | some y =>
        rw [ha, hb] at h
        simp only at h
        split at h
        · simp only [Outcome.ok.injEq, Option.some.injEq] at h
          rw [← h]
        · simp at h

/-- Every label sequence of the output is the label sequence of an input metric. -/
theorem mergeMetrics_label_origin (ty : MetricType) :
    ∀ as bs out, mergeMetrics ty as bs = .ok out →
      ∀ m ∈ out, (∃ a ∈ as, a.label = m.label) ∨ (∃ b ∈ bs, b.label = m.label) := by
  apply two_list_induction
  · intro bs out h m hm
    rw [mergeMetrics_nil_left] at h
    cases h
    exact Or.inr ⟨m, hm, rfl⟩
  · intro a as out h m hm
    rw [mergeMetrics_nil_right] at h
    cases h
    exact Or.inl ⟨m, hm, rfl⟩
  · intro a as b bs ih1 ih2 ih3 out h m hm
    rcases mergeMetrics_cons_cons_ok h with ⟨_, rest, hr, rfl⟩ | ⟨_, _, rest, hr, rfl⟩ |
      ⟨_, _, rest, hr, ⟨mm, hmm, rfl⟩ | ⟨_, rfl⟩⟩
    · rcases List.mem_cons.mp hm with rfl | hm
      · exact Or.inl ⟨m, List.mem_cons_self _ _, rfl⟩
      · rcases ih1 rest hr m hm with ⟨x, hx, e⟩ | ⟨y, hy, e⟩
        · exact Or.inl ⟨x, List.mem_cons_of_mem _ hx, e⟩
        · exact Or.inr ⟨y, hy, e⟩
    · rcases List.mem_cons.mp hm with rfl | hm
      · exact Or.inr ⟨m, List.mem_cons_self _ _, rfl⟩
      · rcases ih2 rest hr m hm with ⟨x, hx, e⟩ | ⟨y, hy, e⟩
        · exact Or.inl ⟨x, hx, e⟩
        · exact Or.inr ⟨y, List.mem_cons_of_mem _ hy, e⟩
    · rcases List.mem_cons.mp hm with rfl | hm
      · exact Or.inl ⟨a, List.mem_cons_self _ _, (mergeMetric_label hmm).symm⟩
      · rcases ih3 rest hr m hm with ⟨x, hx, e⟩ | ⟨y, hy, e⟩
        · exact Or.inl ⟨x, List.mem_cons_of_mem _ hx, e⟩
        · exact Or.inr ⟨y, List.mem_cons_of_mem _ hy, e⟩
    · rcases ih3 out hr m hm with ⟨x, hx, e⟩ | ⟨y, hy, e⟩
      · exact Or.inl ⟨x, List.mem_cons_of_mem _ hx, e⟩
      · exact Or.inr ⟨y, List.mem_cons_of_mem _ hy, e⟩

theorem ascending_iff_chain {α : Type} (less : α → α → Bool) (l : List α) :
    ascending less l = true ↔ List.Chain' (fun x y => less x y = true) l := by
  induction l with
  | nil => simp [ascending]
  | cons x xs ih =>
    cases xs with
    | nil => simp [ascending]
    | cons y ys => simp [ascending, List.chain'_cons, ih]

theorem labelSorted_iff_pairwise (ms : List Metric) :
    LabelSorted ms ↔ ms.Pairwise labelLt := by
  haveI : IsTrans Metric (fun x y => byLabelLess x y = true) :=
    ⟨fun _ _ _ h1 h2 => lablesLessThan_trans h1 h2⟩
  unfold LabelSorted
  rw [ascending_iff_chain]
  exact List.chain'_iff_pairwise

theorem labelLt_congr {a x m : Metric} (e : x.label = m.label) (h : labelLt a x) :
    labelLt a m := by
  unfold labelLt at *
  rw [← e]
  exact h

/-- The merge-join keeps the output strictly ascending. -/
theorem mergeMetrics_pairwise (ty : MetricType) :
    ∀ as bs out, as.Pairwise labelLt → bs.Pairwise labelLt →
      mergeMetrics ty as bs = .ok out → out.Pairwise labelLt := by
  apply two_list_induction
  · intro bs out _ sb h
    rw [mergeMetrics_nil_left] at h
    cases h
    exact sb
  · intro a as out sa _ h
    rw [mergeMetrics_nil_right] at h
    cases h
    exact sa
  · intro a as b bs ih1 ih2 ih3 out sa sb h
    obtain ⟨ha, sas⟩ := List.pairwise_cons.mp sa
    obtain ⟨hb, sbs⟩ := List.pairwise_cons.mp sb
    rcases mergeMetrics_cons_cons_ok h with ⟨lab, rest, hr, rfl⟩ | ⟨_, lba, rest, hr, rfl⟩ |
      ⟨nab, nba, rest, hr, ⟨mm, hmm, rfl⟩ | ⟨_, rfl⟩⟩
    · refine List.pairwise_cons.mpr ⟨?_, ih1 rest sas sb hr⟩
      intro m hm
      rcases mergeMetrics_label_origin ty _ _ _ hr m hm with ⟨x, hx, e⟩ | ⟨y, hy, e⟩
      · exact labelLt_congr e (ha x hx)
      · rcases List.mem_cons.mp hy with rfl | hy
        · exact labelLt_congr e lab
        · exact labelLt_congr e (lablesLessThan_trans lab (hb y hy))
    · refine List.pairwise_cons.mpr ⟨?_, ih2 rest sa sbs hr⟩
      intro m hm
      rcases mergeMetrics_label_origin ty _ _ _ hr m hm with ⟨x, hx, e⟩ | ⟨y, hy, e⟩
      · rcases List.mem_cons.mp hx with rfl | hx
        · exact labelLt_congr e lba
        · exact labelLt_congr e (lablesLessThan_trans lba (ha x hx))
      · exact labelLt_congr e (hb y hy)
    · have eab : a.label = b.label := lablesLessThan_connex nab nba
      have eml : mm.label = a.label := mergeMetric_label hmm
      refine List.pairwise_cons.mpr ⟨?_, ih3 rest sas sbs hr⟩
      intro m hm
      show lablesLessThan mm.label m.label = true
      rw [eml]
      rcases mergeMetrics_label_origin ty _ _ _ hr m hm with ⟨x, hx, e⟩ | ⟨y, hy, e⟩
      · exact labelLt_congr e (ha x hx)
      · rw [eab]; exact labelLt_congr e (hb y hy)
    · exact ih3 out sas sbs hr

theorem findLabel_cons (l : List LabelPair) (m : Metric) (ms : List Metric) :
    findLabel l (m :: ms) = if m.label = l then some m else findLabel l ms := by
  unfold findLabel
  by_cases h : m.label = l <;> simp [List.find?, h]

theorem findLabel_eq_none {l : List LabelPair} {ms : List Metric}
    (h : ∀ m ∈ ms, m.label ≠ l) : findLabel l ms = none := by
  unfold findLabel
  rw [List.find?_eq_none]
  intro m hm
  simpa using h m hm

theorem findLabel_some {l : List LabelPair} {ms : List Metric} {m : Metric}
    (h : findLabel l ms = some m) : m ∈ ms ∧ m.label = l := by
  unfold findLabel at h
  exact ⟨List.mem_of_find?_eq_some h, by simpa using List.find?_some h⟩

theorem findLabel_of_lt {l : List LabelPair} {ms : List Metric}
    (h : ∀ m ∈ ms, lablesLessThan l m.label = true) : findLabel l ms = none :=
  findLabel_eq_none (fun m hm => (lablesLessThan_ne (h m hm)).symm)

/-- In a strictly ascending sequence a metric is found under its own labels. -/
theorem findLabel_of_mem {ms : List Metric} (s : ms.Pairwise labelLt) {m : Metric}
    (hm : m ∈ ms) : findLabel m.label ms = some m := by
  induction ms with
  | nil => simp at hm
  | cons x xs ih =>
    obtain ⟨hx, sx⟩ := List.pairwise_cons.mp s
    rw [findLabel_cons]
    rcases List.mem_cons.mp hm with rfl | hm
    · simp
    · rw [if_neg (lablesLessThan_ne (hx m hm)), ih sx hm]

theorem combine_none_right (ty : MetricType) (x : Option Metric) : combine ty x none = x := by
  cases x <;> rfl

theorem combine_none_left (ty : MetricType) (y : Option Metric) : combine ty none y = y := by
  cases y <;> rfl

/-- What the merge-join holds under a label sequence is the combination of what the
two inputs hold under it. -/
theorem mergeMetrics_findLabel (ty : MetricType) :
    ∀ as bs out, as.Pairwise labelLt → bs.Pairwise labelLt →
      mergeMetrics ty as bs = .ok out →
      ∀ l, findLabel l out = combine ty (findLabel l as) (findLabel l bs) := by
  apply two_list_induction
  · intro bs out _ _ h l
    rw [mergeMetrics_nil_left] at h
    cases h
    simp [findLabel, combine_none_left]
  · intro a as out _ _ h l
    rw [mergeMetrics_nil_right] at h
    cases h
    rw [show findLabel l [] = none from rfl, combine_none_right]
  · intro a as b bs ih1 ih2 ih3 out sa sb h l
    obtain ⟨ha, sas⟩ := List.pairwise_cons.mp sa
    obtain ⟨hb, sbs⟩ := List.pairwise_cons.mp sb
    rcases mergeMetrics_cons_cons_ok h with ⟨lab, rest, hr, rfl⟩ | ⟨_, lba, rest, hr, rfl⟩ |
      ⟨nab, nba, rest, hr, ⟨mm, hmm, rfl⟩ | ⟨hmm, rfl⟩⟩
    · by_cases hl : a.label = l
      · have hnone : findLabel l (b :: bs) = none := by
          apply findLabel_of_lt
          intro y hy
          rw [← hl]
          rcases List.mem_cons.mp hy with rfl | hy
          · exact lab
          · exact lablesLessThan_trans lab (hb y hy)
        rw [findLabel_cons, findLabel_cons, if_pos hl, if_pos hl, hnone]
        rfl
      · rw [findLabel_cons, if_neg hl, ih1 rest sas sb hr l, findLabel_cons l a, if_neg hl]
    · by_cases hl : b.label = l
      · have hnone : findLabel l (a :: as) = none := by
          apply findLabel_of_lt
          intro x hx
          rw [← hl]
          rcases List.mem_cons.mp hx with rfl | hx
          · exact lba
          · exact lablesLessThan_trans lba (ha x hx)
        rw [findLabel_cons, if_pos hl, hnone, findLabel_cons, if_pos hl]
        rfl
      · rw [findLabel_cons, if_neg hl, ih2 rest sa sbs hr l, findLabel_cons l b, if_neg hl]
    · have eab : a.label = b.label := lablesLessThan_connex nab nba
      have eml : mm.label = a.label := mergeMetric_label hmm
      by_cases hl : a.label = l
      · rw [findLabel_cons, if_pos (eml.trans hl), findLabel_cons, if_pos hl, findLabel_cons,
          if_pos (eab ▸ hl)]
        simp [combine, hmm]
      · rw [findLabel_cons, if_neg (eml ▸ hl), findLabel_cons l a, if_neg hl, findLabel_cons l b,
          if_neg (eab ▸ hl)]
        exact ih3 rest sas sbs hr l
    · have eab : a.label = b.label := lablesLessThan_connex nab nba
      by_cases hl : a.label = l
      · have h1 : findLabel l as = none :=
          findLabel_of_lt (fun x hx => hl ▸ ha x hx)
        have h2 : findLabel l bs = none :=
          findLabel_of_lt (fun y hy => hl ▸ eab ▸ hb y hy)
        rw [ih3 out sas sbs hr l, h1, h2, findLabel_cons, if_pos hl, findLabel_cons,
          if_pos (eab ▸ hl)]
        simp [combine, hmm]
      · rw [findLabel_cons l a, if_neg hl, findLabel_cons l b, if_neg (eab ▸ hl)]
        exact ih3 out sas sbs hr l

theorem findLabel_none {l : List LabelPair} {ms : List Metric}
    (h : findLabel l ms = none) : ∀ m ∈ ms, m.label ≠ l := by
  unfold findLabel at h
  rw [List.find?_eq_none] at h
  intro m hm
  simpa using h m hm

theorem mergeMetric_ne_error (ty : MetricType) (a b : Metric) (e : Error) :
    mergeMetric ty a b ≠ .error e := by
  unfold mergeMetric
  cases ty <;> simp only
  · cases a.counter <;> cases b.counter <;> simp
  · cases a.gauge <;> cases b.gauge <;> simp
  · simp
  · cases a.untyped <;> cases b.untyped <;> simp
  · cases a.histogram with
    | none => cases b.histogram <;> simp
    | some ha =>
      cases b.histogram with
      | none => simp
      | some hb =>
        simp only
        cases ha.sampleCount <;> cases hb.sampleCount <;> cases ha.sampleSum <;>
          cases hb.sampleSum <;> simp

theorem Outcome.map_eq_error {α β : Type} {f : α → β} {o : Outcome α} {e : Error} :
    o.map f = .error e ↔ o = .error e := by
  cases o <;> simp [Outcome.map]

/-- The merge-join never returns an error. -/
theorem mergeMetrics_ne_error (ty : MetricType) :
    ∀ as bs, ∀ e, mergeMetrics ty as bs ≠ .error e := by
  apply two_list_induction
  · intro bs e; simp [mergeMetrics_nil_left]
  · intro a as e; simp [mergeMetrics_nil_right]
  · intro a as b bs ih1 ih2 ih3 e h
    rw [mergeMetrics_cons_cons] at h
    split_ifs at h
    · exact ih1 e (Outcome.map_eq_error.mp h)
    · exact ih2 e (Outcome.map_eq_error.mp h)
    · cases hm : mergeMetric ty a b with
      | ok r =>
        rw [hm] at h
        cases r with
        | none => exact ih3 e h
        | some m => exact ih3 e (Outcome.map_eq_error.mp h)
      | error e1 => exact mergeMetric_ne_error ty a b e1 hm
      | panic => rw [hm] at h; exact absurd h (by simp)

theorem mergeMetric_counter {a b : Metric} {ca cb : Counter} (ha : a.counter = some ca)
    (hb : b.counter = some cb) :
    mergeMetric .COUNTER a b =
      .ok (some { label := a.label, counter := some { value := F64.add ca.value cb.value } }) := by
  simp [mergeMetric, ha, hb]

theorem mergeMetric_gauge {a b : Metric} {ga gb : Gauge} (ha : a.gauge = some ga)
    (hb : b.gauge = some gb) :
    mergeMetric .GAUGE a b =
      .ok (some { label := a.label, gauge := some { value := F64.add ga.value gb.value } }) := by
  simp [mergeMetric, ha, hb]

theorem mergeMetric_untyped {a b : Metric} {ua ub : Untyped} (ha : a.untyped = some ua)
    (hb : b.untyped = some ub) :
    mergeMetric .UNTYPED a b =
      .ok (some { label := a.label, untyped := some { value := F64.add ua.value ub.value } }) := by
  simp [mergeMetric, ha, hb]

theorem mergeMetric_histogram {a b : Metric} {ha hb : Histogram} {ca cb : Nat} {sa sb : F64}
    (h1 : a.histogram = some ha) (h2 : b.histogram = some hb)
    (hca : ha.sampleCount = some ca) (hcb : hb.sampleCount = some cb)
    (hsa : ha.sampleSum = some sa) (hsb : hb.sampleSum = some sb) :
    mergeMetric .HISTOGRAM a b =
      .ok (some { label := a.label,
                  histogram := some { sampleCount := some (u64add ca cb),
                                      sampleSum := some (F64.add sa sb),
                                      bucket := mergeBuckets ha.bucket hb.bucket } }) := by
  simp [mergeMetric, h1, h2, hca, hcb, hsa, hsb]

theorem carries_histogram {m : Metric} (h : carries .HISTOGRAM m = true) :
    ∃ hm c s, m.histogram = some hm ∧ hm.sampleCount = some c ∧ hm.sampleSum = some s := by
  unfold carries at h
  simp only at h
  cases hh : m.histogram with
  | none => rw [hh] at h; simp at h
  | some hm =>
    rw [hh] at h
    simp only [Bool.and_eq_true] at h
    obtain ⟨c, hc⟩ := Option.isSome_iff_exists.mp h.1
    obtain ⟨s, hs⟩ := Option.isSome_iff_exists.mp h.2
    exact ⟨hm, c, s, rfl, hc, hs⟩

/-- Without the histogram, its sample count or its sample sum on either side,
`mergeMetric` dereferences a nil pointer. -/
theorem mergeMetric_histogram_panic {a b : Metric}
    (h : carries .HISTOGRAM a = false ∨ carries .HISTOGRAM b = false) :
    mergeMetric .HISTOGRAM a b = .panic := by
  unfold carries at h
  unfold mergeMetric
  simp only at h ⊢
  cases hha : a.histogram with
  | none => cases b.histogram <;> rfl
  | some ha =>
    cases hhb : b.histogram with
    | none => rfl
    | some hb =>
      rw [hha, hhb] at h
      simp only
      cases h1 : ha.sampleCount <;> cases h2 : hb.sampleCount <;> cases h3 : ha.sampleSum <;>
        cases h4 : hb.sampleSum <;> simp_all

/-- On metrics that carry the payload of `ty`, `mergeMetric` does not panic. -/
theorem mergeMetric_of_carries {ty : MetricType} {a b : Metric}
    (ha : carries ty a = true) (hb : carries ty b = true) :
    (ty = .SUMMARY ∧ mergeMetric ty a b = .ok none) ∨
    (ty ≠ .SUMMARY ∧ ∃ m, mergeMetric ty a b = .ok (some m) ∧ carries ty m = true) := by
  unfold carries at ha hb
  cases ty <;> simp only at ha hb
  · obtain ⟨ca, hca⟩ := Option.isSome_iff_exists.mp ha
    obtain ⟨cb, hcb⟩ := Option.isSome_iff_exists.mp hb
    exact Or.inr ⟨by simp, _, mergeMetric_counter hca hcb, by simp [carries]⟩
  · obtain ⟨ca, hca⟩ := Option.isSome_iff_exists.mp ha
    obtain ⟨cb, hcb⟩ := Option.isSome_iff_exists.mp hb
    exact Or.inr ⟨by simp, _, mergeMetric_gauge hca hcb, by simp [carries]⟩
  · exact Or.inl ⟨rfl, rfl⟩
  · obtain ⟨ca, hca⟩ := Option.isSome_iff_exists.mp ha
    obtain ⟨cb, hcb⟩ := Option.isSome_iff_exists.mp hb
    exact Or.inr ⟨by simp, _, mergeMetric_untyped hca hcb, by simp [carries]⟩
  · obtain ⟨h1, c1, s1, e1, ec1, es1⟩ := carries_histogram (m := a) (by simpa [carries] using ha)
    obtain ⟨h2, c2, s2, e2, ec2, es2⟩ := carries_histogram (m := b) (by simpa [carries] using hb)
    exact Or.inr ⟨by simp, _, mergeMetric_histogram e1 e2 ec1 ec2 es1 es2, by simp [carries]⟩

/-- On metrics that carry the payload of `ty` the merge-join returns a sequence, of
metrics that carry it too. -/
theorem mergeMetrics_ok (ty : MetricType) :
    ∀ as bs, (∀ m ∈ as, carries ty m = true) → (∀ m ∈ bs, carries ty m = true) →
      ∃ out, mergeMetrics ty as bs = .ok out ∧ ∀ m ∈ out, carries ty m = true := by
  apply two_list_induction
  · intro bs _ hb
    exact ⟨bs, rfl, hb⟩
  · intro a as ha _
    exact ⟨a :: as, rfl, ha⟩
  · intro a as b bs ih1 ih2 ih3 ha hb
    have ha1 := ha a (List.mem_cons_self _ _)
    have hb1 := hb b (List.mem_cons_self _ _)
    have has : ∀ m ∈ as, carries ty m = true := fun m hm => ha m (List.mem_cons_of_mem _ hm)
    have hbs : ∀ m ∈ bs, carries ty m = true := fun m hm => hb m (List.mem_cons_of_mem _ hm)
    rw [mergeMetrics_cons_cons]
    split_ifs
    · obtain ⟨rest, hr, hc⟩ := ih1 has hb
      refine ⟨a :: rest, by simp [hr, Outcome.map], ?_⟩
      intro m hm
      rcases List.mem_cons.mp hm with rfl | hm
      · exact ha1
      · exact hc m hm
    · obtain ⟨rest, hr, hc⟩ := ih2 ha hbs
      refine ⟨b :: rest, by simp [hr, Outcome.map], ?_⟩
      intro m hm
      rcases List.mem_cons.mp hm with rfl | hm
      · exact hb1
      · exact hc m hm
    · obtain ⟨rest, hr, hc⟩ := ih3 has hbs
      rcases mergeMetric_of_carries ha1 hb1 with ⟨_, hm0⟩ | ⟨_, mm, hm1, hcm⟩
      · exact ⟨rest, by simp [hm0, hr], hc⟩
      · refine ⟨mm :: rest, by simp [hm1, hr, Outcome.map], ?_⟩
        intro m hm
        rcases List.mem_cons.mp hm with rfl | hm
        · exact hcm
        · exact hc m hm

theorem mergeFamily_of_type_eq {a b : MetricFamily} (h : a.type = b.type) :
    mergeFamily a b =
      (mergeMetrics a.type a.metric b.metric).map
        (fun out => { name := a.name, help := a.help, type := a.type, metric := out }) := by
  simp [mergeFamily, h]

/-- Same-typed families of metrics that carry their payload merge into a family
whose metric sequence is what the merge-join returns. -/
theorem mergeFamily_ok {a b : MetricFamily} (h : a.type = b.type) (wa : WellTyped a)
    (wb : WellTyped b) :
    ∃ ms, mergeMetrics a.type a.metric b.metric = .ok ms ∧
      (∀ m ∈ ms, carries a.type m = true) ∧
      mergeFamily a b = .ok { name := a.name, help := a.help, type := a.type, metric := ms } := by
  obtain ⟨ms, hms, hc⟩ := mergeMetrics_ok a.type a.metric b.metric wa (h ▸ wb)
  exact ⟨ms, hms, hc, by rw [mergeFamily_of_type_eq h, hms]; rfl⟩

/-- On families of the same declared type `mergeFamily` returns a family unless it
panics. -/
theorem mergeFamily_ok_of_ne_panic {a b : MetricFamily} (hty : a.type = b.type)
    (hp : mergeFamily a b ≠ .panic) : ∃ out, mergeFamily a b = .ok out := by
  cases h : mergeFamily a b with
  | ok out => exact ⟨out, rfl⟩
  | error e =>
    rw [mergeFamily_of_type_eq hty] at h
    exact absurd (Outcome.map_eq_error.mp h) (mergeMetrics_ne_error _ _ _ e)
  | panic => exact absurd h hp

/-- C3, as stated, fails: with equal declared types `mergeFamily` need not succeed.
The histogram family decoded from a `h_bucket` line without `_count` and `_sum`
lines, merged with itself (the same exposition pushed twice), gives neither a family
nor an error: `mergeMetric` dereferences the nil `SampleCount` of the series. -/
theorem mergeFamily_equal_types_counterexample :
    exBare.type = exBare.type ∧ mergeFamily exBare exBare = .panic ∧
      ¬ ∃ out, mergeFamily exBare exBare = .ok out := by
  have h : mergeFamily exBare exBare = .panic := by decide
  refine ⟨rfl, h, ?_⟩
  rintro ⟨out, ho⟩
  rw [h] at ho
  cases ho

/-- C3, amended: `mergeFamily` returns an error exactly when the declared types
differ, the error being the type mismatch and no family being returned with it.
When the types are equal it returns the merged family whenever every metric of both
families carries the payload `mergeMetric` reads for the type (a histogram with its
sample count and sample sum); without that it still returns no error: it returns
the merged family or panics on a nil dereference. -/
theorem mergeFamily_error_iff_type_differs (a b : MetricFamily) :
    ((∃ e, mergeFamily a b = .error e) ↔ a.type ≠ b.type) ∧
    (a.type ≠ b.type → mergeFamily a b = .error (.typeMismatch a.name a.type b.type)) ∧
    (a.type = b.type → WellTyped a → WellTyped b → ∃ out, mergeFamily a b = .ok out) ∧
    (a.type = b.type → mergeFamily a b = .panic ∨ ∃ out, mergeFamily a b = .ok out) := by
  refine ⟨⟨?_, ?_⟩, ?_, ?_, ?_⟩
  · rintro ⟨e, he⟩ heq
    rw [mergeFamily_of_type_eq heq] at he
    exact mergeMetrics_ne_error _ _ _ e (Outcome.map_eq_error.mp he)
  · intro hne
    exact ⟨.typeMismatch a.name a.type b.type, by simp [mergeFamily, hne]⟩
  · intro hne
    simp [mergeFamily, hne]
  · intro heq wa wb
    obtain ⟨ms, _, _, h⟩ := mergeFamily_ok heq wa wb
    exact ⟨_, h⟩
  · intro heq
    by_cases hp : mergeFamily a b = .panic
    · exact Or.inl hp
    · exact Or.inr (mergeFamily_ok_of_ne_panic heq hp)

theorem mergeFamily_error_iff_type_differs_witness :
    mergeFamily (exCounter 7) exGauge =
        .error (.typeMismatch "requests_total" .COUNTER .GAUGE) ∧
      (∃ out, mergeFamily (exCounter 3) (exCounter 4) = .ok out) ∧
      (mergeFamily exBare exBare = .panic ∨ ∃ out, mergeFamily exBare exBare = .ok out) :=
  ⟨(mergeFamily_error_iff_type_differs (exCounter 7) exGauge).2.1 (by decide),
   (mergeFamily_error_iff_type_differs (exCounter 3) (exCounter 4)).2.2.1 rfl (by decide)
     (by decide),
   (mergeFamily_error_iff_type_differs exBare exBare).2.2.2 rfl⟩

/-- C4, as stated, fails: the two histogram families below have strictly ascending
metric sequences and share the label set of their one series, yet the output holds
no metric for it: `mergeMetric` panics on the pair, neither histogram having a
sample count, and `mergeFamily` returns no sequence. -/
theorem mergeFamily_merge_join_counterexample :
    exBare.type = .HISTOGRAM ∧ LabelSorted exBare.metric ∧
      (∀ ma ∈ exBare.metric, ∀ mb ∈ exBare.metric, ma.label = mb.label ∧
        mergeMetric exBare.type ma mb = .panic) ∧
      mergeFamily exBare exBare = .panic ∧
      ¬ ∃ out, mergeFamily exBare exBare = .ok out := by
  have h : mergeFamily exBare exBare = .panic := by decide
  refine ⟨rfl, by decide, by decide, h, ?_⟩
  rintro ⟨out, ho⟩
  rw [h] at ho
  cases ho

/-- C4, amended: the merge-join content of `mergeFamily`.  For two families of the
same counter, gauge, untyped or histogram type, whose metrics carry the payload
`mergeMetric` reads for the type (a histogram with its sample count and sample sum)
and whose metric sequences are strictly ascending under `lablesLessThan`, the call
returns a family whose metric sequence holds every metric of `a` whose label set
does not occur in `b`, every metric of `b` whose label set does not occur in `a`,
the metric `mergeMetric` returns for every pair with equal label sets, nothing else,
and no label set twice. -/
theorem mergeFamily_merge_join (a b : MetricFamily) (hty : a.type = b.type)
    (hkind : a.type = .COUNTER ∨ a.type = .GAUGE ∨ a.type = .UNTYPED ∨ a.type = .HISTOGRAM)
    (wa : WellTyped a) (wb : WellTyped b)
    (sa : LabelSorted a.metric) (sb : LabelSorted b.metric) :
    ∃ out, mergeFamily a b = .ok out ∧
      (∀ m ∈ a.metric, (∀ m2 ∈ b.metric, m2.label ≠ m.label) → m ∈ out.metric) ∧
      (∀ m ∈ b.metric, (∀ m1 ∈ a.metric, m1.label ≠ m.label) → m ∈ out.metric) ∧
      (∀ ma ∈ a.metric, ∀ mb ∈ b.metric, ma.label = mb.label →
        ∃ mm, mergeMetric a.type ma mb = .ok (some mm) ∧ mm ∈ out.metric) ∧
      (∀ m ∈ out.metric,
        (m ∈ a.metric ∧ ∀ m2 ∈ b.metric, m2.label ≠ m.label) ∨
        (m ∈ b.metric ∧ ∀ m1 ∈ a.metric, m1.label ≠ m.label) ∨
        (∃ ma ∈ a.metric, ∃ mb ∈ b.metric,
          ma.label = mb.label ∧ mergeMetric a.type ma mb = .ok (some m))) ∧
      (out.metric.map (fun m => m.label)).Nodup := by
  have pa := (labelSorted_iff_pairwise _).mp sa
  have pb := (labelSorted_iff_pairwise _).mp sb
  obtain ⟨ms, hms, _, hout⟩ := mergeFamily_ok hty wa wb
  have pout := mergeMetrics_pairwise _ _ _ _ pa pb hms
  have hfind := mergeMetrics_findLabel _ _ _ _ pa pb hms
  have hns : a.type ≠ .SUMMARY := by
    rcases hkind with h | h | h | h <;> rw [h] <;> simp
  refine ⟨_, hout, ?_, ?_, ?_, ?_, ?_⟩
  · intro m hm hnot
    have h := hfind m.label
    rw [findLabel_of_mem pa hm, findLabel_eq_none hnot, combine_none_right] at h
    exact (findLabel_some h).1
  · intro m hm hnot
    have h := hfind m.label
    rw [findLabel_of_mem pb hm, findLabel_eq_none hnot, combine_none_left] at h
    exact (findLabel_some h).1
  · intro ma hma mb hmb hl
    rcases mergeMetric_of_carries (wa ma hma) (hty ▸ wb mb hmb) with ⟨h, _⟩ | ⟨_, mm, hmm, _⟩
    · exact absurd h hns
    · refine ⟨mm, hmm, ?_⟩
      have h := hfind ma.label
      have hb2 : findLabel ma.label b.metric = some mb := by
        rw [hl]; exact findLabel_of_mem pb hmb
      rw [findLabel_of_mem pa hma, hb2] at h
      simp only [combine, hmm] at h
      exact (findLabel_some h).1
  · intro m hm
    have h := hfind m.label
    rw [findLabel_of_mem pout hm] at h
    cases hx : findLabel m.label a.metric with
    | none =>
      cases hy : findLabel m.label b.metric with
      | none => rw [hx, hy] at h; simp [combine] at h
      | some mb =>
        rw [hx, hy, combine_none_left] at h
        cases h
        exact Or.inr (Or.inl ⟨(findLabel_some hy).1, findLabel_none hx⟩)
    | some ma =>
      cases hy : findLabel m.label b.metric with
      | none =>
        rw [hx, hy, combine_none_right] at h
        cases h
        exact Or.inl ⟨(findLabel_some hx).1, findLabel_none hy⟩
      | some mb =>
        rw [hx, hy] at h
        obtain ⟨hma, la⟩ := findLabel_some hx
        obtain ⟨hmb, lb⟩ := findLabel_some hy
        refine Or.inr (Or.inr ⟨ma, hma, mb, hmb, la.trans lb.symm, ?_⟩)
        rcases mergeMetric_of_carries (wa ma hma) (hty ▸ wb mb hmb) with ⟨h0, _⟩ | ⟨_, mm, hmm, _⟩
        · exact absurd h0 hns
        · simp only [combine, hmm] at h
          cases h
          exact hmm
  · show (List.map (fun m => m.label) ms).Nodup
    rw [List.Nodup, List.pairwise_map]
    exact pout.imp (fun h => lablesLessThan_ne h)

theorem mergeFamily_merge_join_witness :
    ∃ out, mergeFamily exLeft exRight = .ok out ∧
      (∀ m ∈ exLeft.metric, (∀ m2 ∈ exRight.metric, m2.label ≠ m.label) → m ∈ out.metric) ∧
      (∀ m ∈ exRight.metric, (∀ m1 ∈ exLeft.metric, m1.label ≠ m.label) → m ∈ out.metric) ∧
      (∀ ma ∈ exLeft.metric, ∀ mb ∈ exRight.metric, ma.label = mb.label →
        ∃ mm, mergeMetric exLeft.type ma mb = .ok (some mm) ∧ mm ∈ out.metric) ∧
      (∀ m ∈ out.metric,
        (m ∈ exLeft.metric ∧ ∀ m2 ∈ exRight.metric, m2.label ≠ m.label) ∨
        (m ∈ exRight.metric ∧ ∀ m1 ∈ exLeft.metric, m1.label ≠ m.label) ∨
        (∃ ma ∈ exLeft.metric, ∃ mb ∈ exRight.metric,
          ma.label = mb.label ∧ mergeMetric exLeft.type ma mb = .ok (some m))) ∧
      (out.metric.map (fun m => m.label)).Nodup :=
  mergeFamily_merge_join exLeft exRight rfl (Or.inl rfl) (by decide) (by decide)
    (by decide) (by decide)

/-- C5, as stated, fails: the two histogram families below are of the same type and
have strictly ascending metric sequences, and `mergeFamily` returns no metric
sequence for them: it panics in `mergeMetric` on the label set they share, neither
histogram having a sample count. -/
theorem mergeFamily_sorted_counterexample :
    exBare.type = exBare.type ∧ LabelSorted exBare.metric ∧
      mergeFamily exBare exBare = .panic ∧
      ¬ ∃ out, mergeFamily exBare exBare = .ok out ∧ LabelSorted out.metric := by
  have h : mergeFamily exBare exBare = .panic := by decide
  refine ⟨rfl, by decide, h, ?_⟩
  rintro ⟨out, ho, _⟩
  rw [h] at ho
  cases ho

/-- C5, amended: `mergeFamily` preserves sortedness.  For two families of the same
type whose metric sequences are strictly ascending under `lablesLessThan`, the call
returns no error; every family it returns has a metric sequence that is strictly
ascending under `lablesLessThan`, so that no two of its metrics have equal label
sets; and it returns a family whenever every metric of both families carries the
payload `mergeMetric` reads for the type (a histogram with its sample count and
sample sum).  Without that payload the call may panic and return no sequence. -/
theorem mergeFamily_sorted (a b : MetricFamily) (hty : a.type = b.type)
    (sa : LabelSorted a.metric) (sb : LabelSorted b.metric) :
    (∀ e, mergeFamily a b ≠ .error e) ∧
    (∀ out, mergeFamily a b = .ok out →
      LabelSorted out.metric ∧ out.metric.Pairwise (fun x y => x.label ≠ y.label)) ∧
    (WellTyped a → WellTyped b →
      ∃ out, mergeFamily a b = .ok out ∧ LabelSorted out.metric ∧
        out.metric.Pairwise (fun x y => x.label ≠ y.label)) := by
  have pa := (labelSorted_iff_pairwise _).mp sa
  have pb := (labelSorted_iff_pairwise _).mp sb
  have key : ∀ out, mergeFamily a b = .ok out →
      LabelSorted out.metric ∧ out.metric.Pairwise (fun x y => x.label ≠ y.label) := by
    intro out ho
    rw [mergeFamily_of_type_eq hty] at ho
    obtain ⟨ms, hms, e⟩ := Outcome.map_eq_ok.mp ho
    have pout := mergeMetrics_pairwise _ _ _ _ pa pb hms
    subst e
    exact ⟨(labelSorted_iff_pairwise _).mpr pout, pout.imp (fun h => lablesLessThan_ne h)⟩
  refine ⟨?_, key, ?_⟩
  · intro e he
    rw [mergeFamily_of_type_eq hty] at he
    exact mergeMetrics_ne_error _ _ _ e (Outcome.map_eq_error.mp he)
  · intro wa wb
    obtain ⟨ms, _, _, hout⟩ := mergeFamily_ok hty wa wb
    exact ⟨_, hout, key _ hout⟩

theorem mergeFamily_sorted_witness :
    ∃ out, mergeFamily exLeft exRight = .ok out ∧ LabelSorted out.metric ∧
      out.metric.Pairwise (fun x y => x.label ≠ y.label) :=
  (mergeFamily_sorted exLeft exRight rfl (by decide) (by decide)).2.2 (by decide) (by decide)

/-! ### Counter merge: commutativity -/

theorem F64.add_comm (a b : F64) : F64.add a b = F64.add b a := by
  cases a with
  | nan => cases b <;> rfl
  | inf s =>
    cases b with
    | nan => rfl
    | inf t => cases s <;> cases t <;> rfl
    | fin t m e => rfl
  | fin s m e =>
    cases b with
    | nan => rfl
    | inf t => rfl
    | fin t n f =>
      simp only [F64.add]
      rw [min_comm f e, Nat.add_comm (n * 2 ^ (f - min e f).toNat)]
      by_cases hst : s = t
      · subst hst; simp
      · have hts : ¬ t = s := fun h => hst h.symm
        by_cases hxy : m * 2 ^ (e - min e f).toNat = n * 2 ^ (f - min e f).toNat
        · simp [hst, hts, hxy]
        · have hyx : ¬ n * 2 ^ (f - min e f).toNat = m * 2 ^ (e - min e f).toNat :=
            fun h => hxy h.symm
          by_cases hlt : n * 2 ^ (f - min e f).toNat < m * 2 ^ (e - min e f).toNat
          · have hnlt : ¬ m * 2 ^ (e - min e f).toNat < n * 2 ^ (f - min e f).toNat := by omega
            simp [hst, hts, hxy, hyx, hlt, hnlt]
          · have hgt : m * 2 ^ (e - min e f).toNat < n * 2 ^ (f - min e f).toNat := by omega
            simp [hst, hts, hxy, hyx, hlt, hgt]

theorem Outcome.map_map {α β γ : Type} (f : α → β) (g : β → γ) (o : Outcome α) :
    (o.map f).map g = o.map (fun x => g (f x)) := by
  cases o <;> rfl

theorem mergeMetrics_right_nil (ty : MetricType) (as : List Metric) :
    mergeMetrics ty as [] = .ok as := by
  cases as <;> rfl

/-- The (label set, counter value) pairs of the merge-join of two counter sequences
do not depend on the order of the two arguments. -/
theorem mergeMetrics_counter_comm :
    ∀ as bs, (mergeMetrics .COUNTER as bs).map counterView =
      (mergeMetrics .COUNTER bs as).map counterView := by
  apply two_list_induction
  · intro bs
    rw [mergeMetrics_nil_left, mergeMetrics_right_nil]
  · intro a as
    rw [mergeMetrics_nil_left, mergeMetrics_right_nil]
  · intro a as b bs ih1 ih2 ih3
    rw [mergeMetrics_cons_cons, mergeMetrics_cons_cons]
    cases hab : lablesLessThan a.label b.label with
    | true =>
      rw [lablesLessThan_asymm hab]
      simp only [if_true, Bool.false_eq_true, if_false, Outcome.map_map]
      have := congrArg (Outcome.map (fun l => (a.label, a.counter.map (fun c => c.value)) :: l)) ih1
      simpa [Outcome.map_map, counterView] using this
    | false =>
      cases hba : lablesLessThan b.label a.label with
      | true =>
        simp only [if_true, Bool.false_eq_true, if_false, Outcome.map_map]
        have := congrArg (Outcome.map (fun l => (b.label, b.counter.map (fun c => c.value)) :: l)) ih2
        simpa [Outcome.map_map, counterView] using this
      | false =>
        have eab : a.label = b.label := lablesLessThan_connex hab hba
        simp only [Bool.false_eq_true, if_false]
        cases hca : a.counter with
        | none => cases hcb : b.counter <;> simp [mergeMetric, hca, hcb, Outcome.map]
        | some ca =>
          cases hcb : b.counter with
          | none => simp [mergeMetric, hca, hcb, Outcome.map]
          | some cb =>
            rw [mergeMetric_counter hca hcb, mergeMetric_counter hcb hca]
            simp only [Outcome.map_map]
            have := congrArg
              (Outcome.map (fun l => (a.label, some (F64.add ca.value cb.value)) :: l)) ih3
            rw [Outcome.map_map, Outcome.map_map] at this
            simpa [counterView, eab, F64.add_comm cb.value ca.value] using this

/-- C6: counter merge is commutative in value.  For every two counter families
whose metrics carry a counter (sorted or not), `mergeFamily a b` and
`mergeFamily b a` both return a family, with the same sequence of (label set,
counter value) pairs. -/
theorem mergeFamily_counter_comm (a b : MetricFamily) (ha : a.type = .COUNTER)
    (hb : b.type = .COUNTER) (wa : WellTyped a) (wb : WellTyped b) :
    ∃ o1 o2, mergeFamily a b = .ok o1 ∧ mergeFamily b a = .ok o2 ∧
      counterView o1.metric = counterView o2.metric := by
  obtain ⟨ms1, h1, _, e1⟩ := mergeFamily_ok (ha.trans hb.symm) wa wb
  obtain ⟨ms2, h2, _, e2⟩ := mergeFamily_ok (hb.trans ha.symm) wb wa
  refine ⟨_, _, e1, e2, ?_⟩
  have h := mergeMetrics_counter_comm a.metric b.metric
  rw [ha] at h1
  rw [hb] at h2
  rw [h1, h2] at h
  simpa [Outcome.map] using h

theorem mergeFamily_counter_comm_witness :
    (∃ o1 o2, mergeFamily (exCounter 3) (exCounter 4) = .ok o1 ∧
      mergeFamily (exCounter 4) (exCounter 3) = .ok o2 ∧
      counterView o1.metric = counterView o2.metric) ∧
    mergeFamily (exCounter 3) (exCounter 4) = .ok (exCounter 7) ∧
    mergeFamily (exCounter 4) (exCounter 3) = .ok (exCounter 7) :=
  ⟨mergeFamily_counter_comm (exCounter 3) (exCounter 4) rfl rfl (by decide) (by decide),
   by decide, by decide⟩

/-! ### Counter merge: associativity -/

/-- Two strictly ascending sequences that hold the same thing, seen through `f`,
under every label sequence show the same sequence of pairs. -/
theorem pairwise_ext {β : Type} (f : Metric → β) :
    ∀ l1 l2 : List Metric, l1.Pairwise labelLt → l2.Pairwise labelLt →
      (∀ l, (findLabel l l1).map f = (findLabel l l2).map f) →
      l1.map (fun m => (m.label, f m)) = l2.map (fun m => (m.label, f m)) := by
  intro l1
  induction l1 with
  | nil =>
    intro l2 _ _ h
    cases l2 with
    | nil => rfl
    | cons y ys =>
      have := h y.label
      rw [findLabel_cons, if_pos rfl] at this
      simp [findLabel] at this
  | cons x xs ih =>
    intro l2 s1 s2 h
    cases l2 with
    | nil =>
      have := h x.label
      rw [findLabel_cons, if_pos rfl] at this
      simp [findLabel] at this
    | cons y ys =>
      obtain ⟨hx, sxs⟩ := List.pairwise_cons.mp s1
      obtain ⟨hy, sys⟩ := List.pairwise_cons.mp s2
      have exy : x.label = y.label := by
        cases hxy : lablesLessThan x.label y.label with
        | true =>
          have hnone : findLabel x.label (y :: ys) = none := by
            apply findLabel_of_lt
            intro m hm
            rcases List.mem_cons.mp hm with rfl | hm
            · exact hxy
            · exact lablesLessThan_trans hxy (hy m hm)
          have := h x.label
          rw [findLabel_cons, if_pos rfl, hnone] at this
          simp at this
        | false =>
          cases hyx : lablesLessThan y.label x.label with
          | true =>
            have hnone : findLabel y.label (x :: xs) = none := by
              apply findLabel_of_lt
              intro m hm
              rcases List.mem_cons.mp hm with rfl | hm
              · exact hyx
              · exact lablesLessThan_trans hyx (hx m hm)
            have := h y.label
            rw [hnone, findLabel_cons, if_pos rfl] at this
            simp at this
          | false => exact lablesLessThan_connex hxy hyx
      have hf : f x = f y := by
        have := h x.label
        rw [findLabel_cons, if_pos rfl, findLabel_cons, if_pos exy.symm] at this
        simpa using this
      have htl : ∀ l, (findLabel l xs).map f = (findLabel l ys).map f := by
        intro l
        by_cases hl : x.label = l
        · rw [findLabel_of_lt (fun m hm => hl ▸ hx m hm),
            findLabel_of_lt (fun m hm => hl ▸ exy ▸ hy m hm)]
        · have := h l
          rw [findLabel_cons, if_neg hl, findLabel_cons, if_neg (exy ▸ hl)] at this
          exact this
      simp only [List.map_cons, ih ys sxs sys htl, exy, hf]

/-- The two groupings of three counters under one label sequence. -/
theorem combine_counter_assoc {x y z : Option Metric}
    (hx : ∀ m, x = some m → ∃ c, m.counter = some c)
    (hy : ∀ m, y = some m → ∃ c, m.counter = some c)
    (hz : ∀ m, z = some m → ∃ c, m.counter = some c) :
    (combine .COUNTER (combine .COUNTER x y) z).map (fun _ => ()) =
        (combine .COUNTER x (combine .COUNTER y z)).map (fun _ => ()) ∧
    ((∀ a b c ca cb cc, x = some a → y = some b → z = some c → a.counter = some ca →
        b.counter = some cb → c.counter = some cc →
        F64.add (F64.add ca.value cb.value) cc.value =
          F64.add ca.value (F64.add cb.value cc.value)) →
      combine .COUNTER (combine .COUNTER x y) z = combine .COUNTER x (combine .COUNTER y z)) := by
  cases x with
  | none => simp [combine_none_left]
  | some a =>
    cases y with
    | none => simp [combine_none_left, combine_none_right]
    | some b =>
      cases z with
      | none => simp [combine_none_right]
      | some c =>
        obtain ⟨ca, hca⟩ := hx a rfl
        obtain ⟨cb, hcb⟩ := hy b rfl
        obtain ⟨cc, hcc⟩ := hz c rfl
        have e1 : combine .COUNTER (some a) (some b) =
            some { label := a.label, counter := some { value := F64.add ca.value cb.value } } := by
          simp [combine, mergeMetric_counter hca hcb]
        have e2 : combine .COUNTER (some b) (some c) =
            some { label := b.label, counter := some { value := F64.add cb.value cc.value } } := by
          simp [combine, mergeMetric_counter hcb hcc]
        rw [e1, e2]
        have e3 : combine .COUNTER
            (some { label := a.label, counter := some { value := F64.add ca.value cb.value } })
            (some c) =
            some { label := a.label,
                   counter := some { value := F64.add (F64.add ca.value cb.value) cc.value } } := by
          simp [combine, mergeMetric, hcc]
        have e4 : combine .COUNTER (some a)
            (some { label := b.label, counter := some { value := F64.add cb.value cc.value } }) =
            some { label := a.label,
                   counter := some { value := F64.add ca.value (F64.add cb.value cc.value) } } := by
          simp [combine, mergeMetric, hca]
        rw [e3, e4]
        refine ⟨rfl, ?_⟩
        intro h
        rw [h a b c ca cb cc rfl rfl rfl hca hcb hcc]

theorem carries_counter {m : Metric} (h : carries .COUNTER m = true) :
    ∃ c, m.counter = some c :=
  Option.isSome_iff_exists.mp h

theorem mem_counterValues {ms : List Metric} {m : Metric} {c : Counter} (hm : m ∈ ms)
    (hc : m.counter = some c) : c.value ∈ counterValues ms := by
  unfold counterValues
  rw [List.mem_filterMap]
  exact ⟨m, hm, by simp [hc]⟩

/-- C7, as stated, fails: with the counter values `2^53`, `1` and `1` under one
label set, merging the first two and then the third leaves `2^53` (each addition of
`1` is rounded away), while merging the last two first leaves `2^53 + 2`. -/
theorem mergeFamily_counter_assoc_counterexample :
    ((mergeFamily (exCounter 9007199254740992) (exCounter 1)).bind
        (fun ab => mergeFamily ab (exCounter 1))).map (fun o => counterView o.metric) =
      .ok [(exLabels, some (F64.ofNat 9007199254740992))] ∧
    ((mergeFamily (exCounter 1) (exCounter 1)).bind
        (fun bc => mergeFamily (exCounter 9007199254740992) bc)).map
          (fun o => counterView o.metric) =
      .ok [(exLabels, some (F64.ofNat 9007199254740994))] ∧
    F64.ofNat 9007199254740992 ≠ F64.ofNat 9007199254740994 := by
  decide

/-- C7, amended: counter merge is associative in the label sets, and in the values
when the float64 additions are.  For every three counter families whose metrics
carry a counter and whose metric sequences are strictly ascending under
`lablesLessThan`, both groupings return a family, the two with the same sequence of
label sets; they have the same sequence of (label set, counter value) pairs whenever
`(x + y) + z = x + (y + z)` holds in float64 for the counter values `x` of `a`, `y`
of `b` and `z` of `c`. -/
theorem mergeFamily_counter_assoc (a b c : MetricFamily) (ha : a.type = .COUNTER)
    (hb : b.type = .COUNTER) (hc : c.type = .COUNTER)
    (wa : WellTyped a) (wb : WellTyped b) (wc : WellTyped c)
    (sa : LabelSorted a.metric) (sb : LabelSorted b.metric) (sc : LabelSorted c.metric) :
    ∃ ab bc o1 o2, mergeFamily a b = .ok ab ∧ mergeFamily ab c = .ok o1 ∧
      mergeFamily b c = .ok bc ∧ mergeFamily a bc = .ok o2 ∧
      o1.metric.map (fun m => m.label) = o2.metric.map (fun m => m.label) ∧
      ((∀ x ∈ counterValues a.metric, ∀ y ∈ counterValues b.metric,
          ∀ z ∈ counterValues c.metric,
          F64.add (F64.add x y) z = F64.add x (F64.add y z)) →
        counterView o1.metric = counterView o2.metric) := by
  have pa := (labelSorted_iff_pairwise _).mp sa
  have pb := (labelSorted_iff_pairwise _).mp sb
  have pc := (labelSorted_iff_pairwise _).mp sc
  obtain ⟨mab, hab, cab, eab⟩ := mergeFamily_ok (ha.trans hb.symm) wa wb
  obtain ⟨mbc, hbc, cbc, ebc⟩ := mergeFamily_ok (hb.trans hc.symm) wb wc
  have wab : WellTyped { name := a.name, help := a.help, type := a.type, metric := mab } := cab
  have wbc : WellTyped { name := b.name, help := b.help, type := b.type, metric := mbc } := cbc
  obtain ⟨m1, h1, _, e1⟩ :=
    mergeFamily_ok (a := { name := a.name, help := a.help, type := a.type, metric := mab })
      (b := c) (ha.trans hc.symm) wab wc
  obtain ⟨m2, h2, _, e2⟩ :=
    mergeFamily_ok (a := a)
      (b := { name := b.name, help := b.help, type := b.type, metric := mbc })
      (ha.trans hb.symm) wa wbc
  simp only at h1 h2 e1 e2
  rw [ha] at hab h1 h2 cab
  rw [hb] at hbc cbc
  have pab := mergeMetrics_pairwise _ _ _ _ pa pb hab
  have pbc := mergeMetrics_pairwise _ _ _ _ pb pc hbc
  have p1 := mergeMetrics_pairwise _ _ _ _ pab pc h1
  have p2 := mergeMetrics_pairwise _ _ _ _ pa pbc h2
  have f1 : ∀ l, findLabel l m1 = combine .COUNTER
      (combine .COUNTER (findLabel l a.metric) (findLabel l b.metric)) (findLabel l c.metric) := by
    intro l
    rw [mergeMetrics_findLabel _ _ _ _ pab pc h1 l, mergeMetrics_findLabel _ _ _ _ pa pb hab l]
  have f2 : ∀ l, findLabel l m2 = combine .COUNTER (findLabel l a.metric)
      (combine .COUNTER (findLabel l b.metric) (findLabel l c.metric)) := by
    intro l
    rw [mergeMetrics_findLabel _ _ _ _ pa pbc h2 l, mergeMetrics_findLabel _ _ _ _ pb pc hbc l]
  have ca : ∀ l m, findLabel l a.metric = some m → ∃ k, m.counter = some k :=
    fun l m h => carries_counter (ha ▸ wa m (findLabel_some h).1)
  have cb : ∀ l m, findLabel l b.metric = some m → ∃ k, m.counter = some k :=
    fun l m h => carries_counter (hb ▸ wb m (findLabel_some h).1)
  have cc : ∀ l m, findLabel l c.metric = some m → ∃ k, m.counter = some k :=
    fun l m h => carries_counter (hc ▸ wc m (findLabel_some h).1)
  refine ⟨_, _, _, _, eab, e1, ebc, e2, ?_, ?_⟩
  · have h := pairwise_ext (fun _ => ()) m1 m2 p1 p2 (fun l => by
      rw [f1, f2]; exact (combine_counter_assoc (ca l) (cb l) (cc l)).1)
    have h3 := congrArg (List.map Prod.fst) h
    simpa [List.map_map, Function.comp_def] using h3
  · intro hassoc
    have h := pairwise_ext (fun m => m) m1 m2 p1 p2 (fun l => by
      rw [f1, f2]
      congr 1
      apply (combine_counter_assoc (ca l) (cb l) (cc l)).2
      intro x y z kx ky kz hx hy hz hkx hky hkz
      exact hassoc _ (mem_counterValues (findLabel_some hx).1 hkx)
        _ (mem_counterValues (findLabel_some hy).1 hky)
        _ (mem_counterValues (findLabel_some hz).1 hkz))
    have h3 := congrArg (List.map Prod.snd) h
    have h4 : m1 = m2 := by simpa [List.map_map, Function.comp_def] using h3
    show counterView m1 = counterView m2
    rw [h4]

theorem mergeFamily_counter_assoc_witness :
    ∃ ab bc o1 o2, mergeFamily exLeft exRight = .ok ab ∧ mergeFamily ab (exCounter 7) = .ok o1 ∧
      mergeFamily exRight (exCounter 7) = .ok bc ∧ mergeFamily exLeft bc = .ok o2 ∧
      o1.metric.map (fun m => m.label) = o2.metric.map (fun m => m.label) ∧
      counterView o1.metric = counterView o2.metric := by
  obtain ⟨ab, bc, o1, o2, h1, h2, h3, h4, h5, h6⟩ :=
    mergeFamily_counter_assoc exLeft exRight (exCounter 7) rfl rfl rfl (by decide) (by decide)
      (by decide) (by decide) (by decide) (by decide)
  refine ⟨ab, bc, o1, o2, h1, h2, h3, h4, h5, h6 ?_⟩
  intro x hx y hy z hz
  simp only [counterValues, exLeft, exRight, exCounter, exSeries, List.filterMap_cons,
    List.filterMap_nil, Option.map_some', List.mem_cons, List.mem_singleton, List.not_mem_nil,
    or_false] at hx hy hz
  subst hz
  rcases hx with rfl | rfl <;> rcases hy with rfl | rfl
  · exact Eq.trans (b := F64.ofNat 11) (by decide) (by decide)
  · exact Eq.trans (b := F64.ofNat 12) (by decide) (by decide)
  · exact Eq.trans (b := F64.ofNat 12) (by decide) (by decide)
  · exact Eq.trans (b := F64.ofNat 13) (by decide) (by decide)

/-! ### The order of float64 comparison -/

theorem F64.key_fin_aligned (m : Nat) (e k : Int) (hk : k ≤ e) :
    ((m * 2 ^ (e - k).toNat : Nat) : ℚ) = (m : ℚ) * (2 : ℚ) ^ e / (2 : ℚ) ^ k := by
  have h2 : (2 : ℚ) ≠ 0 := two_ne_zero
  have hz : ((e - k).toNat : Int) = e - k := Int.toNat_of_nonneg (by omega)
  have hp : ((2 : ℚ) ^ (e - k).toNat) = (2 : ℚ) ^ (e - k) := by
    rw [← zpow_natCast, hz]
  push_cast
  rw [hp, zpow_sub₀ h2]
  ring

theorem F64.lt_fin_iff (s t : Bool) (m n : Nat) (e f : Int) :
    F64.lt (.fin s m e) (.fin t n f) = true ↔
      F64.key (.fin s m e) < F64.key (.fin t n f) := by
  have hc : (0 : ℚ) < (2 : ℚ) ^ (min e f) := zpow_pos (by norm_num) _
  have hX := F64.key_fin_aligned m e (min e f) (min_le_left _ _)
  have hY := F64.key_fin_aligned n f (min e f) (min_le_right _ _)
  have hA : (0 : ℚ) ≤ (m : ℚ) * (2 : ℚ) ^ e :=
    mul_nonneg (Nat.cast_nonneg _) (le_of_lt (zpow_pos (by norm_num) _))
  have hB : (0 : ℚ) ≤ (n : ℚ) * (2 : ℚ) ^ f :=
    mul_nonneg (Nat.cast_nonneg _) (le_of_lt (zpow_pos (by norm_num) _))
  have hlt : m * 2 ^ (e - min e f).toNat < n * 2 ^ (f - min e f).toNat ↔
      (m : ℚ) * (2 : ℚ) ^ e < (n : ℚ) * (2 : ℚ) ^ f := by
    rw [← Nat.cast_lt (α := ℚ), hX, hY, div_lt_div_iff_of_pos_right hc]
  have hgt : n * 2 ^ (f - min e f).toNat < m * 2 ^ (e - min e f).toNat ↔
      (n : ℚ) * (2 : ℚ) ^ f < (m : ℚ) * (2 : ℚ) ^ e := by
    rw [← Nat.cast_lt (α := ℚ), hX, hY, div_lt_div_iff_of_pos_right hc]
  have hX0 : m * 2 ^ (e - min e f).toNat = 0 ↔ (m : ℚ) * (2 : ℚ) ^ e = 0 := by
    rw [← Nat.cast_eq_zero (R := ℚ), hX, div_eq_zero_iff]
    constructor
    · rintro (h | h)
      · exact h
      · exact absurd h (ne_of_gt hc)
    · intro h; exact Or.inl h
  have hY0 : n * 2 ^ (f - min e f).toNat = 0 ↔ (n : ℚ) * (2 : ℚ) ^ f = 0 := by
    rw [← Nat.cast_eq_zero (R := ℚ), hY, div_eq_zero_iff]
    constructor
    · rintro (h | h)
      · exact h
      · exact absurd h (ne_of_gt hc)
    · intro h; exact Or.inl h
  cases s <;> cases t <;> simp only [F64.lt, F64.key, WithBot.coe_lt_coe, WithTop.coe_lt_coe]
  · simpa using hlt
  · simp only [Bool.false_eq_true, false_iff, not_lt]
    linarith
  · simp only [Bool.not_eq_true', Bool.and_eq_false_imp, beq_iff_eq, beq_eq_false_iff_ne, ne_eq]
    rw [hX0, hY0]
    constructor
    · intro h
      by_contra hcon
      have h1 : (m : ℚ) * (2 : ℚ) ^ e = 0 := by linarith
      have h2 : (n : ℚ) * (2 : ℚ) ^ f = 0 := by linarith
      exact h h1 h2
    · intro h h1 h2
      rw [h1, h2] at h
      simp at h
  · simp only [decide_eq_true_eq, neg_lt_neg_iff]
    exact hgt

theorem F64.key_fin (t : Bool) (n : Nat) (f : Int) :
    ∃ q : ℚ, F64.key (.fin t n f) = ((q : WithTop ℚ) : WithBot (WithTop ℚ)) := by
  cases t
  · exact ⟨_, rfl⟩
  · exact ⟨_, rfl⟩

theorem F64.lt_iff_key {a b : F64} (ha : a ≠ .nan) (hb : b ≠ .nan) :
    F64.lt a b = true ↔ F64.key a < F64.key b := by
  cases a with
  | nan => exact absurd rfl ha
  | inf s =>
    cases b with
    | nan => exact absurd rfl hb
    | inf t => cases s <;> cases t <;> simp [F64.lt, F64.key]
    | fin t n f =>
      obtain ⟨q, hq⟩ := F64.key_fin t n f
      rw [hq]
      cases s
      · simp only [F64.lt, F64.key, Bool.false_eq_true, false_iff, WithBot.coe_lt_coe]
        exact not_top_lt
      · simp only [F64.lt, F64.key, true_iff]
        exact WithBot.bot_lt_coe _
  | fin s m e =>
    cases b with
    | nan => exact absurd rfl hb
    | inf t =>
      obtain ⟨q, hq⟩ := F64.key_fin s m e
      rw [hq]
      cases t
      · simp only [F64.lt, F64.key, Bool.not_false, true_iff, WithBot.coe_lt_coe]
        exact WithTop.coe_lt_top q
      · simp only [F64.lt, F64.key, Bool.not_true, Bool.false_eq_true, false_iff]
        exact not_lt_bot
    | fin t n f => exact F64.lt_fin_iff s t m n e f

theorem F64.same_iff_key {a b : F64} (ha : a ≠ .nan) (hb : b ≠ .nan) :
    F64.same a b ↔ F64.key a = F64.key b := by
  unfold F64.same
  rw [Bool.eq_false_iff, Bool.eq_false_iff, Ne, Ne, F64.lt_iff_key ha hb, F64.lt_iff_key hb ha]
  constructor
  · rintro ⟨h1, h2⟩
    exact le_antisymm (not_lt.mp h2) (not_lt.mp h1)
  · intro h
    rw [h]
    exact ⟨lt_irrefl _, lt_irrefl _⟩

/-! ### The merge-join of `mergeBuckets` -/

theorem mergeBuckets_nil_left (bs : List Bucket) : mergeBuckets [] bs = bs := rfl

theorem mergeBuckets_nil_right (as : List Bucket) : mergeBuckets as [] = as := by
  cases as <;> rfl

theorem mergeBuckets_cons_cons (a : Bucket) (as : List Bucket) (b : Bucket) (bs : List Bucket) :
    mergeBuckets (a :: as) (b :: bs) =
      if F64.lt a.upperBound b.upperBound then a :: mergeBuckets as (b :: bs)
      else if F64.gt a.upperBound b.upperBound then b :: mergeBuckets (a :: as) bs
      else { cumulativeCount := u64add a.cumulativeCount b.cumulativeCount,
             upperBound := a.upperBound } :: mergeBuckets as bs := rfl

/-- The three ways in which a step of the bucket merge produces its output, in
terms of the order of the upper bounds. -/
theorem mergeBuckets_cons_cons_cases (a : Bucket) (as : List Bucket) (b : Bucket)
    (bs : List Bucket) (ha : a.upperBound ≠ .nan) (hb : b.upperBound ≠ .nan) :
    (a.key < b.key ∧ mergeBuckets (a :: as) (b :: bs) = a :: mergeBuckets as (b :: bs)) ∨
    (b.key < a.key ∧ mergeBuckets (a :: as) (b :: bs) = b :: mergeBuckets (a :: as) bs) ∨
    (a.key = b.key ∧ mergeBuckets (a :: as) (b :: bs) =
      { cumulativeCount := u64add a.cumulativeCount b.cumulativeCount,
        upperBound := a.upperBound } :: mergeBuckets as bs) := by
  rw [mergeBuckets_cons_cons]
  unfold F64.gt Bucket.key
  by_cases h1 : F64.lt a.upperBound b.upperBound = true
  · exact Or.inl ⟨(F64.lt_iff_key ha hb).mp h1, by rw [if_pos h1]⟩
  · by_cases h2 : F64.lt b.upperBound a.upperBound = true
    · exact Or.inr (Or.inl ⟨(F64.lt_iff_key hb ha).mp h2, by rw [if_neg h1, if_pos h2]⟩)
    · refine Or.inr (Or.inr ⟨?_, by rw [if_neg h1, if_neg h2]⟩)
      exact (F64.same_iff_key ha hb).mp ⟨by simpa using h1, by simpa using h2⟩

/-- Every upper bound of the output is the upper bound of an input bucket. -/
theorem mergeBuckets_bound_origin :
    ∀ as bs, ∀ o ∈ mergeBuckets as bs,
      (∃ x ∈ as, o.upperBound = x.upperBound) ∨ (∃ y ∈ bs, o.upperBound = y.upperBound) := by
  apply two_list_induction
  · intro bs o ho
    exact Or.inr ⟨o, ho, rfl⟩
  · intro a as o ho
    rw [mergeBuckets_nil_right] at ho
    exact Or.inl ⟨o, ho, rfl⟩
  · intro a as b bs ih1 ih2 ih3 o ho
    rw [mergeBuckets_cons_cons] at ho
    split_ifs at ho
    · rcases List.mem_cons.mp ho with rfl | ho
      · exact Or.inl ⟨o, List.mem_cons_self _ _, rfl⟩
      · rcases ih1 o ho with ⟨x, hx, e⟩ | ⟨y, hy, e⟩
        · exact Or.inl ⟨x, List.mem_cons_of_mem _ hx, e⟩
        · exact Or.inr ⟨y, hy, e⟩
    · rcases List.mem_cons.mp ho with rfl | ho
      · exact Or.inr ⟨o, List.mem_cons_self _ _, rfl⟩
      · rcases ih2 o ho with ⟨x, hx, e⟩ | ⟨y, hy, e⟩
        · exact Or.inl ⟨x, hx, e⟩
        · exact Or.inr ⟨y, List.mem_cons_of_mem _ hy, e⟩
    · rcases List.mem_cons.mp ho with rfl | ho
      · exact Or.inl ⟨a, List.mem_cons_self _ _, rfl⟩
      · rcases ih3 o ho with ⟨x, hx, e⟩ | ⟨y, hy, e⟩
        · exact Or.inl ⟨x, List.mem_cons_of_mem _ hx, e⟩
        · exact Or.inr ⟨y, List.mem_cons_of_mem _ hy, e⟩

theorem mergeBuckets_noNaN {as bs : List Bucket} (na : NoNaNBound as) (nb : NoNaNBound bs) :
    NoNaNBound (mergeBuckets as bs) := by
  intro o ho
  rcases mergeBuckets_bound_origin as bs o ho with ⟨x, hx, e⟩ | ⟨y, hy, e⟩
  · rw [e]; exact na x hx
  · rw [e]; exact nb y hy

theorem mergeBuckets_key_origin {as bs : List Bucket} {o : Bucket}
    (ho : o ∈ mergeBuckets as bs) :
    (∃ x ∈ as, o.key = x.key) ∨ (∃ y ∈ bs, o.key = y.key) := by
  rcases mergeBuckets_bound_origin as bs o ho with ⟨x, hx, e⟩ | ⟨y, hy, e⟩
  · exact Or.inl ⟨x, hx, by unfold Bucket.key; rw [e]⟩
  · exact Or.inr ⟨y, hy, by unfold Bucket.key; rw [e]⟩

/-- The bucket merge keeps the keys strictly ascending. -/
theorem mergeBuckets_pairwise :
    ∀ as bs, NoNaNBound as → NoNaNBound bs →
      as.Pairwise (fun x y => x.key < y.key) → bs.Pairwise (fun x y => x.key < y.key) →
      (mergeBuckets as bs).Pairwise (fun x y => x.key < y.key) := by
  apply two_list_induction
  · intro bs _ _ _ sb
    exact sb
  · intro a as _ _ sa _
    rw [mergeBuckets_nil_right]
    exact sa
  · intro a as b bs ih1 ih2 ih3 na nb sa sb
    obtain ⟨ha, sas⟩ := List.pairwise_cons.mp sa
    obtain ⟨hb, sbs⟩ := List.pairwise_cons.mp sb
    have na1 := na a (List.mem_cons_self _ _)
    have nb1 := nb b (List.mem_cons_self _ _)
    have nas : NoNaNBound as := fun x hx => na x (List.mem_cons_of_mem _ hx)
    have nbs : NoNaNBound bs := fun x hx => nb x (List.mem_cons_of_mem _ hx)
    rcases mergeBuckets_cons_cons_cases a as b bs na1 nb1 with
      ⟨hlt, e⟩ | ⟨hlt, e⟩ | ⟨heq, e⟩
    · rw [e]
      refine List.pairwise_cons.mpr ⟨?_, ih1 nas nb sas sb⟩
      intro o ho
      rcases mergeBuckets_key_origin ho with ⟨x, hx, e1⟩ | ⟨y, hy, e1⟩
      · rw [e1]; exact ha x hx
      · rw [e1]
        rcases List.mem_cons.mp hy with rfl | hy
        · exact hlt
        · exact lt_trans hlt (hb y hy)
    · rw [e]
      refine List.pairwise_cons.mpr ⟨?_, ih2 na nbs sa sbs⟩
      intro o ho
      rcases mergeBuckets_key_origin ho with ⟨x, hx, e1⟩ | ⟨y, hy, e1⟩
      · rw [e1]
        rcases List.mem_cons.mp hx with rfl | hx
        · exact hlt
        · exact lt_trans hlt (ha x hx)
      · rw [e1]; exact hb y hy
    · rw [e]
      refine List.pairwise_cons.mpr ⟨?_, ih3 nas nbs sas sbs⟩
      intro o ho
      show F64.key a.upperBound < o.key
      rcases mergeBuckets_key_origin ho with ⟨x, hx, e1⟩ | ⟨y, hy, e1⟩
      · rw [e1]; exact ha x hx
      · rw [e1]
        have := hb y hy
        rw [← heq] at this
        exact this

/-- The buckets of the output of the bucket merge: the buckets of one input whose
bound the other input does not have, and one summed bucket for every bound the two
inputs share. -/
theorem mergeBuckets_mem :
    ∀ as bs, NoNaNBound as → NoNaNBound bs →
      as.Pairwise (fun x y => x.key < y.key) → bs.Pairwise (fun x y => x.key < y.key) →
      ∀ o, o ∈ mergeBuckets as bs ↔
        (o ∈ as ∧ ∀ y ∈ bs, y.key ≠ o.key) ∨
        (o ∈ bs ∧ ∀ x ∈ as, x.key ≠ o.key) ∨
        (∃ x ∈ as, ∃ y ∈ bs, x.key = y.key ∧
          o = { cumulativeCount := u64add x.cumulativeCount y.cumulativeCount,
                upperBound := x.upperBound }) := by
  apply two_list_induction
  · intro bs _ _ _ _ o
    simp [mergeBuckets_nil_left]
  · intro a as _ _ _ _ o
    simp [mergeBuckets_nil_right]
  · intro a as b bs ih1 ih2 ih3 na nb sa sb o
    obtain ⟨ha, sas⟩ := List.pairwise_cons.mp sa
    obtain ⟨hb, sbs⟩ := List.pairwise_cons.mp sb
    have na1 := na a (List.mem_cons_self _ _)
    have nb1 := nb b (List.mem_cons_self _ _)
    have nas : NoNaNBound as := fun x hx => na x (List.mem_cons_of_mem _ hx)
    have nbs : NoNaNBound bs := fun x hx => nb x (List.mem_cons_of_mem _ hx)
    rcases mergeBuckets_cons_cons_cases a as b bs na1 nb1 with
      ⟨hlt, e⟩ | ⟨hlt, e⟩ | ⟨heq, e⟩
    · have hab : ∀ y ∈ b :: bs, a.key < y.key := by
        intro y hy
        rcases List.mem_cons.mp hy with rfl | hy
        · exact hlt
        · exact lt_trans hlt (hb y hy)
      rw [e, List.mem_cons, ih1 nas nb sas sb o]
      constructor
      · rintro (rfl | ⟨ho, h⟩ | ⟨ho, h⟩ | ⟨x, hx, y, hy, e1, e2⟩)
        · exact Or.inl ⟨List.mem_cons_self _ _, fun y hy => (hab y hy).ne'⟩
        · exact Or.inl ⟨List.mem_cons_of_mem _ ho, h⟩
        · refine Or.inr (Or.inl ⟨ho, ?_⟩)
          intro x hx
          rcases List.mem_cons.mp hx with rfl | hx
          · exact (hab o ho).ne
          · exact h x hx
        · exact Or.inr (Or.inr ⟨x, List.mem_cons_of_mem _ hx, y, hy, e1, e2⟩)
      · rintro (⟨ho, h⟩ | ⟨ho, h⟩ | ⟨x, hx, y, hy, e1, e2⟩)
        · rcases List.mem_cons.mp ho with rfl | ho
          · exact Or.inl rfl
          · exact Or.inr (Or.inl ⟨ho, h⟩)
        · exact Or.inr (Or.inr (Or.inl ⟨ho, fun x hx => h x (List.mem_cons_of_mem _ hx)⟩))
        · rcases List.mem_cons.mp hx with rfl | hx
          · exact absurd e1 (hab y hy).ne
          · exact Or.inr (Or.inr (Or.inr ⟨x, hx, y, hy, e1, e2⟩))
    · have hba : ∀ x ∈ a :: as, b.key < x.key := by
        intro x hx
        rcases List.mem_cons.mp hx with rfl | hx
        · exact hlt
        · exact lt_trans hlt (ha x hx)
      rw [e, List.mem_cons, ih2 na nbs sa sbs o]
      constructor
      · rintro (rfl | ⟨ho, h⟩ | ⟨ho, h⟩ | ⟨x, hx, y, hy, e1, e2⟩)
        · exact Or.inr (Or.inl ⟨List.mem_cons_self _ _, fun x hx => (hba x hx).ne'⟩)
        · refine Or.inl ⟨ho, ?_⟩
          intro y hy
          rcases List.mem_cons.mp hy with rfl | hy
          · exact (hba o ho).ne
          · exact h y hy
        · exact Or.inr (Or.inl ⟨List.mem_cons_of_mem _ ho, h⟩)
        · exact Or.inr (Or.inr ⟨x, hx, y, List.mem_cons_of_mem _ hy, e1, e2⟩)
      · rintro (⟨ho, h⟩ | ⟨ho, h⟩ | ⟨x, hx, y, hy, e1, e2⟩)
        · exact Or.inr (Or.inl ⟨ho, fun y hy => h y (List.mem_cons_of_mem _ hy)⟩)
        · rcases List.mem_cons.mp ho with rfl | ho
          · exact Or.inl rfl
          · exact Or.inr (Or.inr (Or.inl ⟨ho, h⟩))
        · rcases List.mem_cons.mp hy with rfl | hy
          · exact absurd e1 (hba x hx).ne'
          · exact Or.inr (Or.inr (Or.inr ⟨x, hx, y, hy, e1, e2⟩))
    · rw [e, List.mem_cons, ih3 nas nbs sas sbs o]
      constructor
      · rintro (rfl | ⟨ho, h⟩ | ⟨ho, h⟩ | ⟨x, hx, y, hy, e1, e2⟩)
        · exact Or.inr (Or.inr ⟨a, List.mem_cons_self _ _, b, List.mem_cons_self _ _, heq, rfl⟩)
        · refine Or.inl ⟨List.mem_cons_of_mem _ ho, ?_⟩
          intro y hy
          rcases List.mem_cons.mp hy with rfl | hy
          · rw [← heq]; exact (ha o ho).ne
          · exact h y hy
        · refine Or.inr (Or.inl ⟨List.mem_cons_of_mem _ ho, ?_⟩)
          intro x hx
          rcases List.mem_cons.mp hx with rfl | hx
          · rw [heq]; exact (hb o ho).ne
          · exact h x hx
        · exact Or.inr (Or.inr
            ⟨x, List.mem_cons_of_mem _ hx, y, List.mem_cons_of_mem _ hy, e1, e2⟩)
      · rintro (⟨ho, h⟩ | ⟨ho, h⟩ | ⟨x, hx, y, hy, e1, e2⟩)
        · rcases List.mem_cons.mp ho with rfl | ho
          · exact absurd heq.symm (h b (List.mem_cons_self _ _))
          · exact Or.inr (Or.inl ⟨ho, fun y hy => h y (List.mem_cons_of_mem _ hy)⟩)
        · rcases List.mem_cons.mp ho with rfl | ho
          · exact absurd heq (h a (List.mem_cons_self _ _))
          · exact Or.inr (Or.inr (Or.inl ⟨ho, fun x hx => h x (List.mem_cons_of_mem _ hx)⟩))
        · rcases List.mem_cons.mp hx with rfl | hx
          · rcases List.mem_cons.mp hy with rfl | hy
            · exact Or.inl e2
            · have := hb y hy
              rw [← heq, e1] at this
              exact absurd this (lt_irrefl _)
          · rcases List.mem_cons.mp hy with rfl | hy
            · have := ha x hx
              rw [heq, ← e1] at this
              exact absurd this (lt_irrefl _)
            · exact Or.inr (Or.inr (Or.inr ⟨x, hx, y, hy, e1, e2⟩))

theorem boundSorted_iff_pairwise {bs : List Bucket} (nb : NoNaNBound bs) :
    BoundSorted bs ↔ bs.Pairwise (fun x y => x.key < y.key) := by
  haveI : IsTrans Bucket (fun x y => x.key < y.key) := ⟨fun _ _ _ h1 h2 => lt_trans h1 h2⟩
  unfold BoundSorted
  rw [ascending_iff_chain, ← List.chain'_iff_pairwise]
  induction bs with
  | nil => simp
  | cons x xs ih =>
    cases xs with
    | nil => simp
    | cons y ys =>
      have nx := nb x (List.mem_cons_self _ _)
      have ny := nb y (List.mem_cons_of_mem _ (List.mem_cons_self _ _))
      have nxs : NoNaNBound (y :: ys) := fun z hz => nb z (List.mem_cons_of_mem _ hz)
      rw [List.chain'_cons, List.chain'_cons]
      exact and_congr (F64.lt_iff_key nx ny) (ih nxs)

/-- C8, as stated, fails in two ways.  A one-bucket sequence whose bound is NaN is
(vacuously) ascending; merged with the bounds `1, 2` it swallows the bucket of
bound `1` and the output `NaN, 2` is not ascending.  And the counts `2^63` and
`2^63` of a shared bound sum to `0`, the `uint64` addition wrapping. -/
theorem mergeBuckets_counterexample :
    (BoundSorted [exNaNBucket 1] ∧ BoundSorted [exBucket 1 1, exBucket 2 1] ∧
      mergeBuckets [exNaNBucket 1] [exBucket 1 1, exBucket 2 1] =
        [exNaNBucket 2, exBucket 2 1] ∧
      ¬ BoundSorted [exNaNBucket 2, exBucket 2 1]) ∧
    (mergeBuckets [exBucket 1 9223372036854775808] [exBucket 1 9223372036854775808] =
        [exBucket 1 0] ∧
      (0 : Nat) ≠ 9223372036854775808 + 9223372036854775808) := by
  decide

/-- C8, amended: `mergeBuckets` on ascending inputs without a NaN bound.  For
every two bucket sequences strictly ascending by `upperBound` and free of NaN
bounds, the output is strictly ascending by `upperBound`; every bound of the output
is a bound of `a` or of `b`, and every bound of `a` and of `b` is (as a float64) a
bound of the output; a bound present in both has the sum of the two counts modulo
`2^64`; and a bucket whose bound the other input does not have is in the output
unchanged. -/
theorem mergeBuckets_ascending (a b : List Bucket) (na : NoNaNBound a) (nb : NoNaNBound b)
    (sa : BoundSorted a) (sb : BoundSorted b) :
    BoundSorted (mergeBuckets a b) ∧
    (∀ o ∈ mergeBuckets a b,
      (∃ x ∈ a, o.upperBound = x.upperBound) ∨ (∃ y ∈ b, o.upperBound = y.upperBound)) ∧
    (∀ x ∈ a, ∃ o ∈ mergeBuckets a b, F64.same o.upperBound x.upperBound) ∧
    (∀ y ∈ b, ∃ o ∈ mergeBuckets a b, F64.same o.upperBound y.upperBound) ∧
    (∀ x ∈ a, ∀ y ∈ b, F64.same x.upperBound y.upperBound →
      { cumulativeCount := (x.cumulativeCount + y.cumulativeCount) % 2 ^ 64,
        upperBound := x.upperBound } ∈ mergeBuckets a b) ∧
    (∀ x ∈ a, (∀ y ∈ b, ¬ F64.same x.upperBound y.upperBound) → x ∈ mergeBuckets a b) ∧
    (∀ y ∈ b, (∀ x ∈ a, ¬ F64.same x.upperBound y.upperBound) → y ∈ mergeBuckets a b) := by
  have pa := (boundSorted_iff_pairwise na).mp sa
  have pb := (boundSorted_iff_pairwise nb).mp sb
  have hmem := mergeBuckets_mem a b na nb pa pb
  have hsame : ∀ x ∈ a, ∀ y ∈ b, (F64.same x.upperBound y.upperBound ↔ x.key = y.key) :=
    fun x hx y hy => F64.same_iff_key (na x hx) (nb y hy)
  have refl_same : ∀ u : F64, u ≠ .nan → F64.same u u :=
    fun u hu => (F64.same_iff_key hu hu).mpr rfl
  have h5 : ∀ x ∈ a, ∀ y ∈ b, F64.same x.upperBound y.upperBound →
      { cumulativeCount := (x.cumulativeCount + y.cumulativeCount) % 2 ^ 64,
        upperBound := x.upperBound } ∈ mergeBuckets a b := by
    intro x hx y hy h
    exact (hmem _).mpr (Or.inr (Or.inr ⟨x, hx, y, hy, (hsame x hx y hy).mp h, rfl⟩))
  have h6 : ∀ x ∈ a, (∀ y ∈ b, ¬ F64.same x.upperBound y.upperBound) → x ∈ mergeBuckets a b := by
    intro x hx h
    exact (hmem x).mpr (Or.inl ⟨hx, fun y hy e => h y hy ((hsame x hx y hy).mpr e.symm)⟩)
  have h7 : ∀ y ∈ b, (∀ x ∈ a, ¬ F64.same x.upperBound y.upperBound) → y ∈ mergeBuckets a b := by
    intro y hy h
    exact (hmem y).mpr (Or.inr (Or.inl ⟨hy, fun x hx e => h x hx ((hsame x hx y hy).mpr e)⟩))
  refine ⟨?_, mergeBuckets_bound_origin a b, ?_, ?_, h5, h6, h7⟩
  · exact (boundSorted_iff_pairwise (mergeBuckets_noNaN na nb)).mpr
      (mergeBuckets_pairwise a b na nb pa pb)
  · intro x hx
    by_cases h : ∃ y ∈ b, F64.same x.upperBound y.upperBound
    · obtain ⟨y, hy, hs⟩ := h
      exact ⟨_, h5 x hx y hy hs, refl_same _ (na x hx)⟩
    · push_neg at h
      exact ⟨x, h6 x hx h, refl_same _ (na x hx)⟩
  · intro y hy
    by_cases h : ∃ x ∈ a, F64.same x.upperBound y.upperBound
    · obtain ⟨x, hx, hs⟩ := h
      exact ⟨_, h5 x hx y hy hs, hs⟩
    · push_neg at h
      exact ⟨y, h7 y hy h, refl_same _ (nb y hy)⟩

theorem mergeBuckets_ascending_witness :
    mergeBuckets [exBucket 1 2] [exBucket 1 3, exBucket 2 1] = [exBucket 1 5, exBucket 2 1] ∧
    BoundSorted (mergeBuckets [exBucket 1 2] [exBucket 1 3, exBucket 2 1]) ∧
    (∀ x ∈ [exBucket 1 2], ∀ y ∈ [exBucket 1 3, exBucket 2 1],
      F64.same x.upperBound y.upperBound →
      { cumulativeCount := (x.cumulativeCount + y.cumulativeCount) % 2 ^ 64,
        upperBound := x.upperBound } ∈ mergeBuckets [exBucket 1 2] [exBucket 1 3, exBucket 2 1]) :=
  ⟨by decide,
   (mergeBuckets_ascending [exBucket 1 2] [exBucket 1 3, exBucket 2 1] (by decide) (by decide)
     (by decide) (by decide)).1,
   (mergeBuckets_ascending [exBucket 1 2] [exBucket 1 3, exBucket 2 1] (by decide) (by decide)
     (by decide) (by decide)).2.2.2.2.1⟩

/-! ### `mergeMetric` -/

/-- C9: `mergeMetric` for the scalar types.  For the type counter, gauge or
untyped and two metrics that carry a payload of that type, `mergeMetric` returns a
metric with the label set of `a`, no other payload than one of that type, and in it
the float64 sum of the two values. -/
theorem mergeMetric_scalar (a b : Metric) :
    (∀ ca cb, a.counter = some ca → b.counter = some cb →
      mergeMetric .COUNTER a b =
        .ok (some { label := a.label, gauge := none,
                    counter := some { value := F64.add ca.value cb.value },
                    summary := none, untyped := none, histogram := none,
                    timestampMs := none })) ∧
    (∀ ga gb, a.gauge = some ga → b.gauge = some gb →
      mergeMetric .GAUGE a b =
        .ok (some { label := a.label, gauge := some { value := F64.add ga.value gb.value },
                    counter := none, summary := none, untyped := none, histogram := none,
                    timestampMs := none })) ∧
    (∀ ua ub, a.untyped = some ua → b.untyped = some ub →
      mergeMetric .UNTYPED a b =
        .ok (some { label := a.label, gauge := none, counter := none, summary := none,
                    untyped := some { value := F64.add ua.value ub.value },
                    histogram := none, timestampMs := none })) :=
  ⟨fun _ _ ha hb => mergeMetric_counter ha hb, fun _ _ ha hb => mergeMetric_gauge ha hb,
   fun _ _ ha hb => mergeMetric_untyped ha hb⟩

theorem mergeMetric_scalar_witness :
    mergeMetric .COUNTER (exSeries "/" 3) (exSeries "/" 4) =
      .ok (some { label := (exSeries "/" 3).label, gauge := none,
                  counter := some { value := F64.add (F64.ofNat 3) (F64.ofNat 4) },
                  summary := none, untyped := none, histogram := none,
                  timestampMs := none }) ∧
    F64.add (F64.ofNat 3) (F64.ofNat 4) = F64.ofNat 7 :=
  ⟨(mergeMetric_scalar (exSeries "/" 3) (exSeries "/" 4)).1 _ _ rfl rfl, by decide⟩

/-- C10, as stated, fails twice.  The sample counts `2^63` and `2^63` merge into
the sample count `0`, not `2^64`, the `uint64` addition wrapping; and two histogram
metrics decoded from an exposition without `_count` and `_sum` lines have no result,
`mergeMetric` dereferencing their nil `SampleCount`. -/
theorem mergeMetric_histogram_counterexample :
    mergeMetric .HISTOGRAM (exHistogram 9223372036854775808)
        (exHistogram 9223372036854775808) = .ok (some (exHistogram 0)) ∧
      (0 : Nat) ≠ 9223372036854775808 + 9223372036854775808 ∧
      exBareSeries.histogram = some { bucket := [exBucket 1 2] } ∧
      mergeMetric .HISTOGRAM exBareSeries exBareSeries = .panic := by
  decide

/-- C10, amended: `mergeMetric` for histograms.  For every two metrics that carry
a histogram with its sample count and its sample sum, the result has the label set
of `a`, no payload but a histogram, the sample count
`(a.sampleCount + b.sampleCount) mod 2^64`, the sample sum
`a.sampleSum + b.sampleSum` in float64, and the bucket sequence
`mergeBuckets(a.buckets, b.buckets)`.  When either metric lacks the histogram, its
sample count or its sample sum, `mergeMetric` panics on the nil dereference. -/
theorem mergeMetric_histogram_sum (a b : Metric) :
    (∀ (ha hb : Histogram) (ca cb : Nat) (sa sb : F64),
      a.histogram = some ha → b.histogram = some hb →
      ha.sampleCount = some ca → hb.sampleCount = some cb →
      ha.sampleSum = some sa → hb.sampleSum = some sb →
      mergeMetric .HISTOGRAM a b =
        .ok (some { label := a.label, gauge := none, counter := none, summary := none,
                    untyped := none,
                    histogram := some { sampleCount := some ((ca + cb) % 2 ^ 64),
                                        sampleSum := some (F64.add sa sb),
                                        bucket := mergeBuckets ha.bucket hb.bucket },
                    timestampMs := none })) ∧
    (carries .HISTOGRAM a = false ∨ carries .HISTOGRAM b = false →
      mergeMetric .HISTOGRAM a b = .panic) :=
  ⟨fun _ _ _ _ _ _ h1 h2 hca hcb hsa hsb => mergeMetric_histogram h1 h2 hca hcb hsa hsb,
   mergeMetric_histogram_panic⟩

theorem mergeMetric_histogram_sum_witness :
    mergeMetric .HISTOGRAM (exHistogram 2) (exHistogram 3) =
      .ok (some { label := exLabels, gauge := none, counter := none, summary := none,
                  untyped := none,
                  histogram := some { sampleCount := some ((2 + 3) % 2 ^ 64),
                                      sampleSum := some (F64.add (F64.ofNat 0) (F64.ofNat 0)),
                                      bucket := mergeBuckets [] [] },
                  timestampMs := none }) ∧
    mergeMetric .HISTOGRAM (exHistogram 2) exBareSeries = .panic :=
  ⟨(mergeMetric_histogram_sum (exHistogram 2) (exHistogram 3)).1 _ _ _ _ _ _ rfl rfl rfl rfl
     rfl rfl,
   (mergeMetric_histogram_sum (exHistogram 2) exBareSeries).2 (Or.inr (by decide))⟩

/-! ### `parseAndMerge` -/

theorem mergeAll_cons (L : Lib) (families : Store) (name : String) (family : MetricFamily)
    (rest : List (String × MetricFamily)) :
    mergeAll L families ((name, family) :: rest) =
      match mergeIncoming L families name family with
      | .ok families1 => mergeAll L families1 rest
      | .error err => (families, .error err)
      | .panic => (families, .panic) := rfl

/-- A call that returns an error has processed a part of the batch before it. -/
theorem mergeAll_error (L : Lib) :
    ∀ (batch : List (String × MetricFamily)) (families after : Store) (e : Error),
      mergeAll L families batch = (after, .error e) →
      ∃ done name family rest, batch = done ++ (name, family) :: rest ∧
        mergeAll L families done = (after, .ok ()) ∧
        mergeIncoming L after name family = .error e := by
  intro batch
  induction batch with
  | nil =>
    intro families after e h
    simp [mergeAll] at h
  | cons x rest ih =>
    intro families after e h
    obtain ⟨name, family⟩ := x
    rw [mergeAll_cons] at h
    cases hm : mergeIncoming L families name family with
    | ok s1 =>
      rw [hm] at h
      obtain ⟨done, n, f, r, e1, e2, e3⟩ := ih s1 after e h
      refine ⟨(name, family) :: done, n, f, r, by rw [e1]; rfl, ?_, e3⟩
      rw [mergeAll_cons, hm]
      exact e2
    | error e0 =>
      rw [hm] at h
      simp only [Prod.mk.injEq, Outcome.error.injEq] at h
      obtain ⟨rfl, rfl⟩ := h
      exact ⟨[], name, family, rest, rfl, rfl, hm⟩
    | panic =>
      rw [hm] at h
      simp at h

/-- A call that returns no error has inserted or merged every family. -/
theorem mergeAll_ok (L : Lib) :
    ∀ (done : List (String × MetricFamily)) (families after : Store) (name : String)
      (family : MetricFamily) (rest : List (String × MetricFamily)),
      mergeAll L families (done ++ (name, family) :: rest) = (after, .ok ()) →
      ∃ s1 s2, mergeAll L families done = (s1, .ok ()) ∧
        mergeIncoming L s1 name family = .ok s2 ∧
        mergeAll L families (done ++ [(name, family)]) = (s2, .ok ()) := by
  intro done
  induction done with
  | nil =>
    intro families after name family rest h
    rw [List.nil_append, mergeAll_cons] at h
    cases hm : mergeIncoming L families name family with
    | ok s2 =>
      refine ⟨families, s2, rfl, hm, ?_⟩
      rw [List.nil_append, mergeAll_cons, hm]
      rfl
    | error e0 => rw [hm] at h; simp at h
    | panic => rw [hm] at h; simp at h
  | cons d ds ih =>
    intro families after name family rest h
    obtain ⟨dn, df⟩ := d
    rw [List.cons_append, mergeAll_cons] at h
    cases hm : mergeIncoming L families dn df with
    | ok s0 =>
      rw [hm] at h
      obtain ⟨s1, s2, e1, e2, e3⟩ := ih s0 after name family rest h
      refine ⟨s1, s2, ?_, e2, ?_⟩
      · rw [mergeAll_cons, hm]; exact e1
      · rw [List.cons_append, mergeAll_cons, hm]; exact e3
    | error e0 => rw [hm] at h; simp at h
    | panic => rw [hm] at h; simp at h

/-- C1, as stated, fails: with `requests_total` stored as a counter, a batch that
is visited in the order `up`, `requests_total` and whose `requests_total` is a
gauge returns the type-mismatch error, and `up` has been inserted in the store. -/
theorem parseAndMerge_not_atomic :
    parseAndMerge refLib exStore (.ok [("up", exUp), ("requests_total", exGauge)]) =
      ([("requests_total", exCounter 7), ("up", exUp)],
        .error (.typeMismatch "requests_total" .COUNTER .GAUGE)) ∧
    StrMap.get "up" exStore = none ∧
    StrMap.get "up" [("requests_total", exCounter 7), ("up", exUp)] = some exUp := by
  decide

/-- C1, amended: what a failed `parseAndMerge` leaves.  For every store and every
decoded batch, in the order in which it is visited: if the call returns an error,
then the batch splits into the families visited before the failing one, the failing
one and the rest, the store after the call is the store that the call on the
families visited before leaves (they stay inserted or merged), and the error is the
one the failing family meets on that store; and if the call returns no error, every
family of the batch has been inserted or merged in its turn. -/
theorem parseAndMerge_commits_visited (L : Lib) (families : Store)
    (batch : List (String × MetricFamily)) :
    (∀ after e, parseAndMerge L families (.ok batch) = (after, .error e) →
      ∃ done name family rest, batch = done ++ (name, family) :: rest ∧
        parseAndMerge L families (.ok done) = (after, .ok ()) ∧
        mergeIncoming L after name family = .error e) ∧
    (∀ after, parseAndMerge L families (.ok batch) = (after, .ok ()) →
      ∀ done name family rest, batch = done ++ (name, family) :: rest →
        ∃ s1 s2, parseAndMerge L families (.ok done) = (s1, .ok ()) ∧
          mergeIncoming L s1 name family = .ok s2 ∧
          parseAndMerge L families (.ok (done ++ [(name, family)])) = (s2, .ok ())) := by
  constructor
  · intro after e h
    exact mergeAll_error L batch families after e h
  · intro after h done name family rest hb
    subst hb
    exact mergeAll_ok L done families after name family rest h

theorem parseAndMerge_commits_visited_witness :
    ∃ done name family rest,
      [("up", exUp), ("requests_total", exGauge)] = done ++ (name, family) :: rest ∧
      parseAndMerge refLib exStore (.ok done) =
        ([("requests_total", exCounter 7), ("up", exUp)], .ok ()) ∧
      mergeIncoming refLib [("requests_total", exCounter 7), ("up", exUp)] name family =
        .error (.typeMismatch "requests_total" .COUNTER .GAUGE) :=
  (parseAndMerge_commits_visited refLib exStore [("up", exUp), ("requests_total", exGauge)]).1
    _ _ (by decide)

/-- C2: a rejected single-family push leaves the aggregate untouched.  For every
store and every batch of exactly one family, if `parseAndMerge` does not return
`nil` (it returns the error of `validateFamily` or of `mergeFamily`, or panics),
the store after the call is the store before it. -/
theorem parseAndMerge_single_rejected (L : Lib) (families : Store) (name : String)
    (family : MetricFamily)
    (h : (parseAndMerge L families (.ok [(name, family)])).2 ≠ .ok ()) :
    (parseAndMerge L families (.ok [(name, family)])).1 = families := by
  unfold parseAndMerge at h ⊢
  simp only at h ⊢
  rw [mergeAll_cons] at h ⊢
  cases hm : mergeIncoming L families name family with
  | ok s1 => rw [hm] at h; simp [mergeAll] at h
  | error e => rfl
  | panic => rfl

theorem parseAndMerge_single_rejected_witness :
    (parseAndMerge refLib [] (.ok [("requests_total", exCounter 3)])).1 =
      [("requests_total", exCounter 3)] ∧
    (parseAndMerge refLib [("requests_total", exCounter 3)]
      (.ok [("requests_total", exCounter 4)])).1 = exStore ∧
    (parseAndMerge refLib exStore (.ok [("requests_total", exGauge)])).2 =
      .error (.typeMismatch "requests_total" .COUNTER .GAUGE) ∧
    (parseAndMerge refLib exStore (.ok [("requests_total", exGauge)])).1 = exStore ∧
    StrMap.get "requests_total" exStore = some (exCounter 7) :=
  ⟨by decide, by decide, by decide,
   parseAndMerge_single_rejected refLib exStore "requests_total" exGauge (by decide),
   by decide⟩

/-! ### `lablesLessThan` as an order -/

theorem lablesLessThan_append_right (a c : List LabelPair) (hc : c ≠ []) :
    lablesLessThan a (a ++ c) = true := by
  induction a with
  | nil =>
    cases c with
    | nil => exact absurd rfl hc
    | cons z zs => simp [lablesLessThan]
  | cons x xs ih => simp [lablesLessThan, ih]

/-- C18: `lablesLessThan` is the strict lexicographic order on label sequences.
It is irreflexive and transitive; of `a < b`, `b < a` and `a = b` (the same names
and values element by element) exactly one holds; two non-empty sequences compare
by the names of their first pairs, then by their values, then by their tails; and a
proper prefix is below the longer sequence. -/
theorem lablesLessThan_strict_lexicographic (a b c : List LabelPair) :
    lablesLessThan a a = false ∧
    (lablesLessThan a b = true → lablesLessThan b c = true → lablesLessThan a c = true) ∧
    ((lablesLessThan a b = true ∧ lablesLessThan b a = false ∧ a ≠ b) ∨
     (lablesLessThan a b = false ∧ lablesLessThan b a = true ∧ a ≠ b) ∨
     (lablesLessThan a b = false ∧ lablesLessThan b a = false ∧ a = b)) ∧
    (∀ x y : LabelPair, lablesLessThan (x :: a) (y :: b) = true ↔
      strLess x.name y.name = true ∨ (x.name = y.name ∧
        (strLess x.value y.value = true ∨ (x.value = y.value ∧ lablesLessThan a b = true)))) ∧
    (c ≠ [] → lablesLessThan a (a ++ c) = true ∧ lablesLessThan (a ++ c) a = false) := by
  refine ⟨lablesLessThan_irrefl a, lablesLessThan_trans, ?_, ?_, ?_⟩
  · cases hab : lablesLessThan a b with
    | true => exact Or.inl ⟨rfl, lablesLessThan_asymm hab, lablesLessThan_ne hab⟩
    | false =>
      cases hba : lablesLessThan b a with
      | true => exact Or.inr (Or.inl ⟨rfl, rfl, (lablesLessThan_ne hba).symm⟩)
      | false => exact Or.inr (Or.inr ⟨rfl, rfl, lablesLessThan_connex hab hba⟩)
  · intro x y
    rw [lablesLessThan_cons, strLess_iff, strLess_iff]
  · intro hc
    exact ⟨lablesLessThan_append_right a c hc,
      lablesLessThan_asymm (lablesLessThan_append_right a c hc)⟩

theorem lablesLessThan_strict_lexicographic_witness :
    lablesLessThan [{ name := "a", value := "1" }] [{ name := "b", value := "0" }] = true ∧
    (lablesLessThan [{ name := "a", value := "1" }]
        ([{ name := "a", value := "1" }] ++ [{ name := "b", value := "0" }]) = true ∧
      lablesLessThan ([{ name := "a", value := "1" }] ++ [{ name := "b", value := "0" }])
        [{ name := "a", value := "1" }] = false) :=
  ⟨(lablesLessThan_strict_lexicographic [{ name := "a", value := "1" }]
      [{ name := "a", value := "2" }] [{ name := "b", value := "0" }]).2.1 (by decide) (by decide),
   (lablesLessThan_strict_lexicographic [{ name := "a", value := "1" }]
      [{ name := "a", value := "2" }] [{ name := "b", value := "0" }]).2.2.2.2 (by decide)⟩

/-! ### Summary families -/

/-- The merge-join of two summary sequences returns a sequence. -/
theorem mergeMetrics_summary_ok :
    ∀ as bs, ∃ out, mergeMetrics .SUMMARY as bs = .ok out := by
  apply two_list_induction
  · intro bs; exact ⟨bs, rfl⟩
  · intro a as; exact ⟨a :: as, rfl⟩
  · intro a as b bs ih1 ih2 ih3
    rw [mergeMetrics_cons_cons]
    split_ifs
    · obtain ⟨rest, hr⟩ := ih1
      exact ⟨a :: rest, by simp [hr, Outcome.map]⟩
    · obtain ⟨rest, hr⟩ := ih2
      exact ⟨b :: rest, by simp [hr, Outcome.map]⟩
    · obtain ⟨rest, hr⟩ := ih3
      exact ⟨rest, by simp [mergeMetric, hr]⟩

/-- C11: summary series are dropped, not errors.  `mergeMetric` returns `nil` for
the summary type, and for every two summary families with strictly ascending metric
sequences `mergeFamily` returns a family whose metrics are exactly the metrics of
one input whose label set the other input does not have, each unchanged and none
twice; no metric of the output has a label set that occurs in both inputs. -/
theorem mergeFamily_summary_drops (a b : MetricFamily) (ha : a.type = .SUMMARY)
    (hb : b.type = .SUMMARY) (sa : LabelSorted a.metric) (sb : LabelSorted b.metric) :
    (∀ x y, mergeMetric .SUMMARY x y = .ok none) ∧
    ∃ out, mergeFamily a b = .ok out ∧
      (∀ m, m ∈ out.metric ↔
        (m ∈ a.metric ∧ ∀ m2 ∈ b.metric, m2.label ≠ m.label) ∨
        (m ∈ b.metric ∧ ∀ m1 ∈ a.metric, m1.label ≠ m.label)) ∧
      (∀ ma ∈ a.metric, ∀ mb ∈ b.metric, ma.label = mb.label →
        ∀ m ∈ out.metric, m.label ≠ ma.label) ∧
      (out.metric.map (fun m => m.label)).Nodup := by
  refine ⟨fun _ _ => rfl, ?_⟩
  have pa := (labelSorted_iff_pairwise _).mp sa
  have pb := (labelSorted_iff_pairwise _).mp sb
  obtain ⟨ms, hms⟩ := mergeMetrics_summary_ok a.metric b.metric
  have hout : mergeFamily a b =
      .ok { name := a.name, help := a.help, type := a.type, metric := ms } := by
    rw [mergeFamily_of_type_eq (ha.trans hb.symm), ha, hms]
    rfl
  have pout := mergeMetrics_pairwise _ _ _ _ pa pb hms
  have hfind := mergeMetrics_findLabel _ _ _ _ pa pb hms
  have hdrop : ∀ x y : Metric, combine .SUMMARY (some x) (some y) = none := fun _ _ => rfl
  refine ⟨_, hout, ?_, ?_, ?_⟩
  · intro m
    show m ∈ ms ↔ _
    constructor
    · intro hm
      have h := hfind m.label
      rw [findLabel_of_mem pout hm] at h
      cases hx : findLabel m.label a.metric with
      | none =>
        cases hy : findLabel m.label b.metric with
        | none => rw [hx, hy] at h; simp [combine] at h
        | some mb =>
          rw [hx, hy, combine_none_left] at h
          cases h
          exact Or.inr ⟨(findLabel_some hy).1, findLabel_none hx⟩
      | some ma =>
        cases hy : findLabel m.label b.metric with
        | none =>
          rw [hx, hy, combine_none_right] at h
          cases h
          exact Or.inl ⟨(findLabel_some hx).1, findLabel_none hy⟩
        | some mb =>
          rw [hx, hy, hdrop] at h
          simp at h
    · rintro (⟨hm, hnot⟩ | ⟨hm, hnot⟩)
      · have h := hfind m.label
        rw [findLabel_of_mem pa hm, findLabel_eq_none hnot, combine_none_right] at h
        exact (findLabel_some h).1
      · have h := hfind m.label
        rw [findLabel_of_mem pb hm, findLabel_eq_none hnot, combine_none_left] at h
        exact (findLabel_some h).1
  · intro ma hma mb hmb hl
    have h := hfind ma.label
    have hb2 : findLabel ma.label b.metric = some mb := by
      rw [hl]; exact findLabel_of_mem pb hmb
    rw [findLabel_of_mem pa hma, hb2, hdrop] at h
    exact findLabel_none h
  · show (List.map (fun m => m.label) ms).Nodup
    rw [List.Nodup, List.pairwise_map]
    exact pout.imp (fun h => lablesLessThan_ne h)

theorem mergeFamily_summary_drops_witness :
    mergeFamily exSummaryLeft exSummaryRight =
      .ok { name := "latency", type := .SUMMARY,
            metric := [exSummarySeries "/a" 1, exSummarySeries "/c" 4] } ∧
    ∃ out, mergeFamily exSummaryLeft exSummaryRight = .ok out ∧
      (∀ m, m ∈ out.metric ↔
        (m ∈ exSummaryLeft.metric ∧ ∀ m2 ∈ exSummaryRight.metric, m2.label ≠ m.label) ∨
        (m ∈ exSummaryRight.metric ∧ ∀ m1 ∈ exSummaryLeft.metric, m1.label ≠ m.label)) ∧
      (∀ ma ∈ exSummaryLeft.metric, ∀ mb ∈ exSummaryRight.metric, ma.label = mb.label →
        ∀ m ∈ out.metric, m.label ≠ ma.label) ∧
      (out.metric.map (fun m => m.label)).Nodup :=
  ⟨by decide,
   (mergeFamily_summary_drops exSummaryLeft exSummaryRight rfl rfl (by decide) (by decide)).2⟩

/-! ### `sort.Sort` -/

theorem insertLeft_perm {α : Type} (less : α → α → Bool) (x : α) :
    ∀ r : List α, (insertLeft less x r).Perm (x :: r) := by
  intro r
  induction r with
  | nil => exact List.Perm.refl _
  | cons y ys ih =>
    simp only [insertLeft]
    split_ifs
    · exact ((ih.cons y).trans (List.Perm.swap x y ys))
    · exact List.Perm.refl _

theorem insertLeft_pairwise {α : Type} {less : α → α → Bool} (hw : StrictWeak less) (x : α) :
    ∀ r : List α, r.Pairwise (fun u v => less u v = false) →
      (insertLeft less x r).Pairwise (fun u v => less u v = false) := by
  obtain ⟨hirr, htr, hneg⟩ := hw
  intro r
  induction r with
  | nil => intro _; simp [insertLeft]
  | cons y ys ih =>
    intro hp
    obtain ⟨hy, hys⟩ := List.pairwise_cons.mp hp
    simp only [insertLeft]
    split_ifs with hxy
    · refine List.pairwise_cons.mpr ⟨?_, ih hys⟩
      intro v hv
      rcases List.mem_cons.mp ((insertLeft_perm less x ys).subset hv) with rfl | hv
      · cases hyx : less y v with
        | false => rfl
        | true =>
          have := htr _ _ _ hxy hyx
          rw [hirr] at this
          exact absurd this (by simp)
      · exact hy v hv
    · have hxy : less x y = false := by simpa using hxy
      refine List.pairwise_cons.mpr ⟨?_, hp⟩
      intro v hv
      rcases List.mem_cons.mp hv with rfl | hv
      · exact hxy
      · exact hneg _ _ _ hxy (hy v hv)

theorem insertionSort_foldl {α : Type} {less : α → α → Bool} (hw : StrictWeak less) :
    ∀ (xs acc : List α), acc.Pairwise (fun u v => less u v = false) →
      (xs.foldl (fun sortedRev x => insertLeft less x sortedRev) acc).Pairwise
          (fun u v => less u v = false) ∧
      (xs.foldl (fun sortedRev x => insertLeft less x sortedRev) acc).Perm (xs.reverse ++ acc) := by
  intro xs
  induction xs with
  | nil => intro acc h; exact ⟨h, List.Perm.refl _⟩
  | cons x xs ih =>
    intro acc h
    obtain ⟨h1, h2⟩ := ih (insertLeft less x acc) (insertLeft_pairwise hw x acc h)
    refine ⟨h1, ?_⟩
    simp only [List.foldl_cons, List.reverse_cons, List.append_assoc, List.singleton_append]
    exact h2.trans (List.Perm.append_left _ (insertLeft_perm less x acc))

/-- The insertion sort meets the contract of `sort.Sort`. -/
theorem insertionSort_sorts {α : Type} {less : α → α → Bool} (hw : StrictWeak less)
    (xs : List α) :
    (insertionSort less xs).Perm xs ∧
      (insertionSort less xs).Pairwise (fun x y => less y x = false) := by
  obtain ⟨h1, h2⟩ := insertionSort_foldl hw xs [] List.Pairwise.nil
  unfold insertionSort
  constructor
  · refine (List.reverse_perm _).trans (h2.trans ?_)
    rw [List.append_nil]
    exact List.reverse_perm xs
  · rw [List.pairwise_reverse]
    exact h1

theorem refLib_sorts : refLib.Sorts :=
  fun _ _ xs hw => insertionSort_sorts hw xs

theorem strLess_eq_false_iff (a b : String) : strLess a b = false ↔ b ≤ a := by
  rw [Bool.eq_false_iff, Ne, strLess_iff, not_lt]

theorem strictWeak_strLess : StrictWeak strLess := by
  refine ⟨?_, ?_, ?_⟩
  · intro x
    rw [strLess_eq_false_iff]
  · intro x y z h1 h2
    rw [strLess_iff] at *
    exact lt_trans h1 h2
  · intro x y z h1 h2
    rw [strLess_eq_false_iff] at *
    exact le_trans h2 h1

theorem strictWeak_byNameLess : StrictWeak byNameLess := by
  obtain ⟨h1, h2, h3⟩ := strictWeak_strLess
  exact ⟨fun x => h1 x.name, fun x y z => h2 x.name y.name z.name,
    fun x y z => h3 x.name y.name z.name⟩

theorem strictWeak_byLabelLess : StrictWeak byLabelLess := by
  refine ⟨fun x => lablesLessThan_irrefl x.label, fun x y z => lablesLessThan_trans, ?_⟩
  intro x y z h1 h2
  unfold byLabelLess at *
  cases hxz : lablesLessThan x.label z.label with
  | false => rfl
  | true =>
    cases hyx : lablesLessThan y.label x.label with
    | true =>
      have := lablesLessThan_trans hyx hxz
      rw [h2] at this
      exact absurd this (by simp)
    | false =>
      have e := lablesLessThan_connex h1 hyx
      rw [e, h2] at hxz
      exact absurd hxz (by simp)

/-! ### The label-sorting step -/

theorem ascending_of_pairwise {α : Type} {less : α → α → Bool} :
    ∀ {l : List α}, l.Pairwise (fun x y => less x y = true) → ascending less l = true := by
  intro l h
  rw [ascending_iff_chain]
  exact List.Pairwise.chain' h

/-- C19, as stated, fails: `byName.Less` compares the names only, so the sort
leaves the pairs `a="2"`, `a="1"` as they are, the value `2` before the value `1`. -/
theorem sort_byName_counterexample :
    refLib.sort LabelPair byNameLess
        [{ name := "a", value := "2" }, { name := "a", value := "1" }] =
      [{ name := "a", value := "2" }, { name := "a", value := "1" }] ∧
    ¬ CanonicalOrder [{ name := "a", value := "2" }, { name := "a", value := "1" }] := by
  decide

/-- C19, amended: the label-sorting step orders the pairs by name.  For every
incoming metric, when `sort.Sort` meets its contract, the sorted label pairs are a
permutation of the input pairs and no pair stands after a pair of a greater name;
when the names of the metric are pairwise distinct, this is the canonical order. -/
theorem sort_byName_by_name (L : Lib) (hs : L.Sorts) (ls : List LabelPair) :
    (L.sort LabelPair byNameLess ls).Perm ls ∧
    (L.sort LabelPair byNameLess ls).Pairwise (fun x y => strLess y.name x.name = false) ∧
    ((ls.map (fun p => p.name)).Nodup → CanonicalOrder (L.sort LabelPair byNameLess ls)) := by
  obtain ⟨hp, hsorted⟩ := hs LabelPair byNameLess ls strictWeak_byNameLess
  refine ⟨hp, hsorted, ?_⟩
  intro hnd
  have hnd2 : ((L.sort LabelPair byNameLess ls).map (fun p => p.name)).Nodup :=
    (List.Perm.nodup_iff (hp.map _)).mpr hnd
  rw [List.Nodup, List.pairwise_map] at hnd2
  apply ascending_of_pairwise
  refine (hsorted.and hnd2).imp ?_
  rintro x y ⟨h1, h2⟩
  have hle : x.name ≤ y.name := (strLess_eq_false_iff _ _).mp h1
  have hlt : x.name < y.name := lt_of_le_of_ne hle h2
  simp [pairLe, (strLess_iff _ _).mpr hlt]

theorem sort_byName_by_name_witness :
    (refLib.sort LabelPair byNameLess
        [{ name := "b", value := "1" }, { name := "a", value := "2" }]).Perm
      [{ name := "b", value := "1" }, { name := "a", value := "2" }] ∧
    CanonicalOrder (refLib.sort LabelPair byNameLess
      [{ name := "b", value := "1" }, { name := "a", value := "2" }]) ∧
    refLib.sort LabelPair byNameLess
        [{ name := "b", value := "1" }, { name := "a", value := "2" }] =
      [{ name := "a", value := "2" }, { name := "b", value := "1" }] :=
  ⟨(sort_byName_by_name refLib refLib_sorts
      [{ name := "b", value := "1" }, { name := "a", value := "2" }]).1,
   (sort_byName_by_name refLib refLib_sorts
      [{ name := "b", value := "1" }, { name := "a", value := "2" }]).2.2 (by decide),
   by decide⟩

/-! ### `validateFamily` -/

theorem validateMetrics_cons (L : Lib) (familyName : String) (seen : List Nat) (m : Metric)
    (rest : List Metric) :
    validateMetrics L familyName seen (m :: rest) =
      if ¬ L.validate (metricLabelSet familyName m) = true then
        some (.invalidLabels (metricLabelSet familyName m))
      else if L.fingerprint (metricLabelSet familyName m) ∈ seen then
        some (.duplicateLabels (metricLabelSet familyName m))
      else validateMetrics L familyName
        (L.fingerprint (metricLabelSet familyName m) :: seen) rest := rfl

/-- The loop of `validateFamily` returns `nil` exactly when every label set is well
formed and no fingerprint repeats or has been seen. -/
theorem validateMetrics_eq_none (L : Lib) (familyName : String) :
    ∀ (ms : List Metric) (seen : List Nat),
      validateMetrics L familyName seen ms = none ↔
        (∀ m ∈ ms, L.validate (metricLabelSet familyName m) = true) ∧
        (ms.map (fun m => L.fingerprint (metricLabelSet familyName m))).Nodup ∧
        (∀ m ∈ ms, L.fingerprint (metricLabelSet familyName m) ∉ seen) := by
  intro ms
  induction ms with
  | nil => intro seen; simp [validateMetrics]
  | cons m rest ih =>
    intro seen
    rw [validateMetrics_cons]
    by_cases hv : L.validate (metricLabelSet familyName m) = true
    · by_cases hs : L.fingerprint (metricLabelSet familyName m) ∈ seen
      · simp [hv, hs]
      · rw [if_neg (not_not.mpr hv), if_neg hs, ih]
        simp only [List.mem_cons, forall_eq_or_imp, List.map_cons, List.nodup_cons, List.mem_map,
          not_exists, not_and, not_or]
        constructor
        · rintro ⟨h1, h2, h3⟩
          exact ⟨⟨hv, h1⟩, ⟨fun x hx e => (h3 x hx).1 e, h2⟩, hs, fun x hx => (h3 x hx).2⟩
        · rintro ⟨⟨_, h1⟩, ⟨h4, h2⟩, _, h3⟩
          exact ⟨h1, h2, fun x hx => ⟨fun e => h4 x hx e, h3 x hx⟩⟩
    · simp [hv]

/-- On well-formed label sets the loop of `validateFamily` returns `nil` or the
duplicate-labels error. -/
theorem validateMetrics_valid (L : Lib) (familyName : String) :
    ∀ (ms : List Metric) (seen : List Nat),
      (∀ m ∈ ms, L.validate (metricLabelSet familyName m) = true) →
      validateMetrics L familyName seen ms = none ∨
        ∃ lset, validateMetrics L familyName seen ms = some (.duplicateLabels lset) := by
  intro ms
  induction ms with
  | nil => intro seen _; exact Or.inl rfl
  | cons m rest ih =>
    intro seen hv
    rw [validateMetrics_cons, if_neg (not_not.mpr (hv m (List.mem_cons_self _ _)))]
    split_ifs
    · exact Or.inr ⟨_, rfl⟩
    · exact ih _ (fun x hx => hv x (List.mem_cons_of_mem _ hx))

theorem mergeIncoming_of_invalid (L : Lib) (families : Store) (name : String)
    (family : MetricFamily) (e : Error)
    (h : validateFamily L (withSortedLabels L family) = some e) :
    mergeIncoming L families name family = .error e := by
  unfold mergeIncoming
  unfold withSortedLabels at h
  simp only [h]

/-- C12: duplicate detection in `validateFamily`.  For every family whose label
sets all pass the well-formedness check, `validateFamily` returns the
duplicate-labels error exactly when two metrics at different positions have the same
fingerprint (of the label set made of the metric's labels and the family name), and
returns `nil` otherwise; so a family with two metrics of identical label pairs is
rejected; and `parseAndMerge` returns the error of this check for its family
whatever the store holds. -/
theorem validateFamily_duplicate_iff (L : Lib) (f : MetricFamily)
    (hv : ∀ m ∈ f.metric, L.validate (metricLabelSet f.name m) = true) :
    ((∃ lset, validateFamily L f = some (.duplicateLabels lset)) ↔
      ∃ i j : Fin (fingerprints L f).length,
        i ≠ j ∧ (fingerprints L f).get i = (fingerprints L f).get j) ∧
    (validateFamily L f = none ↔ (fingerprints L f).Nodup) ∧
    (∀ i j : Fin f.metric.length, i ≠ j → (f.metric.get i).label = (f.metric.get j).label →
      ∃ lset, validateFamily L f = some (.duplicateLabels lset)) ∧
    (∀ (family : MetricFamily) (e : Error) (s1 s2 : Store) (name : String),
      validateFamily L (withSortedLabels L family) = some e →
      mergeIncoming L s1 name family = .error e ∧ mergeIncoming L s2 name family = .error e) := by
  have hnone : validateFamily L f = none ↔ (fingerprints L f).Nodup := by
    unfold validateFamily fingerprints
    rw [validateMetrics_eq_none]
    constructor
    · rintro ⟨_, h, _⟩; exact h
    · intro h; exact ⟨hv, h, fun _ _ => List.not_mem_nil _⟩
  have hdup : (∃ lset, validateFamily L f = some (.duplicateLabels lset)) ↔
      ¬ (fingerprints L f).Nodup := by
    rw [← hnone]
    constructor
    · rintro ⟨lset, h⟩ h0
      rw [h0] at h
      exact absurd h (by simp)
    · intro h
      rcases validateMetrics_valid L f.name f.metric [] hv with h0 | h1
      · exact absurd h0 h
      · exact h1
  have hidx : ¬ (fingerprints L f).Nodup ↔
      ∃ i j : Fin (fingerprints L f).length,
        i ≠ j ∧ (fingerprints L f).get i = (fingerprints L f).get j := by
    rw [List.nodup_iff_injective_get, Function.Injective]
    push_neg
    constructor
    · rintro ⟨i, j, h1, h2⟩; exact ⟨i, j, h2, h1⟩
    · rintro ⟨i, j, h1, h2⟩; exact ⟨i, j, h2, h1⟩
  refine ⟨hdup.trans hidx, hnone, ?_, ?_⟩
  · intro i j hij hl
    rw [hdup, hidx]
    have hlen : (fingerprints L f).length = f.metric.length := by
      unfold fingerprints; rw [List.length_map]
    refine ⟨⟨i.1, by rw [hlen]; exact i.2⟩, ⟨j.1, by rw [hlen]; exact j.2⟩, ?_, ?_⟩
    · intro h
      apply hij
      exact Fin.ext (by simpa using congrArg Fin.val h)
    · unfold fingerprints metricLabelSet
      simp only [List.get_eq_getElem, List.getElem_map]
      have hl2 : f.metric[i.1].label = f.metric[j.1].label := by
        simpa [List.get_eq_getElem] using hl
      rw [hl2]
  · intro family e s1 s2 name h
    exact ⟨mergeIncoming_of_invalid L s1 name family e h,
      mergeIncoming_of_invalid L s2 name family e h⟩

theorem validateFamily_duplicate_iff_witness :
    validateFamily refLib exDuplicate =
      some (.duplicateLabels [("__name__", "requests_total"), ("path", "/")]) ∧
    ∃ lset, validateFamily refLib exDuplicate = some (.duplicateLabels lset) :=
  ⟨by decide,
   (validateFamily_duplicate_iff refLib exDuplicate (by decide)).2.2.1
     ⟨0, by decide⟩ ⟨1, by decide⟩ (by decide) (by decide)⟩

/-! ### The store as a map -/

theorem StrMap.get_set_self {β : Type} (k : String) (v : β) :
    ∀ s : StrMap β, StrMap.get k (StrMap.set k v s) = some v := by
  intro s
  induction s with
  | nil => simp [StrMap.set, StrMap.get]
  | cons kv rest ih =>
    obtain ⟨k1, v1⟩ := kv
    simp only [StrMap.set]
    split_ifs with h1 h2
    · simp [StrMap.get]
    · simp [StrMap.get]
    · have : ¬ k1 = k := fun e => h1 e.symm
      simp [StrMap.get, this, ih]

theorem StrMap.get_set_other {β : Type} {k k2 : String} (v : β) (h : k2 ≠ k) :
    ∀ s : StrMap β, StrMap.get k2 (StrMap.set k v s) = StrMap.get k2 s := by
  intro s
  have hk : ¬ k = k2 := fun e => h e.symm
  induction s with
  | nil => simp [StrMap.set, StrMap.get, hk]
  | cons kv rest ih =>
    obtain ⟨k1, v1⟩ := kv
    simp only [StrMap.set]
    split_ifs with h1 h2
    · subst h1
      simp [StrMap.get, hk]
    · simp [StrMap.get, hk]
    · simp [StrMap.get, ih]

theorem StrMap.mem_of_get {β : Type} {k : String} {v : β} :
    ∀ {s : StrMap β}, StrMap.get k s = some v → (k, v) ∈ s := by
  intro s
  induction s with
  | nil => simp [StrMap.get]
  | cons kv rest ih =>
    obtain ⟨k1, v1⟩ := kv
    simp only [StrMap.get]
    split_ifs with h1
    · intro h
      simp only [Option.some.injEq] at h
      subst h1 h
      exact List.mem_cons_self _ _
    · intro h
      exact List.mem_cons_of_mem _ (ih h)

theorem StrMap.get_of_mem {β : Type} {k : String} {v : β} :
    ∀ {s : StrMap β}, (s.map Prod.fst).Nodup → (k, v) ∈ s → StrMap.get k s = some v := by
  intro s
  induction s with
  | nil => simp
  | cons kv rest ih =>
    obtain ⟨k1, v1⟩ := kv
    intro hnd hm
    simp only [List.map_cons, List.nodup_cons, List.mem_map, not_exists, not_and] at hnd
    rcases List.mem_cons.mp hm with e | hm
    · simp only [Prod.mk.injEq] at e
      obtain ⟨rfl, rfl⟩ := e
      simp [StrMap.get]
    · have hne : ¬ k1 = k := by
        intro e
        exact hnd.1 (k, v) hm e.symm
      simp only [StrMap.get, if_neg hne]
      exact ih hnd.2 hm

theorem StrMap.mem_set {β : Type} {k : String} {v : β} {kv : String × β} :
    ∀ {s : StrMap β}, kv ∈ StrMap.set k v s → kv = (k, v) ∨ kv ∈ s := by
  intro s
  induction s with
  | nil => simp [StrMap.set]
  | cons x rest ih =>
    obtain ⟨k1, v1⟩ := x
    simp only [StrMap.set]
    split_ifs with h1 h2
    · intro h
      rcases List.mem_cons.mp h with e | h
      · exact Or.inl e
      · exact Or.inr (List.mem_cons_of_mem _ h)
    · intro h
      rcases List.mem_cons.mp h with e | h
      · exact Or.inl e
      · exact Or.inr h
    · intro h
      rcases List.mem_cons.mp h with e | h
      · exact Or.inr (e ▸ List.mem_cons_self _ _)
      · rcases ih h with e | h
        · exact Or.inl e
        · exact Or.inr (List.mem_cons_of_mem _ h)

/-! ### The collection handler -/

theorem encodeNames_of_ok (encode : Option MetricFamily → Bool) (families : Store) :
    ∀ names : List String, (∀ n ∈ names, encode (StrMap.get n families) = true) →
      encodeNames encode families names = (names.map (fun n => StrMap.get n families), true) := by
  intro names
  induction names with
  | nil => intro _; rfl
  | cons n rest ih =>
    intro h
    have h1 := h n (List.mem_cons_self _ _)
    have h2 := ih (fun m hm => h m (List.mem_cons_of_mem _ hm))
    simp [encodeNames, h1, h2]

/-- A sequence of pairwise distinct strings that `sort.Sort` has sorted is strictly
ascending. -/
theorem sorted_strings_ascending {names : List String}
    (hsorted : names.Pairwise (fun x y => strLess y x = false)) (hnd : names.Nodup) :
    names.Pairwise (fun x y => strLess x y = true) := by
  refine (hsorted.and hnd).imp ?_
  rintro x y ⟨h1, h2⟩
  rw [strLess_iff]
  exact lt_of_le_of_ne ((strLess_eq_false_iff _ _).mp h1) h2

/-- C13: the snapshot order.  For every store (a map: its names are pairwise
distinct), whatever the order in which the `range` visits its names, when
`sort.Sort` meets its contract and no encoding error occurs, the handler runs to its
end and emits the families `a.families[name]` along a strictly ascending sequence of
names, every entry of the store exactly once; where every family is stored under its
own name, that is strictly ascending by family name. -/
theorem handler_snapshot_order (L : Lib) (hs : L.Sorts) (encode : Option MetricFamily → Bool)
    (families : Store) (visit : List String)
    (hkeys : (families.map Prod.fst).Nodup)
    (hvisit : visit.Perm (families.map Prod.fst))
    (henc : ∀ kv ∈ families, encode (some kv.2) = true) :
    ∃ names : List String,
      handler L encode families visit = (names.map (fun n => StrMap.get n families), true) ∧
      ascending strLess names = true ∧
      names.Perm (families.map Prod.fst) ∧
      (names.map (fun n => StrMap.get n families)).Perm (families.map (fun kv => some kv.2)) ∧
      ((∀ kv ∈ families, kv.2.name = kv.1) →
        (names.map (fun n => StrMap.get n families)).map (Option.map (fun f => f.name)) =
          names.map some) := by
  obtain ⟨hp, hsorted⟩ := hs String strLess visit strictWeak_strLess
  have hperm : (L.sort String strLess visit).Perm (families.map Prod.fst) := hp.trans hvisit
  have hnd : (L.sort String strLess visit).Nodup := (List.Perm.nodup_iff hperm).mpr hkeys
  have hget : ∀ kv ∈ families, StrMap.get kv.1 families = some kv.2 :=
    fun kv hkv => StrMap.get_of_mem hkeys hkv
  have hnames : ∀ n ∈ L.sort String strLess visit, ∃ kv ∈ families, kv.1 = n := by
    intro n hn
    have := hperm.subset hn
    rw [List.mem_map] at this
    exact this
  refine ⟨L.sort String strLess visit, ?_, ?_, hperm, ?_, ?_⟩
  · unfold handler
    apply encodeNames_of_ok
    intro n hn
    obtain ⟨kv, hkv, rfl⟩ := hnames n hn
    rw [hget kv hkv]
    exact henc kv hkv
  · exact ascending_of_pairwise (sorted_strings_ascending hsorted hnd)
  · have h1 := hperm.map (fun n => StrMap.get n families)
    refine h1.trans ?_
    rw [List.map_map]
    have : List.map ((fun n => StrMap.get n families) ∘ Prod.fst) families =
        List.map (fun kv => some kv.2) families := by
      apply List.map_congr_left
      intro kv hkv
      exact hget kv hkv
    rw [this]
  · intro hname
    rw [List.map_map]
    apply List.map_congr_left
    intro n hn
    obtain ⟨kv, hkv, rfl⟩ := hnames n hn
    simp only [Function.comp_apply]
    rw [hget kv hkv]
    simp [hname kv hkv]

theorem handler_snapshot_order_witness :
    handler refLib (fun _ => true) exStore2 ["up", "requests_total"] =
      ([some (exCounter 7), some exUp], true) ∧
    ∃ names : List String,
      handler refLib (fun _ => true) exStore2 ["up", "requests_total"] =
        (names.map (fun n => StrMap.get n exStore2), true) ∧
      ascending strLess names = true ∧
      names.Perm (exStore2.map Prod.fst) ∧
      (names.map (fun n => StrMap.get n exStore2)).Perm (exStore2.map (fun kv => some kv.2)) ∧
      ((∀ kv ∈ exStore2, kv.2.name = kv.1) →
        (names.map (fun n => StrMap.get n exStore2)).map (Option.map (fun f => f.name)) =
          names.map some) :=
  ⟨by decide,
   handler_snapshot_order refLib refLib_sorts (fun _ => true) exStore2 ["up", "requests_total"]
     (by decide) (List.Perm.swap _ _ _) (fun _ _ => rfl)⟩

/-! ### The store invariant -/

theorem mergeIncoming_eq (L : Lib) (families : Store) (name : String) (family : MetricFamily) :
    mergeIncoming L families name family =
      match validateFamily L (withSortedLabels L family) with
      | some err => .error err
      | none =>
        match StrMap.get name families with
        | none => .ok (StrMap.set name (asStored L family) families)
        | some existingFamily =>
          match mergeFamily existingFamily (asStored L family) with
          | .ok merged => .ok (StrMap.set name merged families)
          | .error err => .error err
          | .panic => .panic := rfl

/-- A validated family has pairwise distinct label sequences. -/
theorem validateFamily_labels_nodup {L : Lib} {f : MetricFamily}
    (h : validateFamily L f = none) : (f.metric.map (fun m => m.label)).Nodup := by
  unfold validateFamily at h
  rw [validateMetrics_eq_none] at h
  obtain ⟨_, hnd, _⟩ := h
  have e : f.metric.map (fun m => L.fingerprint (metricLabelSet f.name m)) =
      (f.metric.map (fun m => m.label)).map (fun l =>
        L.fingerprint (StrMap.set "__name__" f.name
          (l.foldl (fun lset p => StrMap.set p.name p.value lset) []))) := by
    rw [List.map_map]
    rfl
  rw [e] at hnd
  exact List.Nodup.of_map _ hnd

/-- A validated family is stored with its metric sequence strictly ascending. -/
theorem asStored_sorted {L : Lib} (hs : L.Sorts) {family : MetricFamily}
    (h : validateFamily L (withSortedLabels L family) = none) :
    LabelSorted (asStored L family).metric := by
  obtain ⟨hp, hsorted⟩ :=
    hs Metric byLabelLess (withSortedLabels L family).metric strictWeak_byLabelLess
  have hnd := validateFamily_labels_nodup h
  have hnd2 : ((asStored L family).metric.map (fun m => m.label)).Nodup :=
    (List.Perm.nodup_iff (hp.map _)).mpr hnd
  rw [List.Nodup, List.pairwise_map] at hnd2
  rw [labelSorted_iff_pairwise]
  refine (List.Pairwise.and hsorted hnd2).imp ?_
  rintro x y ⟨h1, h2⟩
  show lablesLessThan x.label y.label = true
  cases hxy : lablesLessThan x.label y.label with
  | true => rfl
  | false => exact absurd (lablesLessThan_connex hxy h1) h2

/-- A successful merge of two sorted families is sorted. -/
theorem mergeFamily_sorted_of_ok {a b out : MetricFamily} (sa : LabelSorted a.metric)
    (sb : LabelSorted b.metric) (h : mergeFamily a b = .ok out) : LabelSorted out.metric := by
  unfold mergeFamily at h
  split_ifs at h
  obtain ⟨ms, hms, e⟩ := Outcome.map_eq_ok.mp h
  rw [← e]
  exact (labelSorted_iff_pairwise _).mpr
    (mergeMetrics_pairwise _ _ _ _ ((labelSorted_iff_pairwise _).mp sa)
      ((labelSorted_iff_pairwise _).mp sb) hms)

theorem seriesSorted_set {s : Store} {name : String} {f : MetricFamily} (hs : SeriesSorted s)
    (hf : LabelSorted f.metric) : SeriesSorted (StrMap.set name f s) := by
  intro kv hkv
  rcases StrMap.mem_set hkv with e | h
  · rw [e]; exact hf
  · exact hs kv h

theorem mergeIncoming_seriesSorted {L : Lib} (hs : L.Sorts) {families after : Store}
    {name : String} {family : MetricFamily} (hinv : SeriesSorted families)
    (h : mergeIncoming L families name family = .ok after) : SeriesSorted after := by
  rw [mergeIncoming_eq] at h
  cases hv : validateFamily L (withSortedLabels L family) with
  | some e => rw [hv] at h; simp at h
  | none =>
    have hnew := asStored_sorted hs hv
    cases hg : StrMap.get name families with
    | none =>
      rw [hv, hg] at h
      simp only [Outcome.ok.injEq] at h
      rw [← h]
      exact seriesSorted_set hinv hnew
    | some existing =>
      have hex : LabelSorted existing.metric := hinv _ (StrMap.mem_of_get hg)
      cases hm : mergeFamily existing (asStored L family) with
      | ok merged =>
        rw [hv, hg] at h
        simp only [hm, Outcome.ok.injEq] at h
        rw [← h]
        exact seriesSorted_set hinv (mergeFamily_sorted_of_ok hex hnew hm)
      | error e =>
        rw [hv, hg] at h
        simp [hm] at h
      | panic =>
        rw [hv, hg] at h
        simp [hm] at h

theorem mergeAll_seriesSorted {L : Lib} (hs : L.Sorts) :
    ∀ (batch : List (String × MetricFamily)) (families : Store),
      SeriesSorted families → SeriesSorted (mergeAll L families batch).1 := by
  intro batch
  induction batch with
  | nil => intro families h; exact h
  | cons x rest ih =>
    intro families h
    obtain ⟨name, family⟩ := x
    rw [mergeAll_cons]
    cases hm : mergeIncoming L families name family with
    | ok s1 => exact ih s1 (mergeIncoming_seriesSorted hs h hm)
    | error e => exact h
    | panic => exact h

theorem parseAndMerge_seriesSorted {L : Lib} (hs : L.Sorts) (families : Store)
    (parsed : Except Error (List (String × MetricFamily))) (h : SeriesSorted families) :
    SeriesSorted (parseAndMerge L families parsed).1 := by
  cases parsed with
  | error e => exact h
  | ok batch => exact mergeAll_seriesSorted hs batch families h

theorem pushHandler_families (L : Lib) (g : Gateway)
    (parsed : Except Error (List (String × MetricFamily))) :
    (pushHandler L g parsed).1.families = (parseAndMerge L g.families parsed).1 ∧
    (pushHandler L g parsed).1.nextResetTimestampSec = g.nextResetTimestampSec := by
  unfold pushHandler
  rcases hp : parseAndMerge L g.families parsed with ⟨fams, o⟩
  cases o <;> exact ⟨rfl, rfl⟩

/-- C17: the store invariant on the order of the series.  When `sort.Sort` meets
its contract, in every state reached from the empty store by push requests
(successful, rejected or panicking) and resets, every stored family has its metric
sequence strictly ascending under `lablesLessThan`, hence no two series of equal
label sets. -/
theorem reachable_series_sorted (L : Lib) (hs : L.Sorts) (g : Gateway) (hr : Reachable L g) :
    ∀ kv ∈ g.families, LabelSorted kv.2.metric ∧
      kv.2.metric.Pairwise (fun x y => x.label ≠ y.label) := by
  have hinv : SeriesSorted g.families := by
    induction hr with
    | start next => intro kv hkv; simp [newAggate] at hkv
    | push g parsed _ ih =>
      rw [(pushHandler_families L g parsed).1]
      exact parseAndMerge_seriesSorted hs g.families parsed ih
    | tick g next _ _ => intro kv hkv; simp [cronCallback] at hkv
  intro kv hkv
  exact ⟨hinv kv hkv,
    ((labelSorted_iff_pairwise _).mp (hinv kv hkv)).imp (fun h => lablesLessThan_ne h)⟩

theorem reachable_series_sorted_witness :
    (pushHandler refLib exStart (.ok [("hits", exUnsorted)])).1.families = [("hits", exLeft)] ∧
    ∀ kv ∈ (pushHandler refLib exStart (.ok [("hits", exUnsorted)])).1.families,
      LabelSorted kv.2.metric ∧ kv.2.metric.Pairwise (fun x y => x.label ≠ y.label) :=
  ⟨by decide,
   reachable_series_sorted refLib refLib_sorts _
     (Reachable.push exStart (.ok [("hits", exUnsorted)]) (Reachable.start 300))⟩

/-! ### The reset and the deadline -/

theorem pushHandler_single_ok {L : Lib} {g g1 : Gateway} {name : String} {f : MetricFamily}
    {d : Int} (hstore : g.families = [])
    (h : pushHandler L g (.ok [(name, f)]) = (g1, .nextReset d)) :
    validateFamily L (withSortedLabels L f) = none ∧ g1.families = [(name, asStored L f)] := by
  have hfam := (pushHandler_families L g (.ok [(name, f)])).1
  rw [h] at hfam
  simp only at hfam
  have hresp : (pushHandler L g (.ok [(name, f)])).2 = .nextReset d := by rw [h]
  unfold pushHandler at hresp
  unfold parseAndMerge at hresp hfam
  simp only [mergeAll_cons, mergeIncoming_eq, hstore] at hresp hfam
  cases hv : validateFamily L (withSortedLabels L f) with
  | some e => rw [hv] at hresp; simp at hresp
  | none =>
    rw [hv] at hfam
    simp [StrMap.get, StrMap.set, mergeAll] at hfam
    exact ⟨rfl, hfam⟩

/-- C14: a reset starts a fresh window.  After the tick callback the store is
empty, whatever it held, and the collection handler emits nothing; and when the next
push, of a single family `f`, succeeds, the store holds one entry, under the name of
the push: `f` with its own metrics, their label pairs sorted by name and the metrics
sorted by label (a strictly ascending permutation of them when `sort.Sort` meets its
contract), nothing of it coming from the state before the tick. -/
theorem cronCallback_fresh_window (L : Lib) (hs : L.Sorts) (g : Gateway) (next : Int) :
    (cronCallback g next).families = [] ∧
    (∀ encode, handler L encode (cronCallback g next).families [] = ([], true)) ∧
    (∀ name f g1 d,
      pushHandler L (cronCallback g next) (.ok [(name, f)]) = (g1, .nextReset d) →
      g1.families = [(name, asStored L f)] ∧
      (asStored L f).name = f.name ∧ (asStored L f).type = f.type ∧
      (asStored L f).metric.Perm
        (f.metric.map (fun m => { m with label := L.sort LabelPair byNameLess m.label })) ∧
      LabelSorted (asStored L f).metric) := by
  refine ⟨rfl, ?_, ?_⟩
  · intro encode
    have h := (hs String strLess [] strictWeak_strLess).1
    have h0 : L.sort String strLess [] = [] := List.Perm.eq_nil h
    simp [handler, h0, encodeNames]
  · intro name f g1 d h
    obtain ⟨hv, hfam⟩ := pushHandler_single_ok (g := cronCallback g next) rfl h
    exact ⟨hfam, rfl, rfl,
      (hs Metric byLabelLess (withSortedLabels L f).metric strictWeak_byLabelLess).1,
      asStored_sorted hs hv⟩

theorem cronCallback_fresh_window_witness :
    pushHandler refLib (cronCallback { families := exStore, nextResetTimestampSec := 300 } 600)
        (.ok [("hits", exUnsorted)]) =
      ({ families := [("hits", exLeft)], nextResetTimestampSec := 600 }, .nextReset 630) ∧
    asStored refLib exUnsorted = exLeft ∧
    ({ families := [("hits", exLeft)], nextResetTimestampSec := 600 } : Gateway).families =
      [("hits", asStored refLib exUnsorted)] :=
  ⟨by decide, by decide,
   ((cronCallback_fresh_window refLib refLib_sorts
      { families := exStore, nextResetTimestampSec := 300 } 600).2.2
      "hits" exUnsorted _ 630 (by decide)).1⟩

theorem pushAll_deadline (L : Lib) :
    ∀ (pushes : List (Except Error (List (String × MetricFamily)))) (g : Gateway),
      (pushAll L g pushes).1.nextResetTimestampSec = g.nextResetTimestampSec ∧
      ∀ r ∈ (pushAll L g pushes).2, ∀ d, r = .nextReset d →
        d = g.nextResetTimestampSec + 30 := by
  intro pushes
  induction pushes with
  | nil => intro g; simp [pushAll]
  | cons p rest ih =>
    intro g
    obtain ⟨h1, h2⟩ := ih (pushHandler L g p).1
    have hkeep := (pushHandler_families L g p).2
    simp only [pushAll]
    refine ⟨h1.trans hkeep, ?_⟩
    intro r hr d hd
    rcases List.mem_cons.mp hr with e | hr
    · subst hd
      unfold pushHandler at e
      rcases hp : parseAndMerge L g.families p with ⟨fams, o⟩
      rw [hp] at e
      cases o with
      | ok u => simp only [Response.nextReset.injEq] at e; rw [e]; rfl
      | error err => simp at e
      | panic => simp at e
    · rw [← hkeep]
      exact h2 r hr d hd

/-- C15: the deadline reported to producers.  A push that `parseAndMerge` accepts
is answered with exactly `nextResetTimestampSec + 30`; no push changes
`nextResetTimestampSec`; so in every sequence of pushes with no tick between them,
all the successful ones report the same deadline. -/
theorem pushHandler_reports_deadline (L : Lib) (g : Gateway) :
    (∀ parsed, (parseAndMerge L g.families parsed).2 = .ok () →
      (pushHandler L g parsed).2 = .nextReset (g.nextResetTimestampSec + 30)) ∧
    (∀ parsed, (pushHandler L g parsed).1.nextResetTimestampSec = g.nextResetTimestampSec) ∧
    (∀ pushes, (pushAll L g pushes).1.nextResetTimestampSec = g.nextResetTimestampSec ∧
      ∀ r ∈ (pushAll L g pushes).2, ∀ d, r = .nextReset d →
        d = g.nextResetTimestampSec + 30) := by
  refine ⟨?_, fun parsed => (pushHandler_families L g parsed).2, fun pushes =>
    pushAll_deadline L pushes g⟩
  intro parsed h
  unfold pushHandler
  rcases hp : parseAndMerge L g.families parsed with ⟨fams, o⟩
  rw [hp] at h
  simp only at h
  subst h
  rfl

theorem pushHandler_reports_deadline_witness :
    (pushAll refLib exStart
      [.ok [("requests_total", exCounter 3)], .ok [("requests_total", exGauge)],
       .ok [("requests_total", exCounter 4)]]).2 =
      [.nextReset 330, .badRequest (.typeMismatch "requests_total" .COUNTER .GAUGE),
       .nextReset 330] ∧
    (pushHandler refLib exStart (.ok [("requests_total", exCounter 3)])).2 =
      .nextReset (exStart.nextResetTimestampSec + 30) :=
  ⟨by decide,
   (pushHandler_reports_deadline refLib exStart).1 (.ok [("requests_total", exCounter 3)])
     (by decide)⟩

/-! ### The reset and the lock -/

/-- C16, on the code: the tick callback calls neither `Lock` nor `Unlock`, so it
runs in every state, also while a push holds `familiesLock`.  In the run below a
push of the families `up` and `requests_total` takes the lock and stores `up`; the
tick fires (a second `Lock` could not happen there); the push stores
`requests_total` and releases the lock: the reset fell in the middle of the
in-flight push, whose first half is lost. -/
theorem cronCallback_ignores_lock :
    (∀ (L : Lib) (r : Running) (next : Int),
      r.step L (.tick next) = some { r with gateway := cronCallback r.gateway next }) ∧
    Running.run refLib { gateway := exStart, lockHeld := false } [.lock, .iterate "up" exUp] =
      some { gateway := { families := [("up", exUp)], nextResetTimestampSec := 300 },
             lockHeld := true } ∧
    Running.run refLib { gateway := exStart, lockHeld := false }
      [.lock, .iterate "up" exUp, .lock] = none ∧
    Running.run refLib { gateway := exStart, lockHeld := false }
      [.lock, .iterate "up" exUp, .tick 600, .iterate "requests_total" (exCounter 3), .unlock] =
      some { gateway := { families := [("requests_total", exCounter 3)],
                          nextResetTimestampSec := 600 },
             lockHeld := false } :=
  ⟨fun _ _ _ => rfl, by decide, by decide, by decide⟩

/-! ### The order of a batch -/

theorem mergeIncoming_eq_incomingValue (L : Lib) (families : Store) (name : String)
    (family : MetricFamily) :
    mergeIncoming L families name family =
      (incomingValue L (StrMap.get name families) family).map
        (fun v => StrMap.set name v families) := by
  rw [mergeIncoming_eq]
  unfold incomingValue
  cases validateFamily L (withSortedLabels L family) with
  | some e => rfl
  | none =>
    cases StrMap.get name families with
    | none => rfl
    | some existing =>
      simp only
      cases mergeFamily existing (asStored L family) <;> rfl

theorem mergeIncoming_ok_iff {L : Lib} {families after : Store} {name : String}
    {family : MetricFamily} :
    mergeIncoming L families name family = .ok after ↔
      ∃ v, incomingValue L (StrMap.get name families) family = .ok v ∧
        after = StrMap.set name v families := by
  rw [mergeIncoming_eq_incomingValue, Outcome.map_eq_ok]
  constructor
  · rintro ⟨v, h, e⟩; exact ⟨v, h, e.symm⟩
  · rintro ⟨v, h, e⟩; exact ⟨v, h, e.symm⟩

theorem sameMap_set {s t : Store} (h : SameMap s t) (name : String) (v : MetricFamily) :
    SameMap (StrMap.set name v s) (StrMap.set name v t) := by
  intro k
  by_cases hk : k = name
  · subst hk
    rw [StrMap.get_set_self, StrMap.get_set_self]
  · rw [StrMap.get_set_other v hk, StrMap.get_set_other v hk]
    exact h k

theorem sameMap_set_comm (s : Store) {n1 n2 : String} (hne : n1 ≠ n2) (v1 v2 : MetricFamily) :
    SameMap (StrMap.set n2 v2 (StrMap.set n1 v1 s)) (StrMap.set n1 v1 (StrMap.set n2 v2 s)) := by
  intro k
  by_cases h1 : k = n1
  · subst h1
    rw [StrMap.get_set_other v2 hne, StrMap.get_set_self, StrMap.get_set_self]
  · by_cases h2 : k = n2
    · subst h2
      rw [StrMap.get_set_self, StrMap.get_set_other v1 h1, StrMap.get_set_self]
    · rw [StrMap.get_set_other v2 h2, StrMap.get_set_other v1 h1, StrMap.get_set_other v1 h1,
        StrMap.get_set_other v2 h2]

/-- One iteration does the same on two stores that hold the same families. -/
theorem mergeIncoming_sameMap {L : Lib} {s t s1 : Store} {name : String}
    {family : MetricFamily} (hst : SameMap s t)
    (h : mergeIncoming L s name family = .ok s1) :
    ∃ t1, mergeIncoming L t name family = .ok t1 ∧ SameMap s1 t1 := by
  obtain ⟨v, hv, e⟩ := mergeIncoming_ok_iff.mp h
  refine ⟨StrMap.set name v t, mergeIncoming_ok_iff.mpr ⟨v, ?_, rfl⟩, ?_⟩
  · rw [← hst name]; exact hv
  · rw [e]; exact sameMap_set hst name v

/-- Two iterations on families of different names can be exchanged. -/
theorem mergeIncoming_comm {L : Lib} {s s1 s2 : Store} {n1 n2 : String}
    {f1 f2 : MetricFamily} (hne : n1 ≠ n2)
    (h1 : mergeIncoming L s n1 f1 = .ok s1) (h2 : mergeIncoming L s1 n2 f2 = .ok s2) :
    ∃ t1 t2, mergeIncoming L s n2 f2 = .ok t1 ∧ mergeIncoming L t1 n1 f1 = .ok t2 ∧
      SameMap s2 t2 := by
  obtain ⟨v1, hv1, e1⟩ := mergeIncoming_ok_iff.mp h1
  obtain ⟨v2, hv2, e2⟩ := mergeIncoming_ok_iff.mp h2
  subst e1 e2
  rw [StrMap.get_set_other v1 (Ne.symm hne)] at hv2
  refine ⟨StrMap.set n2 v2 s, StrMap.set n1 v1 (StrMap.set n2 v2 s),
    mergeIncoming_ok_iff.mpr ⟨v2, hv2, rfl⟩, mergeIncoming_ok_iff.mpr ⟨v1, ?_, rfl⟩,
    sameMap_set_comm s hne v1 v2⟩
  rw [StrMap.get_set_other v2 hne]
  exact hv1

theorem mergeAll_cons_ok {L : Lib} {s s1 : Store} {name : String} {family : MetricFamily}
    {rest : List (String × MetricFamily)} :
    mergeAll L s ((name, family) :: rest) = (s1, .ok ()) ↔
      ∃ s0, mergeIncoming L s name family = .ok s0 ∧ mergeAll L s0 rest = (s1, .ok ()) := by
  rw [mergeAll_cons]
  cases hm : mergeIncoming L s name family with
  | ok s0 => simp
  | error e => simp
  | panic => simp

/-- A batch processed in another order, on a store that holds the same families:
when the first run inserts or merges every family, so does the second, and the two
stores hold the same families. -/
theorem mergeAll_perm {L : Lib} {l1 l2 : List (String × MetricFamily)} (hp : l1.Perm l2) :
    (l1.map Prod.fst).Nodup → ∀ s t s1, SameMap s t → mergeAll L s l1 = (s1, .ok ()) →
      ∃ t1, mergeAll L t l2 = (t1, .ok ()) ∧ SameMap s1 t1 := by
  induction hp with
  | nil =>
    intro _ s t s1 hst h
    simp only [mergeAll, Prod.mk.injEq, and_true] at h
    subst h
    exact ⟨t, rfl, hst⟩
  | cons x _ ih =>
    intro hnd s t s1 hst h
    obtain ⟨name, family⟩ := x
    obtain ⟨s0, h0, hrest⟩ := mergeAll_cons_ok.mp h
    obtain ⟨t0, ht0, hst0⟩ := mergeIncoming_sameMap hst h0
    obtain ⟨t1, ht1, hs1⟩ := ih (List.nodup_cons.mp hnd).2 s0 t0 s1 hst0 hrest
    exact ⟨t1, mergeAll_cons_ok.mpr ⟨t0, ht0, ht1⟩, hs1⟩
  | swap x y l =>
    intro hnd s t s1 hst h
    obtain ⟨nx, fx⟩ := x
    obtain ⟨ny, fy⟩ := y
    have hne : ny ≠ nx := by
      intro e
      simp only [List.map_cons, List.nodup_cons, List.mem_cons] at hnd
      exact hnd.1 (Or.inl e)
    obtain ⟨sa, ha, hrest⟩ := mergeAll_cons_ok.mp h
    obtain ⟨sb, hb, hrest⟩ := mergeAll_cons_ok.mp hrest
    obtain ⟨ta, hta, hsta⟩ := mergeIncoming_sameMap hst ha
    obtain ⟨tb, htb, hstb⟩ := mergeIncoming_sameMap hsta hb
    obtain ⟨u1, u2, hu1, hu2, hsu⟩ := mergeIncoming_comm hne hta htb
    have hsame : SameMap sb u2 := fun k => (hstb k).trans (hsu k)
    have hl : ∀ (l : List (String × MetricFamily)) (p q p1 : Store), SameMap p q →
        mergeAll L p l = (p1, .ok ()) → ∃ q1, mergeAll L q l = (q1, .ok ()) ∧ SameMap p1 q1 := by
      intro l
      induction l with
      | nil =>
        intro p q p1 hpq hh
        simp only [mergeAll, Prod.mk.injEq, and_true] at hh
        subst hh
        exact ⟨q, rfl, hpq⟩
      | cons z zs ihz =>
        intro p q p1 hpq hh
        obtain ⟨nz, fz⟩ := z
        obtain ⟨p0, hp0, hr⟩ := mergeAll_cons_ok.mp hh
        obtain ⟨q0, hq0, hpq0⟩ := mergeIncoming_sameMap hpq hp0
        obtain ⟨q1, hq1, hpq1⟩ := ihz p0 q0 p1 hpq0 hr
        exact ⟨q1, mergeAll_cons_ok.mpr ⟨q0, hq0, hq1⟩, hpq1⟩
    obtain ⟨t1, ht1, hs1⟩ := hl l sb u2 s1 hsame hrest
    exact ⟨t1, mergeAll_cons_ok.mpr ⟨u1, hu1, mergeAll_cons_ok.mpr ⟨u2, hu2, ht1⟩⟩, hs1⟩
  | trans h12 _ ih1 ih2 =>
    intro hnd s t s1 hst h
    obtain ⟨m1, hm1, hsm⟩ := ih1 hnd s s s1 (fun _ => rfl) h
    have hnd2 := (List.Perm.nodup_iff (h12.map Prod.fst)).mp hnd
    obtain ⟨t1, ht1, hmt⟩ := ih2 hnd2 s t m1 hst hm1
    exact ⟨t1, ht1, fun k => (hsm k).trans (hmt k)⟩

/-! ### Stores in ascending order of the names -/

theorem keysAscending_iff (s : Store) :
    KeysAscending s ↔ s.Pairwise (fun a b => a.1 < b.1) := by
  haveI : IsTrans String (fun x y => strLess x y = true) :=
    ⟨fun _ _ _ h1 h2 => strictWeak_strLess.2.1 _ _ _ h1 h2⟩
  unfold KeysAscending
  rw [ascending_iff_chain, List.chain'_iff_pairwise, List.pairwise_map]
  constructor
  · intro h; exact h.imp (fun hab => (strLess_iff _ _).mp hab)
  · intro h; exact h.imp (fun hab => (strLess_iff _ _).mpr hab)

theorem StrMap.get_eq_none {β : Type} {k : String} :
    ∀ {s : StrMap β}, (∀ kv ∈ s, kv.1 ≠ k) → StrMap.get k s = none := by
  intro s
  induction s with
  | nil => intro _; rfl
  | cons x rest ih =>
    intro h
    obtain ⟨k1, v1⟩ := x
    have h1 : ¬ k1 = k := h (k1, v1) (List.mem_cons_self _ _)
    simp only [StrMap.get, if_neg h1]
    exact ih (fun kv hkv => h kv (List.mem_cons_of_mem _ hkv))

theorem StrMap.set_pairwise {k : String} {v : MetricFamily} :
    ∀ {s : Store}, s.Pairwise (fun a b => a.1 < b.1) →
      (StrMap.set k v s).Pairwise (fun a b => a.1 < b.1) := by
  intro s
  induction s with
  | nil => intro _; simp [StrMap.set]
  | cons x rest ih =>
    intro hp
    obtain ⟨k1, v1⟩ := x
    obtain ⟨hx, hrest⟩ := List.pairwise_cons.mp hp
    simp only [StrMap.set]
    split_ifs with h1 h2
    · subst h1
      exact List.pairwise_cons.mpr ⟨hx, hrest⟩
    · have hlt : k < k1 := (strLess_iff _ _).mp h2
      refine List.pairwise_cons.mpr ⟨?_, hp⟩
      intro kv hkv
      rcases List.mem_cons.mp hkv with e | hkv
      · rw [e]; exact hlt
      · exact lt_trans hlt (hx kv hkv)
    · have hgt : k1 < k := by
        have hle : k1 ≤ k := (strLess_eq_false_iff _ _).mp (by simpa using h2)
        exact lt_of_le_of_ne hle (fun e => h1 e.symm)
      refine List.pairwise_cons.mpr ⟨?_, ih hrest⟩
      intro kv hkv
      rcases StrMap.mem_set hkv with e | hkv
      · rw [e]; exact hgt
      · exact hx kv hkv

/-- Two stores in ascending order of the names that hold the same families are the
same list. -/
theorem keysAscending_ext :
    ∀ (s t : Store), s.Pairwise (fun a b => a.1 < b.1) → t.Pairwise (fun a b => a.1 < b.1) →
      SameMap s t → s = t := by
  intro s
  induction s with
  | nil =>
    intro t _ _ h
    cases t with
    | nil => rfl
    | cons y ys =>
      have := h y.1
      simp [StrMap.get] at this
  | cons x xs ih =>
    intro t hs ht h
    cases t with
    | nil =>
      have := h x.1
      simp [StrMap.get] at this
    | cons y ys =>
      obtain ⟨k1, v1⟩ := x
      obtain ⟨k2, v2⟩ := y
      obtain ⟨hx, hxs⟩ := List.pairwise_cons.mp hs
      obtain ⟨hy, hys⟩ := List.pairwise_cons.mp ht
      have hk : k1 = k2 := by
        rcases lt_trichotomy k1 k2 with hlt | heq | hgt
        · have h1 := h k1
          have hnone : StrMap.get k1 ((k2, v2) :: ys) = none := by
            apply StrMap.get_eq_none
            intro kv hkv
            rcases List.mem_cons.mp hkv with e | hkv
            · rw [e]; exact (ne_of_lt hlt).symm
            · exact (ne_of_lt (lt_trans hlt (hy kv hkv))).symm
          rw [hnone] at h1
          simp [StrMap.get] at h1
        · exact heq
        · have h1 := h k2
          have hnone : StrMap.get k2 ((k1, v1) :: xs) = none := by
            apply StrMap.get_eq_none
            intro kv hkv
            rcases List.mem_cons.mp hkv with e | hkv
            · rw [e]; exact (ne_of_lt hgt).symm
            · exact (ne_of_lt (lt_trans hgt (hx kv hkv))).symm
          rw [hnone] at h1
          simp [StrMap.get] at h1
      subst hk
      have hv : v1 = v2 := by
        have h1 := h k1
        simpa [StrMap.get] using h1
      subst hv
      have htl : SameMap xs ys := by
        intro k
        by_cases hkk : k1 = k
        · subst hkk
          rw [StrMap.get_eq_none (fun kv hkv => (ne_of_lt (hx kv hkv)).symm),
            StrMap.get_eq_none (fun kv hkv => (ne_of_lt (hy kv hkv)).symm)]
        · have h1 := h k
          simpa [StrMap.get, hkk] using h1
      rw [ih ys hxs hys htl]

theorem mergeAll_pairwise_keys {L : Lib} :
    ∀ (batch : List (String × MetricFamily)) (s : Store),
      s.Pairwise (fun a b => a.1 < b.1) →
      (mergeAll L s batch).1.Pairwise (fun a b => a.1 < b.1) := by
  intro batch
  induction batch with
  | nil => intro s h; exact h
  | cons x rest ih =>
    intro s h
    obtain ⟨name, family⟩ := x
    rw [mergeAll_cons]
    cases hm : mergeIncoming L s name family with
    | ok s1 =>
      obtain ⟨v, _, e⟩ := mergeIncoming_ok_iff.mp hm
      exact ih s1 (e ▸ StrMap.set_pairwise h)
    | error e => exact h
    | panic => exact h

/-- Every reachable store is a map in ascending order of its names; in particular
its names are pairwise distinct. -/
theorem reachable_keys (L : Lib) (g : Gateway) (hr : Reachable L g) :
    KeysAscending g.families ∧ (g.families.map Prod.fst).Nodup := by
  have hp : g.families.Pairwise (fun a b => a.1 < b.1) := by
    induction hr with
    | start next => exact List.Pairwise.nil
    | push g parsed _ ih =>
      rw [(pushHandler_families L g parsed).1]
      cases parsed with
      | error e => exact ih
      | ok batch => exact mergeAll_pairwise_keys batch g.families ih
    | tick g next _ _ => exact List.Pairwise.nil
  refine ⟨(keysAscending_iff _).mpr hp, ?_⟩
  rw [List.Nodup, List.pairwise_map]
  exact hp.imp (fun h => ne_of_lt h)

/-- A family that validates, has the type of the family the store holds under its
name, and merges with that family without a panic, is inserted or merged. -/
theorem incomingValue_ok {L : Lib} {existing : Option MetricFamily} {family : MetricFamily}
    (hv : validateFamily L (withSortedLabels L family) = none)
    (hm : ∀ e ∈ existing,
      e.type = family.type ∧ mergeFamily e (asStored L family) ≠ .panic) :
    ∃ v, incomingValue L existing family = .ok v := by
  unfold incomingValue
  rw [hv]
  cases existing with
  | none => exact ⟨_, rfl⟩
  | some e =>
    obtain ⟨ht, hp⟩ := hm e rfl
    exact mergeFamily_ok_of_ne_panic ht hp

/-- A batch of distinct names, each family of which is inserted or merged when taken
alone, is inserted and merged as a whole. -/
theorem mergeAll_of_incomingValue {L : Lib} :
    ∀ (batch : List (String × MetricFamily)) (s : Store), (batch.map Prod.fst).Nodup →
      (∀ nf ∈ batch, ∃ v, incomingValue L (StrMap.get nf.1 s) nf.2 = .ok v) →
      ∃ s1, mergeAll L s batch = (s1, .ok ()) := by
  intro batch
  induction batch with
  | nil => intro s _ _; exact ⟨s, rfl⟩
  | cons x rest ih =>
    intro s hnd h
    obtain ⟨name, family⟩ := x
    obtain ⟨v, hv⟩ := h (name, family) (List.mem_cons_self _ _)
    have hnd2 : name ∉ rest.map Prod.fst ∧ (rest.map Prod.fst).Nodup := by
      simpa using hnd
    obtain ⟨s1, h1⟩ := ih (StrMap.set name v s) hnd2.2 (by
      intro nf hnf
      have hne : nf.1 ≠ name := by
        intro e
        apply hnd2.1
        rw [← e]
        exact List.mem_map_of_mem Prod.fst hnf
      rw [StrMap.get_set_other v hne]
      exact h nf (List.mem_cons_of_mem _ hnf))
    exact ⟨s1, mergeAll_cons_ok.mpr ⟨_, mergeIncoming_ok_iff.mpr ⟨v, hv, rfl⟩, h1⟩⟩

/-- C20, as stated, fails: a batch whose families validate and type-match can leave
a store that depends on the order.  The store holds the histogram family `h` as
decoded from a `h_bucket` line without `_count` and `_sum` lines; the batch holds
the same family `h` and the gauge family `up`.  Both validate, and `h` has the type
of the stored `h`.  Merging `h` panics on the nil `SampleCount`: visited first, it
leaves the store without `up`; visited second, it leaves the store with `up`. -/
theorem parseAndMerge_order_counterexample :
    ([("up", exUp), ("h", exBare)].map Prod.fst).Nodup ∧
    (∀ nf ∈ [("up", exUp), ("h", exBare)],
      validateFamily refLib (withSortedLabels refLib nf.2) = none ∧
      ∀ existing ∈ StrMap.get nf.1 exBareStore, existing.type = nf.2.type) ∧
    parseAndMerge refLib exBareStore (.ok [("up", exUp), ("h", exBare)]) =
      ([("h", exBare), ("up", exUp)], .panic) ∧
    parseAndMerge refLib exBareStore (.ok [("h", exBare), ("up", exUp)]) =
      ([("h", exBare)], .panic) := by
  refine ⟨by decide, by decide, by decide, by decide⟩

/-- C20, amended: the order of a batch does not matter when no merge panics.  For
every store and every batch of families with pairwise distinct names in which every
family validates, has the type of the family the store holds under its name, and
merges with that family without dereferencing a nil payload, `parseAndMerge`
processes the batch without error in every order, and the resulting stores hold the
same family under every name; kept in ascending order of the names, they are the
same list. -/
theorem parseAndMerge_order_independent (L : Lib) (families : Store)
    (batch1 batch2 : List (String × MetricFamily)) (hperm : batch1.Perm batch2)
    (hnames : (batch1.map Prod.fst).Nodup)
    (hvalid : ∀ nf ∈ batch1, validateFamily L (withSortedLabels L nf.2) = none)
    (hmerge : ∀ nf ∈ batch1, ∀ existing ∈ StrMap.get nf.1 families,
      existing.type = nf.2.type ∧ mergeFamily existing (asStored L nf.2) ≠ .panic) :
    ∃ after1 after2, parseAndMerge L families (.ok batch1) = (after1, .ok ()) ∧
      parseAndMerge L families (.ok batch2) = (after2, .ok ()) ∧
      SameMap after1 after2 ∧ (KeysAscending families → after1 = after2) := by
  obtain ⟨after1, h⟩ := mergeAll_of_incomingValue (L := L) batch1 families hnames
    (fun nf hnf => incomingValue_ok (hvalid nf hnf) (hmerge nf hnf))
  obtain ⟨after2, h2, hsame⟩ :=
    mergeAll_perm hperm hnames families families after1 (fun _ => rfl) h
  refine ⟨after1, after2, h, h2, hsame, ?_⟩
  intro hk
  have hp := (keysAscending_iff _).mp hk
  have p1 := mergeAll_pairwise_keys (L := L) batch1 families hp
  have p2 := mergeAll_pairwise_keys (L := L) batch2 families hp
  rw [h] at p1
  rw [h2] at p2
  exact keysAscending_ext after1 after2 p1 p2 hsame

theorem parseAndMerge_order_independent_witness :
    ∃ after1 after2,
      parseAndMerge refLib exStore (.ok [("up", exUp), ("requests_total", exCounter 3)]) =
        (after1, .ok ()) ∧
      parseAndMerge refLib exStore (.ok [("requests_total", exCounter 3), ("up", exUp)]) =
        (after2, .ok ()) ∧
      SameMap after1 after2 ∧ after1 = after2 ∧
      after1 = [("requests_total", exCounter 10), ("up", exUp)] := by
  obtain ⟨after1, after2, h1, h2, h3, h4⟩ :=
    parseAndMerge_order_independent refLib exStore
      [("up", exUp), ("requests_total", exCounter 3)]
      [("requests_total", exCounter 3), ("up", exUp)] (List.Perm.swap _ _ _) (by decide)
      (by decide) (by decide)
  refine ⟨after1, after2, h1, h2, h3, h4 (by decide), ?_⟩
  have e : parseAndMerge refLib exStore (.ok [("up", exUp), ("requests_total", exCounter 3)]) =
      ([("requests_total", exCounter 10), ("up", exUp)], .ok ()) := by decide
  rw [e] at h1
  exact (congrArg Prod.fst h1).symm

end PromAgg
